import Mathlib

/-!
# Shallow embedding of the Limit-Order-Book simulator

This file embeds the matching core of the repository
(`order.hpp`, `orderBook.hpp`/`orderBook.cpp`, `matchingEngine.hpp`/`matchingEngine.cpp`)
into Lean and proves/refutes the specification claims about it.

Modelling conventions:
* `double` prices become `Rat` (prices are only stored and compared, never
  rounded, so any dense linear order is a faithful model of the comparisons);
* C++ `int` quantities become `Int` (the claims do not exercise 32-bit
  overflow, and signed overflow is undefined behaviour in C++ anyway);
* `std::map<double, vector<shared_ptr<Order>>>` becomes a sorted association
  list `List (Rat × List Order)`;
* `std::unordered_map<std::string, shared_ptr<Order>>` becomes an association
  list `List (String × Order)` whose insert overwrites the key, like
  `operator[]`;
* `shared_ptr` aliasing (the same `Order` object is referenced from the
  order map and from its price level) is modelled by updating every stored
  copy that carries the mutated object's `orderId` — in every reachable
  state an id names exactly one object, so this is exactly the C++
  aliasing semantics;
* the mersenne-twister trade-id generator becomes an explicit stream
  (`rng : List Nat`) of the integer draws it produces.
-/

set_option linter.unusedVariables false

namespace LOB

/-- `enum OrderType { BUY, SELL }` from order.hpp. -/
inductive OrderType
  | BUY
  | SELL
deriving DecidableEq, Repr

/-- `enum OrderStatus { PENDING, PARTIALLY_FILLED, FILLED, CANCELLED, REJECTED }` from order.hpp. -/
inductive OrderStatus
  | PENDING
  | PARTIALLY_FILLED
  | FILLED
  | CANCELLED
  | REJECTED
deriving DecidableEq, Repr

/-- `class Order` from order.hpp (the timestamp field is never consulted by
the matching logic and is omitted). -/
structure Order where
  orderId : String
  type : OrderType
  price : Rat
  quantity : Int
  filledQuantity : Int
  status : OrderStatus
  symbol : String
  clientId : String
deriving DecidableEq, Repr

/-- The `Order` constructor: fresh orders start unfilled and `PENDING`. -/
def mkOrder (id : String) (t : OrderType) (p : Rat) (q : Int)
    (sym client : String) : Order :=
  ⟨id, t, p, q, 0, .PENDING, sym, client⟩

/-- `Order::isFullyFilled`: `filledQuantity >= quantity`. -/
def Order.isFullyFilled (o : Order) : Bool := o.quantity ≤ o.filledQuantity

/-- `Order::getRemainingQuantity`: `quantity - filledQuantity`. -/
def Order.getRemainingQuantity (o : Order) : Int := o.quantity - o.filledQuantity

/-- `Order::fill(qty)`: adds to `filledQuantity` and updates the status. -/
def Order.fill (o : Order) (qty : Int) : Order :=
  let f := o.filledQuantity + qty
  { o with
    filledQuantity := f
    status := if o.quantity ≤ f then .FILLED
              else if 0 < f then .PARTIALLY_FILLED
              else o.status }

/-- `Order::cancel()`: sets the status to `CANCELLED`. -/
def Order.setCancelled (o : Order) : Order := { o with status := .CANCELLED }

/-- `struct Trade` from order.hpp (timestamp omitted, as for `Order`). -/
structure Trade where
  tradeId : String
  buyOrderId : String
  sellOrderId : String
  symbol : String
  price : Rat
  quantity : Int
deriving DecidableEq, Repr

/-! ## Decimal rendering of numbers

`generate_order_id` and `generate_trade_id` render numbers with
`std::ostringstream`.  `digitsRevAux` produces the decimal digits
least-significant first (with fuel, so that it is structurally recursive and
kernel-reducible); `natStr` renders them most-significant first. -/

def digitsRevAux : Nat → Nat → List Nat
  | 0, _ => []
  | fuel + 1, n => if n = 0 then [] else n % 10 :: digitsRevAux fuel (n / 10)

def digitChar (d : Nat) : Char := Char.ofNat (48 + d)

/-- Decimal rendering of a positive number, as `operator<<` prints it. -/
def natStr (n : Nat) : String := ⟨((digitsRevAux (n + 1) n).reverse).map digitChar⟩

/-! ## The order book (orderBook.hpp / orderBook.cpp) -/

/-- One price level: the `std::map` key and its `vector<shared_ptr<Order>>`. -/
abbrev Ladder := List (Rat × List Order)

/-- Lookup in the id→order map (`orderMap.find`). -/
def lookupOrder : List (String × Order) → String → Option Order
  | [], _ => none
  | (k, o) :: rest, id => if k = id then some o else lookupOrder rest id

/-- Erase a key from the id→order map (`orderMap.erase`); an
`unordered_map` holds a key at most once, so erasing every matching pair is
the same operation. -/
def eraseKey : List (String × Order) → String → List (String × Order)
  | [], _ => []
  | (k, o) :: rest, id =>
      if k = id then eraseKey rest id else (k, o) :: eraseKey rest id

/-- `orderMap[id] = order`: overwrite the key if present, else insert. -/
def insertPair (m : List (String × Order)) (id : String) (o : Order) :
    List (String × Order) :=
  (id, o) :: eraseKey m id

/-- `buyOrders[order->price].push_back(order)` for the descending
(`std::greater`) bid map: find the key or create it at its sorted position,
and append the order at the back of the queue. -/
def insertOrderDesc : Ladder → Order → Ladder
  | [], o => [(o.price, [o])]
  | (p, q) :: rest, o =>
      if o.price = p then (p, q ++ [o]) :: rest
      else if p < o.price then (o.price, [o]) :: (p, q) :: rest
      else (p, q) :: insertOrderDesc rest o

/-- `sellOrders[order->price].push_back(order)` for the ascending ask map. -/
def insertOrderAsc : Ladder → Order → Ladder
  | [], o => [(o.price, [o])]
  | (p, q) :: rest, o =>
      if o.price = p then (p, q ++ [o]) :: rest
      else if o.price < p then (o.price, [o]) :: (p, q) :: rest
      else (p, q) :: insertOrderAsc rest o

/-- `OrderBook::remove_order`'s ladder half: find the level at the given
price, `std::remove_if` every order with the given id out of its queue, and
erase the level if it became empty. -/
def removeIdAtPrice : Ladder → Rat → String → Ladder
  | [], _, _ => []
  | (p, q) :: rest, pr, id =>
      if p = pr then
        let q' := q.filter (fun o => decide (o.orderId ≠ id))
        if q' = [] then rest else (p, q') :: rest
      else (p, q) :: removeIdAtPrice rest pr id

/-- Apply an object mutation to every order stored in a ladder
(`shared_ptr` aliasing: mutating an object updates it wherever it is
referenced). -/
def mapLadder (g : Order → Order) (l : Ladder) : Ladder :=
  l.map (fun pq => (pq.1, pq.2.map g))

/-- Sum of `getRemainingQuantity` over a level's queue. -/
def levelRemaining (q : List Order) : Int :=
  (q.map Order.getRemainingQuantity).sum

/-- `class OrderBook` from orderBook.hpp.  `rng` is the stream of draws
produced by the static `mt19937` generator inside `generate_trade_id`. -/
structure OrderBook where
  buyOrders : Ladder
  sellOrders : Ladder
  orderMap : List (String × Order)
  bestBid : Rat
  bestAsk : Rat
  bidSize : Int
  askSize : Int
  rng : List Nat
deriving DecidableEq, Repr

/-- `OrderBook::update_market_data`: zero everything, then take the first
(best) level of each side and the sum of remaining quantities across it. -/
def OrderBook.update_market_data (b : OrderBook) : OrderBook :=
  let bid : Rat × Int := match b.buyOrders with
    | [] => (0, 0)
    | (p, q) :: _ => (p, levelRemaining q)
  let ask : Rat × Int := match b.sellOrders with
    | [] => (0, 0)
    | (p, q) :: _ => (p, levelRemaining q)
  { b with bestBid := bid.1, bidSize := bid.2, bestAsk := ask.1, askSize := ask.2 }

/-- `OrderBook::add_order`. -/
def OrderBook.add_order (b : OrderBook) (o : Order) : OrderBook :=
  if o.quantity ≤ 0 then b
  else
    let b₁ := { b with orderMap := insertPair b.orderMap o.orderId o }
    let b₂ := match o.type with
      | .BUY => { b₁ with buyOrders := insertOrderDesc b₁.buyOrders o }
      | .SELL => { b₁ with sellOrders := insertOrderAsc b₁.sellOrders o }
    b₂.update_market_data

/-- `OrderBook::remove_order`. -/
def OrderBook.remove_order (b : OrderBook) (id : String) : OrderBook × Bool :=
  match lookupOrder b.orderMap id with
  | none => (b, false)
  | some o =>
    let b₁ := { b with orderMap := eraseKey b.orderMap id }
    let b₂ := match o.type with
      | .BUY => { b₁ with buyOrders := removeIdAtPrice b₁.buyOrders o.price id }
      | .SELL => { b₁ with sellOrders := removeIdAtPrice b₁.sellOrders o.price id }
    (b₂.update_market_data, true)

/-- Rewrite every stored order copy with an object mutation — the model of
in-place mutations through `shared_ptr` aliases (the same `Order` object is
referenced from `orderMap` and from its price level). -/
def mapBookOrders (g : Order → Order) (b : OrderBook) : OrderBook :=
  { b with
    orderMap := b.orderMap.map (fun kv => (kv.1, g kv.2))
    buyOrders := mapLadder g b.buyOrders
    sellOrders := mapLadder g b.sellOrders }

/-- Mutate the (unique) object with the given id wherever it is stored. -/
def mutateById (b : OrderBook) (id : String) (g : Order → Order) : OrderBook :=
  mapBookOrders (fun o => if o.orderId = id then g o else o) b

/-- `if (order->isFullyFilled()) remove_order(order->orderId);` — the tail
of `execute_trade` for each of the two filled orders (`Order::fill` keeps
`orderId`, so using the filled copy's id is the source's behaviour). -/
def OrderBook.removeIfFilled (b : OrderBook) (o : Order) : OrderBook :=
  if o.isFullyFilled then (b.remove_order o.orderId).1 else b

/-- `OrderBook::cancel_order`: look the id up, mutate the object's status to
`CANCELLED`, then `remove_order` it. -/
def OrderBook.cancel_order (b : OrderBook) (id : String) : OrderBook × Bool :=
  match lookupOrder b.orderMap id with
  | none => (b, false)
  | some _ => (mutateById b id Order.setCancelled).remove_order id

/-- `OrderBook::get_order`. -/
def OrderBook.get_order (b : OrderBook) (id : String) : Option Order :=
  lookupOrder b.orderMap id

/-- `OrderBook::generate_trade_id`: `"T"` followed by the next draw of the
uniform distribution over `[100000, 999999]`. -/
def OrderBook.generate_trade_id (b : OrderBook) : String × OrderBook :=
  ("T" ++ natStr b.rng.headI, { b with rng := b.rng.tail })

/-- `OrderBook::execute_trade`.  The trade record is created first (its
price is **always `sellOrder->price`**, exactly as in the source); both
orders are filled; fully-filled orders are removed.  The fill of each order
is an in-place mutation of a shared object, modelled by rewriting every
stored copy with that id (the sell-side object is rewritten first; in every
reachable state the two ids are distinct, so the order is immaterial). -/
def OrderBook.execute_trade (b : OrderBook) (buyOrder sellOrder : Order)
    (quantity : Int) : OrderBook × Order × Order × Trade :=
  let idb := b.generate_trade_id
  let trade : Trade :=
    ⟨idb.1, buyOrder.orderId, sellOrder.orderId, buyOrder.symbol,
      sellOrder.price, quantity⟩
  let buy' := buyOrder.fill quantity
  let sell' := sellOrder.fill quantity
  let g := fun (o : Order) =>
    if o.orderId = sellOrder.orderId then sell'
    else if o.orderId = buyOrder.orderId then buy' else o
  let b₁ := mapBookOrders g idb.2
  let b₂ := b₁.removeIfFilled buy'
  let b₃ := b₂.removeIfFilled sell'
  (b₃, buy', sell', trade)

/-! ## The matching engine (matchingEngine.cpp) -/

/-- After `execute_trade`, `match_order` erases the front of the best level
if it is fully filled (and the level if it became empty).  When
`execute_trade` already removed the filled maker, the front this re-reads is
the next resting order, exactly as the C++ slot reference does. -/
def popFrontIfFilled : Ladder → Ladder
  | (p, x :: xs) :: rest =>
      if x.isFullyFilled then (if xs = [] then rest else (p, xs) :: rest)
      else (p, x :: xs) :: rest
  | l => l

/-- One iteration of the `while` loop in `MatchingEngine::match_order`:
either the loop breaks (`stop`), or the book advances one step —
erasing an empty best level, or trading against the front resting order. -/
inductive StepResult
  | stop
  | next (b : OrderBook) (o : Order) (tr : Option Trade)

def matchStep (b : OrderBook) (o : Order) : StepResult :=
  match o.type with
  | .BUY =>
    match b.sellOrders with
    | [] => .stop
    | (p, lvl) :: rest =>
      if o.price < p then .stop
      else
        match lvl with
        | [] => .next { b with sellOrders := rest } o none
        | maker :: _ =>
          let tq := min o.getRemainingQuantity maker.getRemainingQuantity
          let r := b.execute_trade o maker tq
          .next { r.1 with sellOrders := popFrontIfFilled r.1.sellOrders }
            r.2.1 (some r.2.2.2)
  | .SELL =>
    match b.buyOrders with
    | [] => .stop
    | (p, lvl) :: rest =>
      if p < o.price then .stop
      else
        match lvl with
        | [] => .next { b with buyOrders := rest } o none
        | maker :: _ =>
          let tq := min o.getRemainingQuantity maker.getRemainingQuantity
          let r := b.execute_trade maker o tq
          .next { r.1 with buyOrders := popFrontIfFilled r.1.buyOrders }
            r.2.2.1 (some r.2.2.2)

/-- The `while` loop, structurally recursive on a fuel argument so that it
is kernel-computable.  `matchFuel` below always supplies enough fuel
(`matchStep_measure_lt` proves the loop measure drops every iteration). -/
def matchLoopF : Nat → OrderBook → Order → OrderBook × Order × List Trade
  | 0, b, o => (b, o, [])
  | fuel + 1, b, o =>
    if 0 < o.getRemainingQuantity then
      match matchStep b o with
      | .stop => (b, o, [])
      | .next b' o' tr =>
        let r := matchLoopF fuel b' o'
        (r.1, r.2.1, match tr with | none => r.2.2 | some t => t :: r.2.2)
    else (b, o, [])

/-- Total number of orders stored in a ladder. -/
def ladderSize (l : Ladder) : Nat := (l.map (fun pq => pq.2.length)).sum

/-- The ladder the aggressor matches against. -/
def oppLadder (b : OrderBook) (t : OrderType) : Ladder :=
  match t with
  | .BUY => b.sellOrders
  | .SELL => b.buyOrders

/-- Loop variant: opposite-side orders + opposite-side levels + (1 if the
aggressor still has remaining quantity). -/
def matchMeasure (b : OrderBook) (o : Order) : Nat :=
  ladderSize (oppLadder b o.type) + (oppLadder b o.type).length +
    (if 0 < o.getRemainingQuantity then 1 else 0)

def matchFuel (b : OrderBook) (o : Order) : Nat := matchMeasure b o + 1

/-- The matching loop of `MatchingEngine::match_order`, with just enough
fuel to reach one of the loop's own exits. -/
def matchRun (b : OrderBook) (o : Order) : OrderBook × Order × List Trade :=
  matchLoopF (matchFuel b o) b o

/-- `MatchingEngine::match_order`: guard, matching loop, then rest the
residual via `add_order`.  Returns the book and the emitted trades. -/
def match_order (b : OrderBook) (o : Order) : OrderBook × List Trade :=
  if o.quantity ≤ 0 then (b, [])
  else
    let r := matchRun b o
    (if 0 < r.2.1.getRemainingQuantity then r.1.add_order r.2.1 else r.1, r.2.2)

/-- `class MatchingEngine`. -/
structure MatchingEngine where
  orderBook : OrderBook
  orderCounter : Nat
deriving DecidableEq, Repr

/-- A fresh engine over a given stream of trade-id draws. -/
def MatchingEngine.init (rng : List Nat) : MatchingEngine :=
  ⟨⟨[], [], [], 0, 0, 0, 0, rng⟩, 0⟩

/-- `MatchingEngine::generate_order_id`: `"O" << ++orderCounter`. -/
def oid (n : Nat) : String := "O" ++ natStr n

/-- `MatchingEngine::submit_order`.  Returns the new engine, the returned
order-id string (`""` for an invalid order) and the trades the matching run
emitted. -/
def MatchingEngine.submit_order (e : MatchingEngine) (type : OrderType)
    (price : Rat) (quantity : Int) (symbol clientId : String) :
    MatchingEngine × String × List Trade :=
  if quantity ≤ 0 ∨ price ≤ 0 then (e, "", [])
  else
    let c := e.orderCounter + 1
    let o := mkOrder (oid c) type price quantity symbol clientId
    let r := match_order e.orderBook o
    (⟨r.1, c⟩, oid c, r.2)

/-- `MatchingEngine::cancel_order`. -/
def MatchingEngine.cancel_order (e : MatchingEngine) (id : String) :
    MatchingEngine × Bool :=
  let r := e.orderBook.cancel_order id
  (⟨r.1, e.orderCounter⟩, r.2)

/-- `MatchingEngine::modify_order`: fails unless the id resolves to a
`PENDING` order; otherwise cancels it and re-matches a new order with the
**same id** and the modified price/quantity (no validation, no counter
bump). -/
def MatchingEngine.modify_order (e : MatchingEngine) (id : String)
    (newPrice : Rat) (newQuantity : Int) : MatchingEngine × Bool × List Trade :=
  match e.orderBook.get_order id with
  | none => (e, false, [])
  | some o =>
    if o.status ≠ .PENDING then (e, false, [])
    else
      let b₁ := (e.orderBook.cancel_order id).1
      let o' := mkOrder id o.type newPrice newQuantity o.symbol o.clientId
      let r := match_order b₁ o'
      (⟨r.1, e.orderCounter⟩, true, r.2)

/-- The engine states reachable through the public operations of a session:
a fresh engine followed by any sequence of submit / cancel / modify. -/
inductive Reachable : MatchingEngine → Prop
  | init (rng : List Nat) : Reachable (MatchingEngine.init rng)
  | submit {e} (t p q sym cl) : Reachable e →
      Reachable (e.submit_order t p q sym cl).1
  | cancel {e} (id) : Reachable e → Reachable (e.cancel_order id).1
  | modify {e} (id p q) : Reachable e → Reachable (e.modify_order id p q).1

/-! ## Fresh scans of the book (for the market-data claims) -/

/-- Best bid obtained by a fresh scan of the bid map (its first, i.e.
highest, key), `0` when empty — the same scan `update_market_data`
performs. -/
def scanBestBid (b : OrderBook) : Rat :=
  match b.buyOrders with
  | [] => 0
  | (p, _) :: _ => p

def scanBestAsk (b : OrderBook) : Rat :=
  match b.sellOrders with
  | [] => 0
  | (p, _) :: _ => p

/-- Size at the best bid level by a fresh scan (sum of remaining). -/
def scanBidSize (b : OrderBook) : Int :=
  match b.buyOrders with
  | [] => 0
  | (_, q) :: _ => levelRemaining q

def scanAskSize (b : OrderBook) : Int :=
  match b.sellOrders with
  | [] => 0
  | (_, q) :: _ => levelRemaining q

/-- The derived projections agree with a fresh scan of the maps. -/
def projectionsFresh (b : OrderBook) : Prop :=
  b.bestBid = scanBestBid b ∧ b.bestAsk = scanBestAsk b ∧
    b.bidSize = scanBidSize b ∧ b.askSize = scanAskSize b

instance (b : OrderBook) : Decidable (projectionsFresh b) := by
  unfold projectionsFresh; infer_instance

/-- The ladder holding orders of the given side. -/
def ownLadder (b : OrderBook) (t : OrderType) : Ladder :=
  match t with
  | .BUY => b.buyOrders
  | .SELL => b.sellOrders

/-- The queue of the price level with the given key (`[]` if absent). -/
def levelQueue : Ladder → Rat → List Order
  | [], _ => []
  | (p, q) :: rest, pr => if p = pr then q else levelQueue rest pr

/-- `true` when the top of the opposite side does not cross the order's
price, i.e. the matching loop's first price test breaks immediately. -/
def noMatchTop (b : OrderBook) (o : Order) : Bool :=
  match o.type with
  | .BUY =>
    match b.sellOrders with
    | [] => true
    | (p, _) :: _ => o.price < p
  | .SELL =>
    match b.buyOrders with
    | [] => true
    | (p, _) :: _ => p < o.price

/-- The price keys of a ladder, in map-iteration order. -/
def ladderKeys (l : Ladder) : List Rat := l.map Prod.fst

/-- Orders plus levels — the part of the matching-loop variant contributed
by one ladder. -/
def sizeLevels (l : Ladder) : Nat := ladderSize l + l.length

/-- The bid map iterates strictly descending, the ask map strictly
ascending (`std::map` with `greater` resp. `less` keys). -/
def SortedBook (b : OrderBook) : Prop :=
  List.Pairwise (· > ·) (ladderKeys b.buyOrders) ∧
    List.Pairwise (· < ·) (ladderKeys b.sellOrders)

/-- Every bid price is strictly below every ask price; with both sides
non-empty this says exactly `max(bids.keys) < min(asks.keys)`. -/
def NoCross (b : OrderBook) : Prop :=
  ∀ pb ∈ ladderKeys b.buyOrders, ∀ pa ∈ ladderKeys b.sellOrders, pb < pa

/-- The structural book invariant used for the no-crossed-book claim. -/
def BookInv (b : OrderBook) : Prop := SortedBook b ∧ NoCross b

/-- Value of a little-endian digit list (left inverse of `digitsRevAux`,
used to prove order ids injective). -/
def digitsVal : List Nat → Nat
  | [] => 0
  | d :: ds => d + 10 * digitsVal ds

/-- All orders stored in a ladder, best level first. -/
def ordersOf (l : Ladder) : List Order := (l.map Prod.snd).flatten

/-- All orders resting in the book. -/
def allOrders (b : OrderBook) : List Order :=
  ordersOf b.buyOrders ++ ordersOf b.sellOrders

/-- Total remaining quantity over the id→order index. -/
def mapRemaining (m : List (String × Order)) : Int :=
  (m.map (fun kv => kv.2.getRemainingQuantity)).sum

/-- Well-formedness of the book, true in every reachable state: the index
is keyed by the orders' own ids, without duplicates; every resting order is
indexed under its id, lies on the ladder of its own side at the level of
its own price; ids are unique across the book; resting orders have
positive remaining quantity; no level is empty. -/
def BookWF (b : OrderBook) : Prop :=
  (∀ kv ∈ b.orderMap, (kv.2).orderId = kv.1) ∧
  (b.orderMap.map Prod.fst).Nodup ∧
  (∀ pq ∈ b.buyOrders, ∀ x ∈ pq.2,
      lookupOrder b.orderMap x.orderId = some x ∧
        x.type = OrderType.BUY ∧ x.price = pq.1) ∧
  (∀ pq ∈ b.sellOrders, ∀ x ∈ pq.2,
      lookupOrder b.orderMap x.orderId = some x ∧
        x.type = OrderType.SELL ∧ x.price = pq.1) ∧
  ((allOrders b).map Order.orderId).Nodup ∧
  (∀ x ∈ allOrders b, 0 < x.getRemainingQuantity) ∧
  (∀ pq ∈ b.buyOrders, pq.2 ≠ []) ∧
  (∀ pq ∈ b.sellOrders, pq.2 ≠ [])

/-- The given id is completely absent from the book. -/
def idFree (b : OrderBook) (id : String) : Prop :=
  (∀ x ∈ allOrders b, x.orderId ≠ id) ∧ (∀ kv ∈ b.orderMap, kv.1 ≠ id)

/-- Ids issued by the engine's counter so far. -/
def idDomain (c : Nat) (k : String) : Prop :=
  ∃ j, 1 ≤ j ∧ j ≤ c ∧ k = oid j

/-- The engine invariant: a well-formed, sorted, uncrossed book whose index
keys all come from the order-id counter. -/
def EngineInv (e : MatchingEngine) : Prop :=
  BookWF e.orderBook ∧ SortedBook e.orderBook ∧ NoCross e.orderBook ∧
    (∀ kv ∈ e.orderBook.orderMap, idDomain e.orderCounter kv.1)

/-- The guard `modify_order` tests: the id is absent, or the order it
resolves to is not `PENDING`. -/
def notPendingAt (b : OrderBook) (id : String) : Prop :=
  match b.get_order id with
  | none => True
  | some o => o.status ≠ OrderStatus.PENDING

instance (b : OrderBook) (id : String) : Decidable (notPendingAt b id) := by
  unfold notPendingAt
  cases b.get_order id <;> infer_instance

/-! ## Concrete session states used by the claims -/

/-- C1 failing input: a resting BUY at 101 … -/
def c1Resting : MatchingEngine :=
  ((MatchingEngine.init [100000]).submit_order .BUY 101 50 "DEFAULT" "DEFAULT").1

/-- … hit by a SELL aggressor at 100. -/
def c1Result : MatchingEngine × String × List Trade :=
  c1Resting.submit_order .SELL 100 50 "DEFAULT" "DEFAULT"

/-- C2 scenario: SELL A, then SELL B, both 50 @ 100.00, from an empty book. -/
def c2TwoSells : MatchingEngine :=
  ((((MatchingEngine.init [100000]).submit_order .SELL 100 50 "DEFAULT" "DEFAULT").1).submit_order
    .SELL 100 50 "DEFAULT" "DEFAULT").1

/-- … then a BUY 50 @ 100.00. -/
def c2Result : MatchingEngine × String × List Trade :=
  c2TwoSells.submit_order .BUY 100 50 "DEFAULT" "DEFAULT"

/-- C5 scenario: a session whose trade-id generator draws 500000 and then
200000; two resting SELLs are swept by one BUY, emitting two trades. -/
def c5Session : MatchingEngine :=
  ((((MatchingEngine.init [500000, 200000]).submit_order .SELL 100 30 "DEFAULT" "DEFAULT").1).submit_order
    .SELL 100 30 "DEFAULT" "DEFAULT").1

def c5Result : MatchingEngine × String × List Trade :=
  c5Session.submit_order .BUY 100 60 "DEFAULT" "DEFAULT"

/-- C6 scenario: a resting SELL 100 @ 100.00 partially filled (30) by a BUY
aggressor that fills completely, so no insert/remove runs afterwards. -/
def c6Resting : MatchingEngine :=
  ((MatchingEngine.init [100000]).submit_order .SELL 100 100 "DEFAULT" "DEFAULT").1

def c6Result : MatchingEngine × String × List Trade :=
  c6Resting.submit_order .BUY 100 30 "DEFAULT" "DEFAULT"

/-- C7/C8 scenario: a single resting SELL 50 @ 100.00 (id "O1"). -/
def c7Resting : MatchingEngine :=
  ((MatchingEngine.init [100000]).submit_order .SELL 100 50 "DEFAULT" "DEFAULT").1

/-- The C7 modify path: `modify("O1", 101.00, 50)`. -/
def c7ModifyPath : MatchingEngine :=
  (c7Resting.modify_order "O1" 101 50).1

/-- The C7 cancel-then-submit path: `cancel("O1"); submit(SELL, 101.00, 50)`. -/
def c7CancelSubmitPath : MatchingEngine :=
  (((c7Resting.cancel_order "O1").1).submit_order .SELL 101 50 "DEFAULT" "DEFAULT").1

/-! ## Basic lemmas about the book primitives -/

theorem lookupOrder_map (m : List (String × Order)) (h : Order → Order) (id : String) :
    lookupOrder (m.map fun kv => (kv.1, h kv.2)) id = (lookupOrder m id).map h := by
  induction m with
  | nil => rfl
  | cons kv rest ih =>
    simp only [List.map_cons, lookupOrder]
    split <;> simp [ih]

theorem lookupOrder_eraseKey_self (m : List (String × Order)) (id : String) :
    lookupOrder (eraseKey m id) id = none := by
  induction m with
  | nil => rfl
  | cons kv rest ih =>
    simp only [eraseKey]
    split
    · exact ih
    · simp only [lookupOrder]
      rw [if_neg (by assumption)]
      exact ih

theorem update_market_data_orderMap (b : OrderBook) :
    b.update_market_data.orderMap = b.orderMap := rfl

theorem remove_order_orderMap {b : OrderBook} {id : String} {o : Order}
    (h : lookupOrder b.orderMap id = some o) :
    ((b.remove_order id).1).orderMap = eraseKey b.orderMap id := by
  unfold OrderBook.remove_order
  rw [h]
  obtain ⟨i, ty, p, q, f, st, sy, cl⟩ := o
  cases ty <;> rfl

theorem cancel_order_false {b : OrderBook} {id : String}
    (h : lookupOrder b.orderMap id = none) :
    b.cancel_order id = (b, false) := by
  unfold OrderBook.cancel_order
  rw [h]

theorem cancel_order_orderMap {b : OrderBook} {id : String} {o : Order}
    (h : lookupOrder b.orderMap id = some o) :
    ((b.cancel_order id).1).orderMap =
      eraseKey (b.orderMap.map fun kv =>
        (kv.1, if kv.2.orderId = id then kv.2.setCancelled else kv.2)) id := by
  unfold OrderBook.cancel_order
  rw [h]
  have hm : lookupOrder (mutateById b id Order.setCancelled).orderMap id =
      some (if o.orderId = id then o.setCancelled else o) := by
    simp only [mutateById, mapBookOrders]
    rw [lookupOrder_map b.orderMap
      (fun x => if x.orderId = id then x.setCancelled else x) id, h]
    rfl
  rw [remove_order_orderMap hm]
  simp only [mutateById, mapBookOrders]

/-- `update_market_data` leaves the book satisfying `projectionsFresh`:
the projections are recomputed from exactly the scan they are compared to. -/
theorem projectionsFresh_update (b : OrderBook) :
    projectionsFresh b.update_market_data := by
  unfold projectionsFresh OrderBook.update_market_data
  unfold scanBestBid scanBestAsk scanBidSize scanAskSize
  cases b.buyOrders <;> cases b.sellOrders <;> simp

/-- The matching loop's first iteration breaks when the opposite top does
not cross the aggressor's price. -/
theorem matchStep_stop_of_noMatchTop {b : OrderBook} {o : Order}
    (h : noMatchTop b o = true) : matchStep b o = .stop := by
  unfold noMatchTop at h
  cases ht : o.type
  case BUY =>
    rw [ht] at h
    cases hs : b.sellOrders with
    | nil => unfold matchStep; rw [ht, hs]
    | cons lv rest =>
      obtain ⟨p, q⟩ := lv
      rw [hs] at h
      simp only [decide_eq_true_eq] at h
      unfold matchStep
      rw [ht, hs]
      simp [h]
  case SELL =>
    rw [ht] at h
    cases hs : b.buyOrders with
    | nil => unfold matchStep; rw [ht, hs]
    | cons lv rest =>
      obtain ⟨p, q⟩ := lv
      rw [hs] at h
      simp only [decide_eq_true_eq] at h
      unfold matchStep
      rw [ht, hs]
      simp [h]

/-- A matching run against a non-crossing book does nothing. -/
theorem matchRun_of_noMatchTop {b : OrderBook} {o : Order}
    (h : noMatchTop b o = true) : matchRun b o = (b, o, []) := by
  unfold matchRun matchFuel matchLoopF
  rw [matchStep_stop_of_noMatchTop h]
  split <;> rfl

/-! ## The claims -/

/-- Claim C1.  The claim says every trade executes at the passive (maker)
price.  `OrderBook::execute_trade` prices every trade at
`sellOrder->price`; when the aggressor is the SELL side this is the
aggressor's price, not the maker's.  Evaluating the code at the failing
input: the book rests a BUY at 101.00 (the maker), a SELL aggressor at
100.00 matches it, and the emitted trade's price is 100.00 — the
aggressor's price — while the resting maker's price is 101.00. -/
theorem c1_sell_aggressor_trades_at_aggressor_price :
    c1Resting.orderBook.buyOrders =
      [(101, [⟨"O1", .BUY, 101, 50, 0, .PENDING, "DEFAULT", "DEFAULT"⟩])] ∧
    c1Result.2.2 = [⟨"T100000", "O1", "O2", "DEFAULT", 100, 50⟩] ∧
    (∀ t ∈ c1Result.2.2, t.price = 100 ∧ t.price ≠ 101) := by
  refine ⟨by decide, by decide, by decide⟩

/-- Claim C2 (confirmed).  Time priority with untouched successors: after
SELL A (50 @ 100.00), SELL B (50 @ 100.00) and BUY 50 @ 100.00 from an
empty book, exactly one trade occurs, it fills A ("O1") only, and B
("O2") still rests at 100.00 with remaining 50, untouched. -/
theorem c2_time_priority :
    c2Result.2.2 = [⟨"T100000", "O3", "O1", "DEFAULT", 100, 50⟩] ∧
    c2Result.1.orderBook.sellOrders =
      [(100, [⟨"O2", .SELL, 100, 50, 0, .PENDING, "DEFAULT", "DEFAULT"⟩])] ∧
    c2Result.1.orderBook.buyOrders = [] ∧
    c2Result.1.orderBook.get_order "O1" = none := by
  refine ⟨by decide, by decide, by decide, by decide⟩

/-- Claim C5, counterexample.  The claim says trade ids come from a
monotonic counter and their decimal parts strictly increase across a
session.  `generate_trade_id` actually draws uniform pseudo-random numbers:
in a session whose generator draws 500000 then 200000, one submit emits two
trades whose ids are "T500000" and then "T200000" — the decimal parts
decrease. -/
theorem c5_counterexample :
    (c5Result.2.2.map Trade.tradeId = ["T500000", "T200000"]) ∧ 200000 < 500000 := by
  refine ⟨by decide, by decide⟩

/-- Claim C5, amended.  Every trade id is `"T"` followed by the decimal
rendering of the next pseudo-random draw of the book's generator — not a
value of a dedicated monotonic counter, so successive ids need not
increase. -/
theorem c5_amended_trade_id_from_rng (b : OrderBook) (buy sell : Order) (q : Int) :
    ((b.execute_trade buy sell q).2.2.2).tradeId = "T" ++ natStr b.rng.headI := rfl

/-- Claim C6, counterexample.  The claim says the projections match a fresh
scan after every completed operation, including a submit that only
partially fills a resting order.  After SELL 100 @ 100.00 and then BUY
30 @ 100.00 (aggressor fully filled, maker partially filled, nothing
inserted or removed), `askSize` still reads 100 while a fresh scan of the
ask map yields 70. -/
theorem c6_counterexample :
    c6Result.1.orderBook.askSize = 100 ∧
    scanAskSize c6Result.1.orderBook = 70 ∧
    ¬ projectionsFresh c6Result.1.orderBook := by
  refine ⟨by decide, by decide, by decide⟩

/-- Claim C6, amended.  The projections match a fresh scan after the
operations that end in `update_market_data`: inserting an order with
positive quantity, and any successful removal (hence any successful
cancel).  A submit that only partially fills a resting order runs neither
and leaves the sizes stale. -/
theorem c6_amended_projections_fresh_after_insert_remove :
    (∀ (b : OrderBook) (o : Order), 0 < o.quantity →
        projectionsFresh (b.add_order o)) ∧
    (∀ (b : OrderBook) (id : String), (b.remove_order id).2 = true →
        projectionsFresh (b.remove_order id).1) := by
  constructor
  · intro b o hq
    unfold OrderBook.add_order
    rw [if_neg (by omega)]
    obtain ⟨i, ty, p, q, f, st, sy, cl⟩ := o
    cases ty <;> exact projectionsFresh_update _
  · intro b id hr
    unfold OrderBook.remove_order at hr ⊢
    cases h : lookupOrder b.orderMap id with
    | none => rw [h] at hr; simp at hr
    | some o =>
      obtain ⟨i, ty, p, q, f, st, sy, cl⟩ := o
      cases ty <;> exact projectionsFresh_update _

/-- Witness for the amended C6: both parts applied at a concrete book. -/
theorem c6_amended_witness :
    projectionsFresh (c6Resting.orderBook.add_order
      (mkOrder "X1" .BUY 99 10 "DEFAULT" "DEFAULT")) ∧
    projectionsFresh (c6Resting.orderBook.remove_order "O1").1 :=
  ⟨c6_amended_projections_fresh_after_insert_remove.1 _ _ (by decide),
   c6_amended_projections_fresh_after_insert_remove.2 c6Resting.orderBook "O1" (by decide)⟩

/-- Claim C7, counterexample.  The claim says `modify(id, p, q)` leaves the
engine in the same state as `cancel(id)` followed by a fresh
`submit(...)`.  On a book holding only "O1" (SELL 50 @ 100.00),
`modify("O1", 101.00, 50)` keeps the id "O1" and does not advance the
order counter, while `cancel("O1"); submit(SELL, 101.00, 50)` creates
"O2" and advances the counter — the resulting engines differ. -/
theorem c7_counterexample :
    c7ModifyPath.orderCounter = 1 ∧
    c7CancelSubmitPath.orderCounter = 2 ∧
    c7ModifyPath.orderBook.get_order "O1" ≠ none ∧
    c7CancelSubmitPath.orderBook.get_order "O1" = none ∧
    c7ModifyPath ≠ c7CancelSubmitPath := by
  refine ⟨by decide, by decide, by decide, by decide, by decide⟩

/-- Claim C8, counterexample.  The claim says a cancel of a terminal order
returns `ALREADY_TERMINAL`, distinguishable from the `UNKNOWN_ID` returned
for an id that never existed.  `cancel_order` returns a bare bool: after
cancelling "O1", a second cancel of "O1" and a cancel of the never-issued
"O9" both return the same `false` — the two failures are
indistinguishable. -/
theorem c8_counterexample :
    (c7Resting.cancel_order "O1").2 = true ∧
    (((c7Resting.cancel_order "O1").1).cancel_order "O1").2 = false ∧
    (((c7Resting.cancel_order "O1").1).cancel_order "O9").2 = false ∧
    (((c7Resting.cancel_order "O1").1).cancel_order "O1").2 =
      (((c7Resting.cancel_order "O1").1).cancel_order "O9").2 := by
  refine ⟨by decide, by decide, by decide, by decide⟩

/-- Claim C8, amended.  Cancellation reports only a boolean: a second
cancel of the same id never succeeds (the first successful cancel removed
the id from the index), and the failure is the same `false` produced for
unknown ids. -/
theorem book_cancel_cancel_false (b : OrderBook) (id : String)
    (h : (b.cancel_order id).2 = true) :
    (((b.cancel_order id).1).cancel_order id).2 = false := by
  cases hl : lookupOrder b.orderMap id with
  | none =>
    rw [cancel_order_false hl] at h
    exact absurd h (by simp)
  | some o =>
    have hnone : lookupOrder ((b.cancel_order id).1).orderMap id = none := by
      rw [cancel_order_orderMap hl]
      exact lookupOrder_eraseKey_self _ _
    rw [cancel_order_false hnone]

theorem c8_amended_second_cancel_fails (e : MatchingEngine) (id : String)
    (h : (e.cancel_order id).2 = true) :
    (((e.cancel_order id).1).cancel_order id).2 = false :=
  book_cancel_cancel_false e.orderBook id h

/-- Witness for the amended C8 at a concrete session. -/
theorem c8_amended_witness :
    (((c7Resting.cancel_order "O1").1).cancel_order "O1").2 = false :=
  c8_amended_second_cancel_fails c7Resting "O1" (by decide)

/-- Claim C9, counterexample.  The claim says an invalid price fails with
`INVALID_PRICE` and an invalid quantity with `INVALID_QUANTITY`,
respectively distinguishable validation errors.  The code returns the same
empty order id (and identical engine state) for both failures, so the two
cannot be told apart. -/
theorem c9_counterexample :
    (MatchingEngine.init []).submit_order .SELL (-1) 5 "DEFAULT" "DEFAULT" =
      (MatchingEngine.init []).submit_order .SELL 5 (-1) "DEFAULT" "DEFAULT" := by
  decide

/-- Claim C9, amended.  Validation is atomic but undifferentiated: any
submit with `price ≤ 0` or `quantity ≤ 0` returns the empty order id,
produces no trade, and leaves the engine exactly unchanged. -/
theorem c9_amended_invalid_submit_is_noop (e : MatchingEngine) (t : OrderType)
    (p : Rat) (q : Int) (sym cl : String) (h : p ≤ 0 ∨ q ≤ 0) :
    e.submit_order t p q sym cl = (e, "", []) := by
  unfold MatchingEngine.submit_order
  rw [if_pos (Or.symm h)]

/-- Witness for the amended C9. -/
theorem c9_amended_witness :
    (MatchingEngine.init []).submit_order .BUY (-2) 7 "DEFAULT" "DEFAULT" =
      (MatchingEngine.init [], "", []) :=
  c9_amended_invalid_submit_is_noop _ _ _ _ _ _ (Or.inl (by norm_num))

/-- Claim C10 (confirmed).  `modify_order` fails, with no state change, no
status result other than `false` and no trades, whenever the id is absent
or the resolved order's status is anything but `PENDING` (in particular
for a `PARTIALLY_FILLED` order still resting in the book); equivalently,
only a resting `PENDING` order can be modified. -/
theorem c10_modify_requires_pending (e : MatchingEngine) (id : String)
    (p : Rat) (q : Int) (h : notPendingAt e.orderBook id) :
    e.modify_order id p q = (e, false, []) := by
  unfold notPendingAt at h
  unfold MatchingEngine.modify_order
  cases hl : e.orderBook.get_order id with
  | none => rfl
  | some o =>
    have h' : o.status ≠ OrderStatus.PENDING := by
      rw [hl] at h
      exact h
    simp [h']

/-- Witness for C10: in the C6 session "O1" rests `PARTIALLY_FILLED`, and
modifying it fails without touching the engine. -/
theorem c10_witness :
    c6Result.1.modify_order "O1" 99 10 = (c6Result.1, false, []) :=
  c10_modify_requires_pending c6Result.1 "O1" 99 10 (by decide)

/-! ## Ladder bookkeeping lemmas

Effect of each primitive on the price keys and on the loop variant
`sizeLevels`, towards the no-crossed-book invariant and the conservation
law. -/

theorem ladderSize_cons (p : Rat) (q : List Order) (rest : Ladder) :
    ladderSize ((p, q) :: rest) = q.length + ladderSize rest := by
  simp [ladderSize]

theorem ladderKeys_mapLadder (g : Order → Order) (l : Ladder) :
    ladderKeys (mapLadder g l) = ladderKeys l := by
  induction l with
  | nil => rfl
  | cons pq rest ih =>
    simp only [ladderKeys, mapLadder, List.map_cons] at *
    rw [ih]

theorem ladderSize_mapLadder (g : Order → Order) (l : Ladder) :
    ladderSize (mapLadder g l) = ladderSize l := by
  induction l with
  | nil => rfl
  | cons pq rest ih =>
    simp only [ladderSize, mapLadder, List.map_cons, List.sum_cons,
      List.length_map] at *
    rw [ih]

theorem sizeLevels_mapLadder (g : Order → Order) (l : Ladder) :
    sizeLevels (mapLadder g l) = sizeLevels l := by
  unfold sizeLevels
  rw [ladderSize_mapLadder]
  simp [mapLadder]

theorem removeIdAtPrice_keys_sublist (l : Ladder) (pr : Rat) (id : String) :
    List.Sublist (ladderKeys (removeIdAtPrice l pr id)) (ladderKeys l) := by
  induction l with
  | nil => simp [removeIdAtPrice]
  | cons pq rest ih =>
    obtain ⟨p, q⟩ := pq
    simp only [removeIdAtPrice]
    split
    · split
      · exact (List.sublist_cons_self p (ladderKeys rest)).trans (List.Sublist.refl _)
      · exact List.Sublist.refl _
    · exact List.Sublist.cons₂ p ih

theorem removeIdAtPrice_eq_or_lt (l : Ladder) (pr : Rat) (id : String) :
    removeIdAtPrice l pr id = l ∨
      sizeLevels (removeIdAtPrice l pr id) < sizeLevels l := by
  induction l with
  | nil => left; rfl
  | cons pq rest ih =>
    obtain ⟨p, q⟩ := pq
    simp only [removeIdAtPrice]
    split
    · split
      case isTrue hq =>
        right
        simp [sizeLevels, ladderSize_cons]
        omega
      case isFalse hq =>
        by_cases hqe : q.filter (fun o => decide (o.orderId ≠ id)) = q
        · left; rw [hqe]
        · right
          have hsub : List.Sublist (q.filter (fun o => decide (o.orderId ≠ id))) q :=
            List.filter_sublist q
          have hlt : (q.filter (fun o => decide (o.orderId ≠ id))).length < q.length := by
            rcases Nat.lt_or_ge (q.filter (fun o => decide (o.orderId ≠ id))).length q.length with h | h
            · exact h
            · exact absurd (hsub.eq_of_length (Nat.le_antisymm hsub.length_le h)) hqe
          simp only [sizeLevels, ladderSize_cons, List.length_cons]
          omega
    · rcases ih with h | h
      · left; rw [h]
      · right
        simp only [sizeLevels, ladderSize_cons, List.length_cons] at *
        omega

theorem sizeLevels_removeIdAtPrice_le (l : Ladder) (pr : Rat) (id : String) :
    sizeLevels (removeIdAtPrice l pr id) ≤ sizeLevels l := by
  rcases removeIdAtPrice_eq_or_lt l pr id with h | h
  · rw [h]
  · exact Nat.le_of_lt h

theorem popFrontIfFilled_cons (p : Rat) (x : Order) (xs : List Order)
    (rest : Ladder) :
    popFrontIfFilled ((p, x :: xs) :: rest) =
      if x.isFullyFilled then (if xs = [] then rest else (p, xs) :: rest)
      else (p, x :: xs) :: rest := rfl

theorem popFrontIfFilled_keys_sublist (l : Ladder) :
    List.Sublist (ladderKeys (popFrontIfFilled l)) (ladderKeys l) := by
  cases l with
  | nil => exact List.Sublist.refl _
  | cons pq rest =>
    obtain ⟨p, q⟩ := pq
    cases q with
    | nil => exact List.Sublist.refl _
    | cons x xs =>
      rw [popFrontIfFilled_cons]
      split
      · split
        · exact List.sublist_cons_self p (ladderKeys rest)
        · exact List.Sublist.refl _
      · exact List.Sublist.refl _

theorem sizeLevels_popFrontIfFilled_le (l : Ladder) :
    sizeLevels (popFrontIfFilled l) ≤ sizeLevels l := by
  cases l with
  | nil => exact Nat.le_refl _
  | cons pq rest =>
    obtain ⟨p, q⟩ := pq
    cases q with
    | nil => exact Nat.le_refl _
    | cons x xs =>
      rw [popFrontIfFilled_cons]
      split
      · split
        · simp only [sizeLevels, ladderSize_cons, List.length_cons]
          omega
        · simp only [sizeLevels, ladderSize_cons, List.length_cons]
          omega
      · exact Nat.le_refl _

theorem sizeLevels_popFrontIfFilled_lt (p : Rat) (x : Order) (xs : List Order)
    (rest : Ladder) (hx : x.isFullyFilled = true) :
    sizeLevels (popFrontIfFilled ((p, x :: xs) :: rest)) <
      sizeLevels ((p, x :: xs) :: rest) := by
  rw [popFrontIfFilled_cons, if_pos hx]
  split
  · simp only [sizeLevels, ladderSize_cons, List.length_cons]
    omega
  · simp only [sizeLevels, ladderSize_cons, List.length_cons]
    omega

theorem update_market_data_buyOrders (b : OrderBook) :
    b.update_market_data.buyOrders = b.buyOrders := rfl

theorem update_market_data_sellOrders (b : OrderBook) :
    b.update_market_data.sellOrders = b.sellOrders := rfl

theorem remove_order_sellOrders_cases (b : OrderBook) (id : String) :
    ((b.remove_order id).1).sellOrders = b.sellOrders ∨
      sizeLevels ((b.remove_order id).1).sellOrders < sizeLevels b.sellOrders := by
  unfold OrderBook.remove_order
  cases h : lookupOrder b.orderMap id with
  | none => left; rfl
  | some o =>
    obtain ⟨i, ty, p, q, f, st, sy, cl⟩ := o
    cases ty
    · left; rfl
    · exact removeIdAtPrice_eq_or_lt b.sellOrders p id

theorem remove_order_buyOrders_cases (b : OrderBook) (id : String) :
    ((b.remove_order id).1).buyOrders = b.buyOrders ∨
      sizeLevels ((b.remove_order id).1).buyOrders < sizeLevels b.buyOrders := by
  unfold OrderBook.remove_order
  cases h : lookupOrder b.orderMap id with
  | none => left; rfl
  | some o =>
    obtain ⟨i, ty, p, q, f, st, sy, cl⟩ := o
    cases ty
    · exact removeIdAtPrice_eq_or_lt b.buyOrders p id
    · left; rfl

theorem remove_order_sellKeys_sublist (b : OrderBook) (id : String) :
    List.Sublist (ladderKeys ((b.remove_order id).1).sellOrders) (ladderKeys b.sellOrders) := by
  unfold OrderBook.remove_order
  cases h : lookupOrder b.orderMap id with
  | none => exact List.Sublist.refl _
  | some o =>
    obtain ⟨i, ty, p, q, f, st, sy, cl⟩ := o
    cases ty
    · exact List.Sublist.refl _
    · exact removeIdAtPrice_keys_sublist b.sellOrders p id

theorem remove_order_buyKeys_sublist (b : OrderBook) (id : String) :
    List.Sublist (ladderKeys ((b.remove_order id).1).buyOrders) (ladderKeys b.buyOrders) := by
  unfold OrderBook.remove_order
  cases h : lookupOrder b.orderMap id with
  | none => exact List.Sublist.refl _
  | some o =>
    obtain ⟨i, ty, p, q, f, st, sy, cl⟩ := o
    cases ty
    · exact removeIdAtPrice_keys_sublist b.buyOrders p id
    · exact List.Sublist.refl _

theorem sizeLevels_remove_order_sell_le (b : OrderBook) (id : String) :
    sizeLevels ((b.remove_order id).1).sellOrders ≤ sizeLevels b.sellOrders := by
  rcases remove_order_sellOrders_cases b id with h | h
  · rw [h]
  · exact Nat.le_of_lt h

theorem sizeLevels_remove_order_buy_le (b : OrderBook) (id : String) :
    sizeLevels ((b.remove_order id).1).buyOrders ≤ sizeLevels b.buyOrders := by
  rcases remove_order_buyOrders_cases b id with h | h
  · rw [h]
  · exact Nat.le_of_lt h

theorem sublist_of_keys_eq {l₁ l₂ : Ladder} (h : ladderKeys l₁ = ladderKeys l₂) :
    List.Sublist (ladderKeys l₁) (ladderKeys l₂) := h ▸ List.Sublist.refl _

/-! ## Effect of `execute_trade` on the ladders -/

theorem mapBookOrders_sellOrders (g : Order → Order) (b : OrderBook) :
    (mapBookOrders g b).sellOrders = mapLadder g b.sellOrders := rfl

theorem mapBookOrders_buyOrders (g : Order → Order) (b : OrderBook) :
    (mapBookOrders g b).buyOrders = mapLadder g b.buyOrders := rfl

theorem removeIfFilled_sellKeys_sublist (b : OrderBook) (o : Order) :
    List.Sublist (ladderKeys (b.removeIfFilled o).sellOrders)
      (ladderKeys b.sellOrders) := by
  unfold OrderBook.removeIfFilled
  split
  · exact remove_order_sellKeys_sublist _ _
  · exact List.Sublist.refl _

theorem removeIfFilled_buyKeys_sublist (b : OrderBook) (o : Order) :
    List.Sublist (ladderKeys (b.removeIfFilled o).buyOrders)
      (ladderKeys b.buyOrders) := by
  unfold OrderBook.removeIfFilled
  split
  · exact remove_order_buyKeys_sublist _ _
  · exact List.Sublist.refl _

theorem removeIfFilled_sell_cases (b : OrderBook) (o : Order) :
    (b.removeIfFilled o).sellOrders = b.sellOrders ∨
      sizeLevels (b.removeIfFilled o).sellOrders < sizeLevels b.sellOrders := by
  unfold OrderBook.removeIfFilled
  split
  · exact remove_order_sellOrders_cases _ _
  · left; rfl

theorem removeIfFilled_buy_cases (b : OrderBook) (o : Order) :
    (b.removeIfFilled o).buyOrders = b.buyOrders ∨
      sizeLevels (b.removeIfFilled o).buyOrders < sizeLevels b.buyOrders := by
  unfold OrderBook.removeIfFilled
  split
  · exact remove_order_buyOrders_cases _ _
  · left; rfl

/-- Chaining step: a conditional removal keeps the "unchanged or strictly
smaller than the original ladder" disjunction (sell side). -/
theorem removeIfFilled_sell_step {X : OrderBook} {L : Ladder} {n : Nat}
    (hn : sizeLevels L = n)
    (h : X.sellOrders = L ∨ sizeLevels X.sellOrders < n) (o : Order) :
    (X.removeIfFilled o).sellOrders = L ∨
      sizeLevels (X.removeIfFilled o).sellOrders < n := by
  rcases removeIfFilled_sell_cases X o with h1 | h1
  · rw [h1]; exact h
  · right
    rcases h with h2 | h2
    · rw [h2, hn] at h1; exact h1
    · exact h1.trans h2

theorem removeIfFilled_buy_step {X : OrderBook} {L : Ladder} {n : Nat}
    (hn : sizeLevels L = n)
    (h : X.buyOrders = L ∨ sizeLevels X.buyOrders < n) (o : Order) :
    (X.removeIfFilled o).buyOrders = L ∨
      sizeLevels (X.removeIfFilled o).buyOrders < n := by
  rcases removeIfFilled_buy_cases X o with h1 | h1
  · rw [h1]; exact h
  · right
    rcases h with h2 | h2
    · rw [h2, hn] at h1; exact h1
    · exact h1.trans h2

theorem execute_trade_sellKeys_sublist (b : OrderBook) (buy sell : Order) (q : Int) :
    List.Sublist (ladderKeys ((b.execute_trade buy sell q).1).sellOrders)
      (ladderKeys b.sellOrders) := by
  unfold OrderBook.execute_trade
  dsimp only
  exact (removeIfFilled_sellKeys_sublist _ _).trans
    ((removeIfFilled_sellKeys_sublist _ _).trans
      (sublist_of_keys_eq (ladderKeys_mapLadder _ b.sellOrders)))

theorem execute_trade_buyKeys_sublist (b : OrderBook) (buy sell : Order) (q : Int) :
    List.Sublist (ladderKeys ((b.execute_trade buy sell q).1).buyOrders)
      (ladderKeys b.buyOrders) := by
  unfold OrderBook.execute_trade
  dsimp only
  exact (removeIfFilled_buyKeys_sublist _ _).trans
    ((removeIfFilled_buyKeys_sublist _ _).trans
      (sublist_of_keys_eq (ladderKeys_mapLadder _ b.buyOrders)))

/-- The sell ladder after `execute_trade` is either exactly the aliasing
rewrite of the old one, or it strictly shrank (an order or a level was
removed). -/
theorem execute_trade_sellOrders_cases (b : OrderBook) (buy sell : Order) (q : Int) :
    ((b.execute_trade buy sell q).1).sellOrders =
        mapLadder (fun o => if o.orderId = sell.orderId then sell.fill q
          else if o.orderId = buy.orderId then buy.fill q else o) b.sellOrders ∨
      sizeLevels ((b.execute_trade buy sell q).1).sellOrders <
        sizeLevels b.sellOrders := by
  unfold OrderBook.execute_trade
  dsimp only
  refine removeIfFilled_sell_step ?hn (removeIfFilled_sell_step ?hn (Or.inl rfl) _) _
  exact sizeLevels_mapLadder _ _

/-- Same disjunction on the buy side. -/
theorem execute_trade_buyOrders_cases (b : OrderBook) (buy sell : Order) (q : Int) :
    ((b.execute_trade buy sell q).1).buyOrders =
        mapLadder (fun o => if o.orderId = sell.orderId then sell.fill q
          else if o.orderId = buy.orderId then buy.fill q else o) b.buyOrders ∨
      sizeLevels ((b.execute_trade buy sell q).1).buyOrders <
        sizeLevels b.buyOrders := by
  unfold OrderBook.execute_trade
  dsimp only
  refine removeIfFilled_buy_step ?hn (removeIfFilled_buy_step ?hn (Or.inl rfl) _) _
  exact sizeLevels_mapLadder _ _

/-! ## Injectivity of the generated order ids -/

theorem digitsVal_digitsRevAux : ∀ (fuel n : Nat), n ≤ fuel →
    digitsVal (digitsRevAux fuel n) = n := by
  intro fuel
  induction fuel with
  | zero =>
    intro n hn
    interval_cases n
    rfl
  | succ f ih =>
    intro n hn
    unfold digitsRevAux
    by_cases h0 : n = 0
    · subst h0; rfl
    · rw [if_neg h0]
      unfold digitsVal
      have hdiv : n / 10 ≤ f := by
        have h1 : n / 10 < n := Nat.div_lt_self (Nat.pos_of_ne_zero h0) (by omega)
        omega
      rw [ih (n / 10) hdiv]
      omega

theorem digitsRevAux_lt_ten : ∀ (fuel n : Nat), ∀ d ∈ digitsRevAux fuel n, d < 10 := by
  intro fuel
  induction fuel with
  | zero => intro n d hd; simp [digitsRevAux] at hd
  | succ f ih =>
    intro n d hd
    unfold digitsRevAux at hd
    by_cases h0 : n = 0
    · rw [if_pos h0] at hd; simp at hd
    · rw [if_neg h0] at hd
      rcases List.mem_cons.mp hd with h | h
      · subst h; exact Nat.mod_lt n (by omega)
      · exact ih (n / 10) d h

theorem digitChar_inj : ∀ d₁ < 10, ∀ d₂ < 10, digitChar d₁ = digitChar d₂ → d₁ = d₂ := by
  decide

theorem map_digitChar_inj : ∀ (l₁ l₂ : List Nat), (∀ d ∈ l₁, d < 10) → (∀ d ∈ l₂, d < 10) →
    l₁.map digitChar = l₂.map digitChar → l₁ = l₂ := by
  intro l₁
  induction l₁ with
  | nil => intro l₂ _ _ h; cases l₂ <;> simp_all
  | cons d ds ih =>
    intro l₂ h₁ h₂ h
    cases l₂ with
    | nil => simp at h
    | cons e es =>
      simp only [List.map_cons, List.cons.injEq] at h
      have hd : d = e := digitChar_inj d (h₁ d (by simp)) e (h₂ e (by simp)) h.1
      have hds : ds = es := ih es (fun x hx => h₁ x (by simp [hx]))
        (fun x hx => h₂ x (by simp [hx])) h.2
      rw [hd, hds]

theorem natStr_inj {a b : Nat} (h : natStr a = natStr b) : a = b := by
  unfold natStr at h
  have hdata : ((digitsRevAux (a + 1) a).reverse).map digitChar =
      ((digitsRevAux (b + 1) b).reverse).map digitChar := by
    injection h
  have hrev : (digitsRevAux (a + 1) a).reverse = (digitsRevAux (b + 1) b).reverse :=
    map_digitChar_inj _ _
      (fun d hd => digitsRevAux_lt_ten _ _ d (List.mem_reverse.mp hd))
      (fun d hd => digitsRevAux_lt_ten _ _ d (List.mem_reverse.mp hd)) hdata
  have hlists : digitsRevAux (a + 1) a = digitsRevAux (b + 1) b :=
    List.reverse_injective hrev
  have := digitsVal_digitsRevAux (a + 1) a (Nat.le_succ a)
  rw [hlists, digitsVal_digitsRevAux (b + 1) b (Nat.le_succ b)] at this
  omega

theorem oid_inj {a b : Nat} (h : oid a = oid b) : a = b := by
  unfold oid at h
  have hdata : ("O" ++ natStr a).data = ("O" ++ natStr b).data := by rw [h]
  simp only [String.data_append] at hdata
  have : (natStr a).data = (natStr b).data := by
    simpa using hdata
  exact natStr_inj (by cases hsa : natStr a; cases hsb : natStr b; simp_all)

/-! ## Association-list lemmas for the order index -/

theorem lookupOrder_of_mem_nodup {m : List (String × Order)} {k : String} {x : Order}
    (hmem : (k, x) ∈ m) (hnd : (m.map Prod.fst).Nodup) : lookupOrder m k = some x := by
  induction m with
  | nil => simp at hmem
  | cons kv rest ih =>
    obtain ⟨k', y⟩ := kv
    simp only [List.map_cons, List.nodup_cons] at hnd
    rcases List.mem_cons.mp hmem with h | h
    · rw [Prod.mk.injEq] at h
      obtain ⟨h1, h2⟩ := h
      subst h1; subst h2
      simp [lookupOrder]
    · have hk : k' ≠ k := by
        intro he
        exact hnd.1 (he ▸ (List.mem_map_of_mem Prod.fst h))
      simp only [lookupOrder]
      rw [if_neg hk]
      exact ih h hnd.2

theorem value_eq_of_lookup_nodup {m : List (String × Order)} {k : String} {x : Order}
    (hl : lookupOrder m k = some x) (hnd : (m.map Prod.fst).Nodup) :
    ∀ kv ∈ m, kv.1 = k → kv.2 = x := by
  induction m with
  | nil => simp
  | cons kv₀ rest ih =>
    obtain ⟨k', y⟩ := kv₀
    simp only [List.map_cons, List.nodup_cons] at hnd
    intro kv hkv hk
    simp only [lookupOrder] at hl
    rcases List.mem_cons.mp hkv with h | h
    · subst h
      dsimp at hk
      rw [if_pos hk] at hl
      exact Option.some.inj hl
    · by_cases hke : k' = k
      · exfalso
        apply hnd.1
        rw [hke, ← hk]
        exact List.mem_map_of_mem Prod.fst h
      · rw [if_neg hke] at hl
        exact ih hl hnd.2 kv h hk

theorem eraseKey_of_no_key {m : List (String × Order)} {id : String}
    (h : ∀ kv ∈ m, kv.1 ≠ id) : eraseKey m id = m := by
  induction m with
  | nil => rfl
  | cons kv rest ih =>
    obtain ⟨k, y⟩ := kv
    simp only [eraseKey]
    rw [if_neg (h (k, y) (by simp)), ih (fun kv hkv => h kv (by simp [hkv]))]

theorem mem_eraseKey {m : List (String × Order)} {id : String} {kv : String × Order}
    (h : kv ∈ eraseKey m id) : kv ∈ m ∧ kv.1 ≠ id := by
  induction m with
  | nil => simp [eraseKey] at h
  | cons kv₀ rest ih =>
    obtain ⟨k, y⟩ := kv₀
    simp only [eraseKey] at h
    split at h
    · have := ih h
      exact ⟨by simp [this.1], this.2⟩
    · rcases List.mem_cons.mp h with he | he
      · subst he
        exact ⟨by simp, by assumption⟩
      · have := ih he
        exact ⟨by simp [this.1], this.2⟩

theorem lookupOrder_eraseKey_ne {m : List (String × Order)} {id k : String}
    (h : k ≠ id) : lookupOrder (eraseKey m id) k = lookupOrder m k := by
  induction m with
  | nil => rfl
  | cons kv rest ih =>
    obtain ⟨k', y⟩ := kv
    simp only [eraseKey, lookupOrder]
    split
    case isTrue he =>
      rw [ih]
      rw [if_neg (by rw [he]; exact fun hc => h hc.symm)]
    case isFalse he =>
      simp only [lookupOrder]
      split <;> [rfl; exact ih]

theorem eraseKey_keys_sublist (m : List (String × Order)) (id : String) :
    List.Sublist ((eraseKey m id).map Prod.fst) (m.map Prod.fst) := by
  induction m with
  | nil => simp [eraseKey]
  | cons kv rest ih =>
    obtain ⟨k, y⟩ := kv
    simp only [eraseKey]
    split
    · exact ih.trans (List.sublist_cons_self _ _)
    · exact List.Sublist.cons₂ _ ih

theorem eraseKey_map_comm (m : List (String × Order)) (g : Order → Order) (id : String) :
    eraseKey (m.map (fun kv => (kv.1, g kv.2))) id =
      (eraseKey m id).map (fun kv => (kv.1, g kv.2)) := by
  induction m with
  | nil => rfl
  | cons kv rest ih =>
    obtain ⟨k, y⟩ := kv
    simp only [List.map_cons, eraseKey]
    split <;> simp [ih]

theorem map_id_of_mem {α : Type} {l : List α} {f : α → α}
    (h : ∀ x ∈ l, f x = x) : l.map f = l := by
  induction l with
  | nil => rfl
  | cons x rest ih =>
    simp only [List.map_cons]
    rw [h x (by simp), ih (fun y hy => h y (by simp [hy]))]

theorem mapRemaining_cons (k : String) (v : Order) (m : List (String × Order)) :
    mapRemaining ((k, v) :: m) = v.getRemainingQuantity + mapRemaining m := by
  simp [mapRemaining]

theorem mapRemaining_eraseKey {m : List (String × Order)} {k : String} {x : Order}
    (hl : lookupOrder m k = some x) (hnd : (m.map Prod.fst).Nodup) :
    mapRemaining (eraseKey m k) + x.getRemainingQuantity = mapRemaining m := by
  induction m with
  | nil => simp [lookupOrder] at hl
  | cons kv rest ih =>
    obtain ⟨k', y⟩ := kv
    simp only [List.map_cons, List.nodup_cons] at hnd
    simp only [lookupOrder] at hl
    simp only [eraseKey]
    split
    case isTrue he =>
      rw [if_pos he] at hl
      injection hl with hl
      subst hl
      have hrest : eraseKey rest k = rest := by
        apply eraseKey_of_no_key
        intro kv hkv hk
        subst he
        exact hnd.1 (hk ▸ List.mem_map_of_mem Prod.fst hkv)
      rw [hrest, mapRemaining_cons]
      omega
    case isFalse he =>
      rw [if_neg he] at hl
      rw [mapRemaining_cons, mapRemaining_cons]
      have := ih hl hnd.2
      omega

theorem mapRemaining_map_replace {m : List (String × Order)} {k : String} {x v : Order}
    (hl : lookupOrder m k = some x) (hnd : (m.map Prod.fst).Nodup) :
    mapRemaining (m.map (fun kv => if kv.1 = k then (kv.1, v) else kv)) +
        x.getRemainingQuantity =
      mapRemaining m + v.getRemainingQuantity := by
  induction m with
  | nil => simp [lookupOrder] at hl
  | cons kv rest ih =>
    obtain ⟨k', y⟩ := kv
    simp only [List.map_cons, List.nodup_cons] at hnd
    simp only [lookupOrder] at hl
    simp only [List.map_cons]
    by_cases he : k' = k
    · rw [if_pos he] at hl
      have hxy : y = x := Option.some.inj hl
      subst hxy
      rw [if_pos he]
      have hrest : rest.map (fun kv => if kv.1 = k then (kv.1, v) else kv) = rest := by
        apply map_id_of_mem
        intro kv hkv
        rw [if_neg]
        intro hk
        subst he
        exact hnd.1 (hk ▸ List.mem_map_of_mem Prod.fst hkv)
      rw [hrest, mapRemaining_cons, mapRemaining_cons]
      omega
    · rw [if_neg he] at hl
      rw [if_neg he]
      rw [mapRemaining_cons, mapRemaining_cons]
      have := ih hl hnd.2
      omega

theorem keys_map_replace (m : List (String × Order)) (k : String) (v : Order) :
    (m.map (fun kv => if kv.1 = k then (kv.1, v) else kv)).map Prod.fst =
      m.map Prod.fst := by
  induction m with
  | nil => rfl
  | cons kv rest ih =>
    simp only [List.map_cons]
    rw [ih]
    split <;> rfl

theorem lookupOrder_map_replace_ne {m : List (String × Order)} {k k' : String} {v : Order}
    (h : k' ≠ k) :
    lookupOrder (m.map (fun kv => if kv.1 = k then (kv.1, v) else kv)) k' =
      lookupOrder m k' := by
  induction m with
  | nil => rfl
  | cons kv rest ih =>
    obtain ⟨k₀, y⟩ := kv
    simp only [List.map_cons]
    by_cases he : k₀ = k
    · rw [if_pos he]
      simp only [lookupOrder]
      rw [if_neg (fun hc : k₀ = k' => h (hc.symm.trans he)),
        if_neg (fun hc : k₀ = k' => h (hc.symm.trans he))]
      exact ih
    · rw [if_neg he]
      simp only [lookupOrder]
      split
      · rfl
      · exact ih

/-! ## Ladder membership lemmas -/

theorem ordersOf_nil : ordersOf [] = [] := rfl

theorem ordersOf_cons (p : Rat) (q : List Order) (rest : Ladder) :
    ordersOf ((p, q) :: rest) = q ++ ordersOf rest := by
  simp [ordersOf]

theorem ordersOf_mapLadder (g : Order → Order) (l : Ladder) :
    ordersOf (mapLadder g l) = (ordersOf l).map g := by
  induction l with
  | nil => rfl
  | cons pq rest ih =>
    obtain ⟨p, q⟩ := pq
    show ordersOf ((p, q.map g) :: mapLadder g rest) = _
    rw [ordersOf_cons, ordersOf_cons, ih, List.map_append]

theorem ordersOf_removeIdAtPrice_sublist (l : Ladder) (pr : Rat) (id : String) :
    List.Sublist (ordersOf (removeIdAtPrice l pr id)) (ordersOf l) := by
  induction l with
  | nil => exact List.Sublist.refl _
  | cons pq rest ih =>
    obtain ⟨p, q⟩ := pq
    simp only [removeIdAtPrice]
    split
    · split
      · rw [ordersOf_cons]
        exact (List.sublist_append_right q (ordersOf rest)).trans (List.Sublist.refl _)
      · rw [ordersOf_cons, ordersOf_cons]
        exact List.Sublist.append (List.filter_sublist q) (List.Sublist.refl _)
    · rw [ordersOf_cons, ordersOf_cons]
      exact List.Sublist.append (List.Sublist.refl q) ih

theorem removeIdAtPrice_no_id {l : Ladder} {pr : Rat} {id : String}
    (hkeys : (ladderKeys l).Nodup)
    (hloc : ∀ pq ∈ l, ∀ x ∈ pq.2, x.orderId = id → pq.1 = pr) :
    ∀ y ∈ ordersOf (removeIdAtPrice l pr id), y.orderId ≠ id := by
  induction l with
  | nil => simp [removeIdAtPrice, ordersOf]
  | cons pq rest ih =>
    obtain ⟨p, q⟩ := pq
    simp only [ladderKeys, List.map_cons, List.nodup_cons] at hkeys
    simp only [removeIdAtPrice]
    split
    case isTrue hp =>
      have hrest : ∀ y ∈ ordersOf rest, y.orderId ≠ id := by
        intro y hy hid
        obtain ⟨pq', hpq', hy'⟩ : ∃ pq' ∈ rest, y ∈ pq'.2 := by
          unfold ordersOf at hy
          obtain ⟨q', hq', hyq⟩ := List.mem_flatten.mp hy
          obtain ⟨pq', hpq', rfl⟩ := List.mem_map.mp hq'
          exact ⟨pq', hpq', hyq⟩
        have := hloc pq' (by simp [hpq']) y hy' hid
        apply hkeys.1
        rw [hp, ← this]
        exact List.mem_map_of_mem Prod.fst hpq'
      split
      · exact hrest
      · intro y hy
        rw [ordersOf_cons] at hy
        rcases List.mem_append.mp hy with h | h
        · have := List.mem_filter.mp h
          simpa using this.2
        · exact hrest y h
    case isFalse hp =>
      intro y hy
      rw [ordersOf_cons] at hy
      rcases List.mem_append.mp hy with h | h
      · intro hid
        exact hp (hloc (p, q) (by simp) y h hid)
      · exact ih hkeys.2 (fun pq' hpq' x hx hid => hloc pq' (by simp [hpq']) x hx hid) y h

theorem isFullyFilled_false_of_rem_pos {x : Order}
    (h : 0 < x.getRemainingQuantity) : x.isFullyFilled = false := by
  unfold Order.isFullyFilled
  unfold Order.getRemainingQuantity at h
  simp only [decide_eq_false_iff_not]
  omega

theorem lookupOrder_eq_none_of_no_key {m : List (String × Order)} {k : String}
    (h : ∀ kv ∈ m, kv.1 ≠ k) : lookupOrder m k = none := by
  induction m with
  | nil => rfl
  | cons kv rest ih =>
    obtain ⟨k', y⟩ := kv
    simp only [lookupOrder]
    rw [if_neg (h (k', y) (by simp))]
    exact ih (fun kv hkv => h kv (by simp [hkv]))

theorem remove_order_fst_of_no_key {b : OrderBook} {id : String}
    (h : ∀ kv ∈ b.orderMap, kv.1 ≠ id) : (b.remove_order id).1 = b := by
  unfold OrderBook.remove_order
  rw [lookupOrder_eq_none_of_no_key h]

theorem mapLadder_id_of_mem {l : Ladder} {g : Order → Order}
    (h : ∀ x ∈ ordersOf l, g x = x) : mapLadder g l = l := by
  induction l with
  | nil => rfl
  | cons pq rest ih =>
    obtain ⟨p, q⟩ := pq
    show (p, q.map g) :: mapLadder g rest = (p, q) :: rest
    rw [map_id_of_mem (fun x hx => h x (by rw [ordersOf_cons]; exact List.mem_append_left _ hx)),
      ih (fun x hx => h x (by rw [ordersOf_cons]; exact List.mem_append_right _ hx))]

theorem filter_ne_id_of_all {q : List Order} {id : String}
    (h : ∀ x ∈ q, x.orderId ≠ id) :
    q.filter (fun o => decide (o.orderId ≠ id)) = q := by
  induction q with
  | nil => rfl
  | cons x rest ih =>
    simp only [List.filter_cons]
    rw [if_pos (by simp [h x (by simp)]), ih (fun y hy => h y (by simp [hy]))]

theorem update_market_data_rng (b : OrderBook) :
    b.update_market_data.rng = b.rng := rfl

/-! ## Equational forms of the matching-loop iteration -/

theorem matchStep_eq_buy_nil {b : OrderBook} {o : Order}
    (hty : o.type = OrderType.BUY) (hs : b.sellOrders = []) :
    matchStep b o = .stop := by
  obtain ⟨bo, so, m, bb, ba, bs, ask, rng⟩ := b
  obtain ⟨i, ty, pr, qn, f, st, sy, cl⟩ := o
  dsimp at hty hs
  subst hty; subst hs
  rfl

theorem matchStep_eq_buy_cons {b : OrderBook} {o maker : Order} {p : Rat}
    {tail : List Order} {rest : Ladder}
    (hty : o.type = OrderType.BUY)
    (hs : b.sellOrders = (p, maker :: tail) :: rest) (hp : ¬ o.price < p) :
    matchStep b o = .next
      { (b.execute_trade o maker (min o.getRemainingQuantity maker.getRemainingQuantity)).1 with
        sellOrders := popFrontIfFilled
          (b.execute_trade o maker (min o.getRemainingQuantity maker.getRemainingQuantity)).1.sellOrders }
      (b.execute_trade o maker (min o.getRemainingQuantity maker.getRemainingQuantity)).2.1
      (some (b.execute_trade o maker
        (min o.getRemainingQuantity maker.getRemainingQuantity)).2.2.2) := by
  obtain ⟨bo, so, m, bb, ba, bs, ask, rng⟩ := b
  obtain ⟨i, ty, pr, qn, f, st, sy, cl⟩ := o
  dsimp at hty hs
  subst hty; subst hs
  show (if pr < p then StepResult.stop else _) = _
  rw [if_neg hp]

theorem remove_order_fields_sell {b : OrderBook} {id : String} {x : Order}
    (hl : lookupOrder b.orderMap id = some x) (hty : x.type = OrderType.SELL) :
    (b.remove_order id).1.sellOrders = removeIdAtPrice b.sellOrders x.price id ∧
    (b.remove_order id).1.buyOrders = b.buyOrders ∧
    (b.remove_order id).1.orderMap = eraseKey b.orderMap id ∧
    (b.remove_order id).1.rng = b.rng := by
  unfold OrderBook.remove_order
  rw [hl]
  obtain ⟨i, ty, pr, qn, f, st, sy, cl⟩ := x
  dsimp at hty ⊢
  subst hty
  exact ⟨rfl, rfl, rfl, rfl⟩

theorem remove_order_fields_buy {b : OrderBook} {id : String} {x : Order}
    (hl : lookupOrder b.orderMap id = some x) (hty : x.type = OrderType.BUY) :
    (b.remove_order id).1.buyOrders = removeIdAtPrice b.buyOrders x.price id ∧
    (b.remove_order id).1.sellOrders = b.sellOrders ∧
    (b.remove_order id).1.orderMap = eraseKey b.orderMap id ∧
    (b.remove_order id).1.rng = b.rng := by
  unfold OrderBook.remove_order
  rw [hl]
  obtain ⟨i, ty, pr, qn, f, st, sy, cl⟩ := x
  dsimp at hty ⊢
  subst hty
  exact ⟨rfl, rfl, rfl, rfl⟩

theorem map_congr_mem {α β : Type} {l : List α} {f g : α → β}
    (h : ∀ x ∈ l, f x = g x) : l.map f = l.map g := by
  induction l with
  | nil => rfl
  | cons x rest ih =>
    simp only [List.map_cons]
    rw [h x (by simp), ih (fun y hy => h y (by simp [hy]))]

/-- Characterization of one trading iteration of the loop for a BUY
aggressor against a well-formed book whose id it does not carry: the maker
at the front of the best ask level is filled by `min` of the remaining
quantities; if that fills it completely it leaves the book (its level
disappearing when it was alone), otherwise it stays at the front reduced;
the aggressor is filled by the same amount; one trade at the maker's price
is emitted; nothing else changes. -/
theorem matchStep_char_buy {b : OrderBook} {o maker : Order} {p : Rat}
    {tail : List Order} {rest : Ladder}
    (hWF : BookWF b) (hfree : idFree b o.orderId)
    (hty : o.type = OrderType.BUY)
    (hs : b.sellOrders = (p, maker :: tail) :: rest)
    (hp : ¬ o.price < p) :
    matchStep b o = .next
      { (b.execute_trade o maker (min o.getRemainingQuantity maker.getRemainingQuantity)).1 with
        sellOrders := popFrontIfFilled
          (b.execute_trade o maker (min o.getRemainingQuantity maker.getRemainingQuantity)).1.sellOrders }
      (o.fill (min o.getRemainingQuantity maker.getRemainingQuantity))
      (some ⟨"T" ++ natStr b.rng.headI, o.orderId, maker.orderId, o.symbol,
        maker.price, min o.getRemainingQuantity maker.getRemainingQuantity⟩) ∧
    ((b.execute_trade o maker (min o.getRemainingQuantity maker.getRemainingQuantity)).1).buyOrders
      = b.buyOrders ∧
    popFrontIfFilled
        ((b.execute_trade o maker (min o.getRemainingQuantity maker.getRemainingQuantity)).1).sellOrders =
      (if (maker.fill (min o.getRemainingQuantity maker.getRemainingQuantity)).isFullyFilled
       then (if tail = [] then rest else (p, tail) :: rest)
       else (p, maker.fill (min o.getRemainingQuantity maker.getRemainingQuantity) :: tail) :: rest) ∧
    ((b.execute_trade o maker (min o.getRemainingQuantity maker.getRemainingQuantity)).1).orderMap =
      (if (maker.fill (min o.getRemainingQuantity maker.getRemainingQuantity)).isFullyFilled
       then eraseKey b.orderMap maker.orderId
       else b.orderMap.map (fun kv =>
         if kv.1 = maker.orderId
         then (kv.1, maker.fill (min o.getRemainingQuantity maker.getRemainingQuantity)) else kv)) ∧
    ((b.execute_trade o maker (min o.getRemainingQuantity maker.getRemainingQuantity)).1).rng
      = b.rng.tail := by
  obtain ⟨hW1, hW2, hW3b, hW3s, hW4, hW5, hW6b, hW6s⟩ := hWF
  obtain ⟨hfreeL, hfreeK⟩ := hfree
  set tq := min o.getRemainingQuantity maker.getRemainingQuantity with htq
  have hmakermem : maker ∈ allOrders b := by
    unfold allOrders
    refine List.mem_append_right _ ?_
    rw [hs, ordersOf_cons]
    exact List.mem_append_left _ (by simp)
  have hmaker := hW3s (p, maker :: tail) (by rw [hs]; simp) maker (by simp)
  have hmne : maker.orderId ≠ o.orderId := hfreeL maker hmakermem
  have hW4' := hW4
  unfold allOrders at hW4'
  rw [List.map_append, List.nodup_append] at hW4'
  obtain ⟨hndbuy, hndsell, hdisj⟩ := hW4'
  have hsellids := hndsell
  rw [hs, ordersOf_cons] at hsellids
  simp only [List.map_append, List.map_cons, List.nodup_append, List.nodup_cons] at hsellids
  have htailids : ∀ y ∈ tail, y.orderId ≠ maker.orderId := by
    intro y hy he
    exact hsellids.1.1 (he ▸ List.mem_map_of_mem Order.orderId hy)
  have hrestids : ∀ y ∈ ordersOf rest, y.orderId ≠ maker.orderId := by
    intro y hy he
    exact hsellids.2.2 (List.mem_cons_self _ _) (he ▸ List.mem_map_of_mem Order.orderId hy)
  have hsellmem : ∀ y ∈ ordersOf b.sellOrders, y ∈ allOrders b := by
    intro y hy
    exact List.mem_append_right _ hy
  have htailfree : ∀ y ∈ tail, y.orderId ≠ o.orderId := by
    intro y hy
    refine hfreeL y (hsellmem y ?_)
    rw [hs, ordersOf_cons]
    exact List.mem_append_left _ (by simp [hy])
  have hrestmem : ∀ y ∈ ordersOf rest, y ∈ ordersOf b.sellOrders := by
    intro y hy
    rw [hs, ordersOf_cons]
    exact List.mem_append_right _ hy
  have hrestfree : ∀ y ∈ ordersOf rest, y.orderId ≠ o.orderId := by
    intro y hy
    exact hfreeL y (hsellmem y (hrestmem y hy))
  have hbuyfreeM : ∀ y ∈ ordersOf b.buyOrders, y.orderId ≠ maker.orderId := by
    intro y hy he
    exact hdisj (he ▸ List.mem_map_of_mem Order.orderId hy)
      (List.mem_map_of_mem Order.orderId (by
        rw [hs, ordersOf_cons]
        exact List.mem_append_left _ (by simp)))
  have hbuyfreeO : ∀ y ∈ ordersOf b.buyOrders, y.orderId ≠ o.orderId := by
    intro y hy
    exact hfreeL y (List.mem_append_left _ hy)
  set g : Order → Order := fun x =>
    if x.orderId = maker.orderId then maker.fill tq
    else if x.orderId = o.orderId then o.fill tq else x with hg
  have hgmaker : g maker = maker.fill tq := by simp [hg]
  have hgtail : ∀ y ∈ tail, g y = y := by
    intro y hy
    simp only [hg]
    rw [if_neg (htailids y hy), if_neg (htailfree y hy)]
  have hgrest : ∀ y ∈ ordersOf rest, g y = y := by
    intro y hy
    simp only [hg]
    rw [if_neg (hrestids y hy), if_neg (hrestfree y hy)]
  have hgbuy : ∀ y ∈ ordersOf b.buyOrders, g y = y := by
    intro y hy
    simp only [hg]
    rw [if_neg (hbuyfreeM y hy), if_neg (hbuyfreeO y hy)]
  have hE : b.execute_trade o maker tq =
      (((mapBookOrders g { b with rng := b.rng.tail }).removeIfFilled
          (o.fill tq)).removeIfFilled (maker.fill tq),
        o.fill tq, maker.fill tq,
        ⟨"T" ++ natStr b.rng.headI, o.orderId, maker.orderId, o.symbol,
          maker.price, tq⟩) := rfl
  set b₁ := mapBookOrders g { b with rng := b.rng.tail } with hb₁
  have hb₁sell : b₁.sellOrders = (p, maker.fill tq :: tail) :: rest := by
    rw [hb₁, mapBookOrders_sellOrders]
    show mapLadder g b.sellOrders = _
    rw [hs]
    show (p, (maker :: tail).map g) :: mapLadder g rest = _
    rw [List.map_cons, hgmaker, map_id_of_mem hgtail, mapLadder_id_of_mem hgrest]
  have hb₁buy : b₁.buyOrders = b.buyOrders := by
    rw [hb₁, mapBookOrders_buyOrders]
    show mapLadder g b.buyOrders = _
    exact mapLadder_id_of_mem hgbuy
  have hb₁map : b₁.orderMap = b.orderMap.map (fun kv => (kv.1, g kv.2)) := rfl
  have hb₁rng : b₁.rng = b.rng.tail := rfl
  have hb₁keys : ∀ kv ∈ b₁.orderMap, kv.1 ≠ o.orderId := by
    rw [hb₁map]
    intro kv hkv
    obtain ⟨kv₀, hkv₀, rfl⟩ := List.mem_map.mp hkv
    exact hfreeK kv₀ hkv₀
  have hb₂ : b₁.removeIfFilled (o.fill tq) = b₁ := by
    unfold OrderBook.removeIfFilled
    split
    · show (b₁.remove_order (o.fill tq).orderId).1 = b₁
      unfold OrderBook.remove_order
      rw [show (o.fill tq).orderId = o.orderId from rfl,
        lookupOrder_eq_none_of_no_key hb₁keys]
    · rfl
  have hlook₁ : lookupOrder b₁.orderMap maker.orderId = some (maker.fill tq) := by
    rw [hb₁map, lookupOrder_map, hmaker.1]
    show some (g maker) = _
    rw [hgmaker]
  have hmtype : (maker.fill tq).type = OrderType.SELL := hmaker.2.1
  have hmprice : (maker.fill tq).price = p := hmaker.2.2
  have hmembersWP : ∀ y ∈ ordersOf rest, 0 < y.getRemainingQuantity := by
    intro y hy
    exact hW5 y (hsellmem y (hrestmem y hy))
  have htailWP : ∀ y ∈ tail, 0 < y.getRemainingQuantity := by
    intro y hy
    refine hW5 y (hsellmem y ?_)
    rw [hs, ordersOf_cons]
    exact List.mem_append_left _ (by simp [hy])
  have hmapc : b.orderMap.map (fun kv => (kv.1, g kv.2)) =
      b.orderMap.map (fun kv =>
        if kv.1 = maker.orderId then (kv.1, maker.fill tq) else kv) := by
    apply map_congr_mem
    intro kv hkv
    obtain ⟨k, v⟩ := kv
    have hvid : v.orderId = k := hW1 (k, v) hkv
    by_cases hk : k = maker.orderId
    · have hv : v = maker := value_eq_of_lookup_nodup hmaker.1 hW2 (k, v) hkv hk
      subst hv
      rw [if_pos hk]
      show (k, g v) = (k, v.fill tq)
      rw [hgmaker]
    · rw [if_neg hk]
      show (k, g v) = (k, v)
      simp only [hg]
      rw [if_neg (fun hc => hk (by rw [← hvid]; exact hc)),
        if_neg (fun hc => hfreeK (k, v) hkv (by rw [← hvid]; exact hc))]
  cases hFF : (maker.fill tq).isFullyFilled with
  | false =>
    have hE1 : (b.execute_trade o maker tq).1 = b₁ := by
      rw [hE]
      show (b₁.removeIfFilled (o.fill tq)).removeIfFilled (maker.fill tq) = b₁
      rw [hb₂]
      unfold OrderBook.removeIfFilled
      rw [hFF]
      simp
    have hpop : popFrontIfFilled (b.execute_trade o maker tq).1.sellOrders =
        (p, maker.fill tq :: tail) :: rest := by
      rw [hE1, hb₁sell, popFrontIfFilled_cons, hFF]
      simp
    refine ⟨?_, ?_, ?_, ?_, ?_⟩
    · rw [matchStep_eq_buy_cons hty hs hp, hE]
    · rw [hE1, hb₁buy]
    · rw [hpop]
      simp
    · rw [hE1, hb₁map, hmapc]
      simp
    · rw [hE1, hb₁rng]
  | true =>
    have hb₃ : (b.execute_trade o maker tq).1 = (b₁.remove_order maker.orderId).1 := by
      rw [hE]
      show (b₁.removeIfFilled (o.fill tq)).removeIfFilled (maker.fill tq) = _
      rw [hb₂]
      unfold OrderBook.removeIfFilled
      rw [hFF]
      simp
      rfl
    obtain ⟨hroS, hroB, hroM, hroR⟩ := remove_order_fields_sell hlook₁ hmtype
    have hfilter : (maker.fill tq :: tail).filter
        (fun x => decide (x.orderId ≠ maker.orderId)) = tail := by
      rw [List.filter_cons]
      rw [if_neg (by simp [Order.fill])]
      exact filter_ne_id_of_all htailids
    have hrm : removeIdAtPrice ((p, maker.fill tq :: tail) :: rest) p maker.orderId =
        (if tail = [] then rest else (p, tail) :: rest) := by
      unfold removeIdAtPrice
      rw [if_pos rfl]
      show (if (maker.fill tq :: tail).filter (fun x => decide (x.orderId ≠ maker.orderId)) = []
        then rest
        else (p, (maker.fill tq :: tail).filter (fun x => decide (x.orderId ≠ maker.orderId))) :: rest) = _
      rw [hfilter]
    have hsell₃ : (b₁.remove_order maker.orderId).1.sellOrders =
        (if tail = [] then rest else (p, tail) :: rest) := by
      rw [hroS, hmprice, hb₁sell, hrm]
    have hmap₃ : (b₁.remove_order maker.orderId).1.orderMap =
        eraseKey b.orderMap maker.orderId := by
      rw [hroM, hb₁map, eraseKey_map_comm]
      apply map_id_of_mem
      intro kv hkv
      obtain ⟨hin, hne⟩ := mem_eraseKey hkv
      obtain ⟨k, v⟩ := kv
      have hvid : v.orderId = k := hW1 (k, v) hin
      show (k, g v) = (k, v)
      simp only [hg]
      rw [if_neg (fun hc => hne (by rw [← hvid]; exact hc)),
        if_neg (fun hc => hfreeK (k, v) hin (by rw [← hvid]; exact hc))]
    have hpop : popFrontIfFilled (b.execute_trade o maker tq).1.sellOrders =
        (if tail = [] then rest else (p, tail) :: rest) := by
      rw [hb₃, hsell₃]
      cases tail with
      | nil =>
        rw [if_pos rfl]
        cases hrest : rest with
        | nil => rfl
        | cons pq rest2 =>
          obtain ⟨p2, q2⟩ := pq
          have hq2 : q2 ≠ [] := hW6s (p2, q2) (by rw [hs, hrest]; simp)
          cases q2 with
          | nil => exact absurd rfl hq2
          | cons y ys =>
            rw [popFrontIfFilled_cons,
              isFullyFilled_false_of_rem_pos (hmembersWP y (by
                rw [hrest, ordersOf_cons]
                exact List.mem_append_left _ (by simp)))]
            simp
      | cons y ys =>
        rw [if_neg (by simp)]
        rw [popFrontIfFilled_cons,
          isFullyFilled_false_of_rem_pos (htailWP y (by simp))]
        simp
    refine ⟨?_, ?_, ?_, ?_, ?_⟩
    · rw [matchStep_eq_buy_cons hty hs hp, hE]
    · rw [hb₃, hroB, hb₁buy]
    · rw [hpop]
      simp
    · rw [hb₃, hmap₃]
      simp
    · rw [hb₃, hroR, hb₁rng]

theorem matchStep_eq_sell_nil {b : OrderBook} {o : Order}
    (hty : o.type = OrderType.SELL) (hs : b.buyOrders = []) :
    matchStep b o = .stop := by
  obtain ⟨bo, so, m, bb, ba, bs, ask, rng⟩ := b
  obtain ⟨i, ty, pr, qn, f, st, sy, cl⟩ := o
  dsimp at hty hs
  subst hty; subst hs
  rfl

theorem matchStep_eq_sell_cons {b : OrderBook} {o maker : Order} {p : Rat}
    {tail : List Order} {rest : Ladder}
    (hty : o.type = OrderType.SELL)
    (hs : b.buyOrders = (p, maker :: tail) :: rest) (hp : ¬ p < o.price) :
    matchStep b o = .next
      { (b.execute_trade maker o (min o.getRemainingQuantity maker.getRemainingQuantity)).1 with
        buyOrders := popFrontIfFilled
          (b.execute_trade maker o (min o.getRemainingQuantity maker.getRemainingQuantity)).1.buyOrders }
      (b.execute_trade maker o (min o.getRemainingQuantity maker.getRemainingQuantity)).2.2.1
      (some (b.execute_trade maker o
        (min o.getRemainingQuantity maker.getRemainingQuantity)).2.2.2) := by
  obtain ⟨bo, so, m, bb, ba, bs, ask, rng⟩ := b
  obtain ⟨i, ty, pr, qn, f, st, sy, cl⟩ := o
  dsimp at hty hs
  subst hty; subst hs
  show (if p < pr then StepResult.stop else _) = _
  rw [if_neg hp]

/-- Characterization of one trading iteration for a SELL aggressor — the
mirror image of `matchStep_char_buy`.  Note the emitted trade's price:
`execute_trade` prices at the *sell* order's price, here the aggressor's. -/
theorem matchStep_char_sell {b : OrderBook} {o maker : Order} {p : Rat}
    {tail : List Order} {rest : Ladder}
    (hWF : BookWF b) (hfree : idFree b o.orderId)
    (hty : o.type = OrderType.SELL)
    (hs : b.buyOrders = (p, maker :: tail) :: rest)
    (hp : ¬ p < o.price) :
    matchStep b o = .next
      { (b.execute_trade maker o (min o.getRemainingQuantity maker.getRemainingQuantity)).1 with
        buyOrders := popFrontIfFilled
          (b.execute_trade maker o (min o.getRemainingQuantity maker.getRemainingQuantity)).1.buyOrders }
      (o.fill (min o.getRemainingQuantity maker.getRemainingQuantity))
      (some ⟨"T" ++ natStr b.rng.headI, maker.orderId, o.orderId, maker.symbol,
        o.price, min o.getRemainingQuantity maker.getRemainingQuantity⟩) ∧
    ((b.execute_trade maker o (min o.getRemainingQuantity maker.getRemainingQuantity)).1).sellOrders
      = b.sellOrders ∧
    popFrontIfFilled
        ((b.execute_trade maker o (min o.getRemainingQuantity maker.getRemainingQuantity)).1).buyOrders =
      (if (maker.fill (min o.getRemainingQuantity maker.getRemainingQuantity)).isFullyFilled
       then (if tail = [] then rest else (p, tail) :: rest)
       else (p, maker.fill (min o.getRemainingQuantity maker.getRemainingQuantity) :: tail) :: rest) ∧
    ((b.execute_trade maker o (min o.getRemainingQuantity maker.getRemainingQuantity)).1).orderMap =
      (if (maker.fill (min o.getRemainingQuantity maker.getRemainingQuantity)).isFullyFilled
       then eraseKey b.orderMap maker.orderId
       else b.orderMap.map (fun kv =>
         if kv.1 = maker.orderId
         then (kv.1, maker.fill (min o.getRemainingQuantity maker.getRemainingQuantity)) else kv)) ∧
    ((b.execute_trade maker o (min o.getRemainingQuantity maker.getRemainingQuantity)).1).rng
      = b.rng.tail := by
  obtain ⟨hW1, hW2, hW3b, hW3s, hW4, hW5, hW6b, hW6s⟩ := hWF
  obtain ⟨hfreeL, hfreeK⟩ := hfree
  set tq := min o.getRemainingQuantity maker.getRemainingQuantity with htq
  have hmakermem : maker ∈ allOrders b := by
    unfold allOrders
    refine List.mem_append_left _ ?_
    rw [hs, ordersOf_cons]
    exact List.mem_append_left _ (by simp)
  have hmaker := hW3b (p, maker :: tail) (by rw [hs]; simp) maker (by simp)
  have hmne : maker.orderId ≠ o.orderId := hfreeL maker hmakermem
  have hW4' := hW4
  unfold allOrders at hW4'
  rw [List.map_append, List.nodup_append] at hW4'
  obtain ⟨hndbuy, hndsell, hdisj⟩ := hW4'
  have hbuyids := hndbuy
  rw [hs, ordersOf_cons] at hbuyids
  simp only [List.map_append, List.map_cons, List.nodup_append, List.nodup_cons] at hbuyids
  have htailids : ∀ y ∈ tail, y.orderId ≠ maker.orderId := by
    intro y hy he
    exact hbuyids.1.1 (he ▸ List.mem_map_of_mem Order.orderId hy)
  have hrestids : ∀ y ∈ ordersOf rest, y.orderId ≠ maker.orderId := by
    intro y hy he
    exact hbuyids.2.2 (List.mem_cons_self _ _) (he ▸ List.mem_map_of_mem Order.orderId hy)
  have hbuymem : ∀ y ∈ ordersOf b.buyOrders, y ∈ allOrders b := by
    intro y hy
    exact List.mem_append_left _ hy
  have htailfree : ∀ y ∈ tail, y.orderId ≠ o.orderId := by
    intro y hy
    refine hfreeL y (hbuymem y ?_)
    rw [hs, ordersOf_cons]
    exact List.mem_append_left _ (by simp [hy])
  have hrestmem : ∀ y ∈ ordersOf rest, y ∈ ordersOf b.buyOrders := by
    intro y hy
    rw [hs, ordersOf_cons]
    exact List.mem_append_right _ hy
  have hrestfree : ∀ y ∈ ordersOf rest, y.orderId ≠ o.orderId := by
    intro y hy
    exact hfreeL y (hbuymem y (hrestmem y hy))
  have hsellfreeM : ∀ y ∈ ordersOf b.sellOrders, y.orderId ≠ maker.orderId := by
    intro y hy he
    exact hdisj (List.mem_map_of_mem Order.orderId (by
        rw [hs, ordersOf_cons]
        exact List.mem_append_left _ (by simp)))
      (he ▸ List.mem_map_of_mem Order.orderId hy)
  have hsellfreeO : ∀ y ∈ ordersOf b.sellOrders, y.orderId ≠ o.orderId := by
    intro y hy
    exact hfreeL y (List.mem_append_right _ hy)
  set g : Order → Order := fun x =>
    if x.orderId = o.orderId then o.fill tq
    else if x.orderId = maker.orderId then maker.fill tq else x with hg
  have hgmaker : g maker = maker.fill tq := by
    simp only [hg]
    rw [if_neg hmne]
    simp
  have hgtail : ∀ y ∈ tail, g y = y := by
    intro y hy
    simp only [hg]
    rw [if_neg (htailfree y hy), if_neg (htailids y hy)]
  have hgrest : ∀ y ∈ ordersOf rest, g y = y := by
    intro y hy
    simp only [hg]
    rw [if_neg (hrestfree y hy), if_neg (hrestids y hy)]
  have hgsell : ∀ y ∈ ordersOf b.sellOrders, g y = y := by
    intro y hy
    simp only [hg]
    rw [if_neg (hsellfreeO y hy), if_neg (hsellfreeM y hy)]
  have hE : b.execute_trade maker o tq =
      (((mapBookOrders g { b with rng := b.rng.tail }).removeIfFilled
          (maker.fill tq)).removeIfFilled (o.fill tq),
        maker.fill tq, o.fill tq,
        ⟨"T" ++ natStr b.rng.headI, maker.orderId, o.orderId, maker.symbol,
          o.price, tq⟩) := rfl
  set b₁ := mapBookOrders g { b with rng := b.rng.tail } with hb₁
  have hb₁buy : b₁.buyOrders = (p, maker.fill tq :: tail) :: rest := by
    rw [hb₁, mapBookOrders_buyOrders]
    show mapLadder g b.buyOrders = _
    rw [hs]
    show (p, (maker :: tail).map g) :: mapLadder g rest = _
    rw [List.map_cons, hgmaker, map_id_of_mem hgtail, mapLadder_id_of_mem hgrest]
  have hb₁sell : b₁.sellOrders = b.sellOrders := by
    rw [hb₁, mapBookOrders_sellOrders]
    show mapLadder g b.sellOrders = _
    exact mapLadder_id_of_mem hgsell
  have hb₁map : b₁.orderMap = b.orderMap.map (fun kv => (kv.1, g kv.2)) := rfl
  have hb₁rng : b₁.rng = b.rng.tail := rfl
  have hb₁keys : ∀ kv ∈ b₁.orderMap, kv.1 ≠ o.orderId := by
    rw [hb₁map]
    intro kv hkv
    obtain ⟨kv₀, hkv₀, rfl⟩ := List.mem_map.mp hkv
    exact hfreeK kv₀ hkv₀
  have hlook₁ : lookupOrder b₁.orderMap maker.orderId = some (maker.fill tq) := by
    rw [hb₁map, lookupOrder_map, hmaker.1]
    show some (g maker) = _
    rw [hgmaker]
  have hmtype : (maker.fill tq).type = OrderType.BUY := hmaker.2.1
  have hmprice : (maker.fill tq).price = p := hmaker.2.2
  have hmembersWP : ∀ y ∈ ordersOf rest, 0 < y.getRemainingQuantity := by
    intro y hy
    exact hW5 y (hbuymem y (hrestmem y hy))
  have htailWP : ∀ y ∈ tail, 0 < y.getRemainingQuantity := by
    intro y hy
    refine hW5 y (hbuymem y ?_)
    rw [hs, ordersOf_cons]
    exact List.mem_append_left _ (by simp [hy])
  have hmapc : b.orderMap.map (fun kv => (kv.1, g kv.2)) =
      b.orderMap.map (fun kv =>
        if kv.1 = maker.orderId then (kv.1, maker.fill tq) else kv) := by
    apply map_congr_mem
    intro kv hkv
    obtain ⟨k, v⟩ := kv
    have hvid : v.orderId = k := hW1 (k, v) hkv
    by_cases hk : k = maker.orderId
    · have hv : v = maker := value_eq_of_lookup_nodup hmaker.1 hW2 (k, v) hkv hk
      subst hv
      rw [if_pos hk]
      show (k, g v) = (k, v.fill tq)
      rw [hgmaker]
    · rw [if_neg hk]
      show (k, g v) = (k, v)
      simp only [hg]
      rw [if_neg (fun hc => hfreeK (k, v) hkv (by rw [← hvid]; exact hc)),
        if_neg (fun hc => hk (by rw [← hvid]; exact hc))]
  cases hFF : (maker.fill tq).isFullyFilled with
  | false =>
    have hb₂ : b₁.removeIfFilled (maker.fill tq) = b₁ := by
      unfold OrderBook.removeIfFilled
      rw [hFF]
      simp
    have hE1 : (b.execute_trade maker o tq).1 = b₁ := by
      rw [hE]
      show (b₁.removeIfFilled (maker.fill tq)).removeIfFilled (o.fill tq) = b₁
      rw [hb₂]
      unfold OrderBook.removeIfFilled
      split
      · show (b₁.remove_order (o.fill tq).orderId).1 = b₁
        unfold OrderBook.remove_order
        rw [show (o.fill tq).orderId = o.orderId from rfl,
          lookupOrder_eq_none_of_no_key hb₁keys]
      · rfl
    have hpop : popFrontIfFilled (b.execute_trade maker o tq).1.buyOrders =
        (p, maker.fill tq :: tail) :: rest := by
      rw [hE1, hb₁buy, popFrontIfFilled_cons, hFF]
      simp
    refine ⟨?_, ?_, ?_, ?_, ?_⟩
    · rw [matchStep_eq_sell_cons hty hs hp, hE]
    · rw [hE1, hb₁sell]
    · rw [hpop]
      simp
    · rw [hE1, hb₁map, hmapc]
      simp
    · rw [hE1, hb₁rng]
  | true =>
    have hb₂ : b₁.removeIfFilled (maker.fill tq) = (b₁.remove_order maker.orderId).1 := by
      unfold OrderBook.removeIfFilled
      rw [hFF]
      simp
      rfl
    obtain ⟨hroB, hroS, hroM, hroR⟩ := remove_order_fields_buy hlook₁ hmtype
    have hkeysr : ∀ kv ∈ (b₁.remove_order maker.orderId).1.orderMap, kv.1 ≠ o.orderId := by
      rw [hroM]
      intro kv hkv
      exact hb₁keys kv (mem_eraseKey hkv).1
    have hb₃ : (b.execute_trade maker o tq).1 = (b₁.remove_order maker.orderId).1 := by
      rw [hE]
      show (b₁.removeIfFilled (maker.fill tq)).removeIfFilled (o.fill tq) = _
      rw [hb₂]
      unfold OrderBook.removeIfFilled
      split
      · show ((b₁.remove_order maker.orderId).1.remove_order (o.fill tq).orderId).1 = _
        rw [show (o.fill tq).orderId = o.orderId from rfl]
        exact remove_order_fst_of_no_key hkeysr
      · rfl
    have hfilter : (maker.fill tq :: tail).filter
        (fun x => decide (x.orderId ≠ maker.orderId)) = tail := by
      rw [List.filter_cons]
      rw [if_neg (by simp [Order.fill])]
      exact filter_ne_id_of_all htailids
    have hrm : removeIdAtPrice ((p, maker.fill tq :: tail) :: rest) p maker.orderId =
        (if tail = [] then rest else (p, tail) :: rest) := by
      unfold removeIdAtPrice
      rw [if_pos rfl]
      show (if (maker.fill tq :: tail).filter (fun x => decide (x.orderId ≠ maker.orderId)) = []
        then rest
        else (p, (maker.fill tq :: tail).filter (fun x => decide (x.orderId ≠ maker.orderId))) :: rest) = _
      rw [hfilter]
    have hbuy₃ : (b₁.remove_order maker.orderId).1.buyOrders =
        (if tail = [] then rest else (p, tail) :: rest) := by
      rw [hroB, hmprice, hb₁buy, hrm]
    have hmap₃ : (b₁.remove_order maker.orderId).1.orderMap =
        eraseKey b.orderMap maker.orderId := by
      rw [hroM, hb₁map, eraseKey_map_comm]
      apply map_id_of_mem
      intro kv hkv
      obtain ⟨hin, hne⟩ := mem_eraseKey hkv
      obtain ⟨k, v⟩ := kv
      have hvid : v.orderId = k := hW1 (k, v) hin
      show (k, g v) = (k, v)
      simp only [hg]
      rw [if_neg (fun hc => hfreeK (k, v) hin (by rw [← hvid]; exact hc)),
        if_neg (fun hc => hne (by rw [← hvid]; exact hc))]
    have hpop : popFrontIfFilled (b.execute_trade maker o tq).1.buyOrders =
        (if tail = [] then rest else (p, tail) :: rest) := by
      rw [hb₃, hbuy₃]
      cases tail with
      | nil =>
        rw [if_pos rfl]
        cases hrest : rest with
        | nil => rfl
        | cons pq rest2 =>
          obtain ⟨p2, q2⟩ := pq
          have hq2 : q2 ≠ [] := hW6b (p2, q2) (by rw [hs, hrest]; simp)
          cases q2 with
          | nil => exact absurd rfl hq2
          | cons y ys =>
            rw [popFrontIfFilled_cons,
              isFullyFilled_false_of_rem_pos (hmembersWP y (by
                rw [hrest, ordersOf_cons]
                exact List.mem_append_left _ (by simp)))]
            simp
      | cons y ys =>
        rw [if_neg (by simp)]
        rw [popFrontIfFilled_cons,
          isFullyFilled_false_of_rem_pos (htailWP y (by simp))]
        simp
    refine ⟨?_, ?_, ?_, ?_, ?_⟩
    · rw [matchStep_eq_sell_cons hty hs hp, hE]
    · rw [hb₃, hroS, hb₁sell]
    · rw [hpop]
      simp
    · rw [hb₃, hmap₃]
      simp
    · rw [hb₃, hroR, hb₁rng]

/-! ## Field computations for `Order.fill` -/

theorem fill_orderId (x : Order) (q : Int) : (x.fill q).orderId = x.orderId := rfl

theorem fill_type (x : Order) (q : Int) : (x.fill q).type = x.type := rfl

theorem fill_price (x : Order) (q : Int) : (x.fill q).price = x.price := rfl

theorem fill_quantity (x : Order) (q : Int) : (x.fill q).quantity = x.quantity := rfl

theorem fill_symbol (x : Order) (q : Int) : (x.fill q).symbol = x.symbol := rfl

theorem fill_clientId (x : Order) (q : Int) : (x.fill q).clientId = x.clientId := rfl

theorem fill_rem (x : Order) (q : Int) :
    (x.fill q).getRemainingQuantity = x.getRemainingQuantity - q := by
  unfold Order.getRemainingQuantity Order.fill
  dsimp
  ring

theorem isFullyFilled_fill_iff (x : Order) (t : Int) :
    (x.fill t).isFullyFilled = true ↔ x.getRemainingQuantity ≤ t := by
  unfold Order.isFullyFilled Order.fill Order.getRemainingQuantity
  simp only [decide_eq_true_eq]
  constructor <;> (intro h; omega)

theorem lookupOrder_map_replace_self {m : List (String × Order)} {k : String} {x : Order}
    (hl : lookupOrder m k = some x) (v : Order) :
    lookupOrder (m.map (fun kv => if kv.1 = k then (kv.1, v) else kv)) k = some v := by
  induction m with
  | nil => simp [lookupOrder] at hl
  | cons kv rest ih =>
    obtain ⟨k', y⟩ := kv
    simp only [List.map_cons]
    by_cases he : k' = k
    · rw [if_pos he]
      simp only [lookupOrder]
      rw [if_pos he]
    · rw [if_neg he]
      simp only [lookupOrder] at hl ⊢
      rw [if_neg he] at hl ⊢
      exact ih hl

theorem mem_keys_of_lookup {m : List (String × Order)} {k : String} {x : Order}
    (hl : lookupOrder m k = some x) : k ∈ m.map Prod.fst := by
  induction m with
  | nil => simp [lookupOrder] at hl
  | cons kv rest ih =>
    obtain ⟨k', y⟩ := kv
    simp only [lookupOrder] at hl
    by_cases he : k' = k
    · simp [he]
    · rw [if_neg he] at hl
      simp [ih hl]

theorem lt_all_of_lt_head {x a : Rat} {rest : List Rat}
    (hp : List.Pairwise (· < ·) (a :: rest)) (hx : x < a) :
    ∀ y ∈ a :: rest, x < y := by
  intro y hy
  rcases List.mem_cons.mp hy with h | h
  · exact h ▸ hx
  · exact lt_trans hx (List.rel_of_pairwise_cons hp h)

theorem all_lt_of_head_lt {x a : Rat} {rest : List Rat}
    (hp : List.Pairwise (· > ·) (a :: rest)) (hx : a < x) :
    ∀ y ∈ a :: rest, y < x := by
  intro y hy
  rcases List.mem_cons.mp hy with h | h
  · exact h ▸ hx
  · exact lt_trans (List.rel_of_pairwise_cons hp h) hx

/-! ## One full trading iteration: invariant preservation and accounting

`matchStep_pack_buy` / `matchStep_pack_sell` package everything the loop
induction needs about one iteration that actually trades: the step produces
`o.fill tq` with a positive trade, preserves `BookWF` and freshness of the
aggressor's id, leaves the aggressor's own ladder untouched, only thins the
opposite ladder and the index, removes exactly `tq` resting remaining
quantity, and strictly decreases the loop variant. -/

theorem matchStep_pack_buy {b : OrderBook} {o : Order}
    (hWF : BookWF b) (hfree : idFree b o.orderId)
    (hty : o.type = OrderType.BUY)
    (hrem : 0 < o.getRemainingQuantity)
    (hnm : ¬ noMatchTop b o = true) :
    ∃ b' tq t, matchStep b o = .next b' (o.fill tq) (some t) ∧
      0 < tq ∧ t.quantity = tq ∧
      BookWF b' ∧ idFree b' o.orderId ∧
      b'.buyOrders = b.buyOrders ∧
      List.Sublist (ladderKeys b'.sellOrders) (ladderKeys b.sellOrders) ∧
      List.Sublist (b'.orderMap.map Prod.fst) (b.orderMap.map Prod.fst) ∧
      mapRemaining b'.orderMap + tq = mapRemaining b.orderMap ∧
      matchMeasure b' (o.fill tq) < matchMeasure b o := by
  obtain ⟨hW1, hW2, hW3b, hW3s, hW4, hW5, hW6b, hW6s⟩ := hWF
  obtain ⟨hfreeL, hfreeK⟩ := hfree
  cases hs0 : b.sellOrders with
  | nil =>
    exfalso
    apply hnm
    unfold noMatchTop
    rw [hty, hs0]
  | cons pq rest =>
    obtain ⟨p, lvl⟩ := pq
    have hp : ¬ o.price < p := by
      intro hlt
      apply hnm
      unfold noMatchTop
      rw [hty, hs0]
      simpa using hlt
    have hlvl : lvl ≠ [] := hW6s (p, lvl) (by rw [hs0]; simp)
    cases lvl with
    | nil => exact absurd rfl hlvl
    | cons maker tail =>
      obtain ⟨hstep, hbuyE, hpop, hmapE, hrngE⟩ :=
        matchStep_char_buy
          ⟨hW1, hW2, hW3b, hW3s, hW4, hW5, hW6b, hW6s⟩ ⟨hfreeL, hfreeK⟩ hty hs0 hp
      set tq := min o.getRemainingQuantity maker.getRemainingQuantity with htqdef
      set E := (b.execute_trade o maker tq).1 with hEdef
      have hmakermem' : maker ∈ ordersOf b.sellOrders := by
        rw [hs0, ordersOf_cons]
        exact List.mem_append_left _ (by simp)
      have hmakermem : maker ∈ allOrders b :=
        List.mem_append_right _ hmakermem'
      have hmaker := hW3s (p, maker :: tail) (by rw [hs0]; simp) maker (by simp)
      have hmakerrem : 0 < maker.getRemainingQuantity := hW5 maker hmakermem
      have htqpos : 0 < tq := lt_min hrem hmakerrem
      have htqle : tq ≤ maker.getRemainingQuantity := min_le_right _ _
      have hW4' := hW4
      unfold allOrders at hW4'
      rw [List.map_append, List.nodup_append] at hW4'
      obtain ⟨hndbuy, hndsell, hdisj⟩ := hW4'
      have hsellids := hndsell
      rw [hs0, ordersOf_cons] at hsellids
      simp only [List.map_append, List.map_cons, List.nodup_append,
        List.nodup_cons] at hsellids
      have htailids : ∀ y ∈ tail, y.orderId ≠ maker.orderId := by
        intro y hy he
        exact hsellids.1.1 (he ▸ List.mem_map_of_mem Order.orderId hy)
      have hrestids : ∀ y ∈ ordersOf rest, y.orderId ≠ maker.orderId := by
        intro y hy he
        exact hsellids.2.2 (List.mem_cons_self _ _)
          (he ▸ List.mem_map_of_mem Order.orderId hy)
      have hbuyfreeM : ∀ y ∈ ordersOf b.buyOrders, y.orderId ≠ maker.orderId := by
        intro y hy he
        exact hdisj (List.mem_map_of_mem Order.orderId hy)
          (he ▸ List.mem_map_of_mem Order.orderId hmakermem')
      have htailmem : ∀ y ∈ tail, y ∈ ordersOf b.sellOrders := by
        intro y hy
        rw [hs0, ordersOf_cons]
        exact List.mem_append_left _ (by simp [hy])
      have hrestmem : ∀ y ∈ ordersOf rest, y ∈ ordersOf b.sellOrders := by
        intro y hy
        rw [hs0, ordersOf_cons]
        exact List.mem_append_right _ hy
      have hmb : matchMeasure b o = ladderSize b.sellOrders + b.sellOrders.length + 1 := by
        unfold matchMeasure
        rw [show oppLadder b o.type = b.sellOrders from by rw [hty]; rfl]
        rw [if_pos hrem]
      have hB'buy :
          ({E with sellOrders := popFrontIfFilled E.sellOrders} : OrderBook).buyOrders
            = b.buyOrders := hbuyE
      have hB'map :
          ({E with sellOrders := popFrontIfFilled E.sellOrders} : OrderBook).orderMap
            = E.orderMap := rfl
      have hoppB' :
          oppLadder ({E with sellOrders := popFrontIfFilled E.sellOrders} : OrderBook)
              (o.fill tq).type
            = popFrontIfFilled E.sellOrders := by
        rw [fill_type, hty]
        rfl
      by_cases hFF : (maker.fill tq).isFullyFilled = true
      · rw [if_pos hFF] at hpop hmapE
        have hoS' : ordersOf (if tail = [] then rest else (p, tail) :: rest) =
            tail ++ ordersOf rest := by
          cases tail with
          | nil => simp
          | cons y ys => rw [if_neg (by simp), ordersOf_cons]
        have hallsub : List.Sublist
            (allOrders { E with sellOrders := popFrontIfFilled E.sellOrders })
            (allOrders b) := by
          show List.Sublist
            (ordersOf E.buyOrders ++ ordersOf (popFrontIfFilled E.sellOrders))
            (ordersOf b.buyOrders ++ ordersOf b.sellOrders)
          rw [hbuyE, hpop, hoS', hs0, ordersOf_cons, List.cons_append]
          exact List.Sublist.append_left (List.sublist_cons_self _ _) _
        have htqeq : maker.getRemainingQuantity ≤ tq :=
          (isFullyFilled_fill_iff maker tq).mp hFF
        refine ⟨{E with sellOrders := popFrontIfFilled E.sellOrders}, tq, _,
          hstep, htqpos, rfl, ?_, ?_, hbuyE, ?_, ?_, ?_, ?_⟩
        · -- BookWF
          refine ⟨?_, ?_, ?_, ?_, ?_, ?_, ?_, ?_⟩
          · rw [hB'map, hmapE]
            intro kv hkv
            exact hW1 kv (mem_eraseKey hkv).1
          · rw [hB'map, hmapE]
            exact List.Nodup.sublist (eraseKey_keys_sublist _ _) hW2
          · rw [hB'buy, hB'map, hmapE]
            intro pq hpq x hx
            have hxmem : x ∈ ordersOf b.buyOrders :=
              List.mem_flatten.mpr ⟨pq.2, List.mem_map_of_mem Prod.snd hpq, hx⟩
            have hold := hW3b pq hpq x hx
            exact ⟨by rw [lookupOrder_eraseKey_ne (hbuyfreeM x hxmem)]; exact hold.1,
              hold.2.1, hold.2.2⟩
          · show ∀ pq ∈ popFrontIfFilled E.sellOrders, ∀ x ∈ pq.2,
              lookupOrder ({E with sellOrders := popFrontIfFilled E.sellOrders} :
                OrderBook).orderMap x.orderId = some x ∧
                x.type = OrderType.SELL ∧ x.price = pq.1
            rw [hB'map, hmapE, hpop]
            intro pq hpq x hx
            have hcore : (lookupOrder b.orderMap x.orderId = some x ∧
                x.type = OrderType.SELL ∧ x.price = pq.1) ∧
                x.orderId ≠ maker.orderId := by
              cases tail with
              | nil =>
                rw [if_pos rfl] at hpq
                have hold : pq ∈ b.sellOrders := by
                  rw [hs0]
                  exact List.mem_cons_of_mem _ hpq
                have hxr : x ∈ ordersOf rest :=
                  List.mem_flatten.mpr ⟨pq.2, List.mem_map_of_mem Prod.snd hpq, hx⟩
                exact ⟨hW3s pq hold x hx, hrestids x hxr⟩
              | cons y ys =>
                rw [if_neg (by simp)] at hpq
                rcases List.mem_cons.mp hpq with h | h
                · subst h
                  have hxt := hW3s (p, maker :: y :: ys) (by rw [hs0]; simp) x
                    (List.mem_cons_of_mem maker hx)
                  exact ⟨hxt, htailids x hx⟩
                · have hold : pq ∈ b.sellOrders := by
                    rw [hs0]
                    exact List.mem_cons_of_mem _ h
                  have hxr : x ∈ ordersOf rest :=
                    List.mem_flatten.mpr ⟨pq.2, List.mem_map_of_mem Prod.snd h, hx⟩
                  exact ⟨hW3s pq hold x hx, hrestids x hxr⟩
            exact ⟨by rw [lookupOrder_eraseKey_ne hcore.2]; exact hcore.1.1,
              hcore.1.2.1, hcore.1.2.2⟩
          · exact List.Nodup.sublist (List.Sublist.map Order.orderId hallsub) hW4
          · intro x hx
            exact hW5 x (List.Sublist.subset hallsub hx)
          · rw [hB'buy]
            exact hW6b
          · show ∀ pq ∈ popFrontIfFilled E.sellOrders, pq.2 ≠ []
            rw [hpop]
            cases tail with
            | nil =>
              rw [if_pos rfl]
              intro pq hpq
              exact hW6s pq (by rw [hs0]; exact List.mem_cons_of_mem _ hpq)
            | cons y ys =>
              rw [if_neg (by simp)]
              intro pq hpq
              rcases List.mem_cons.mp hpq with h | h
              · rw [h]
                simp
              · exact hW6s pq (by rw [hs0]; exact List.mem_cons_of_mem _ h)
        · -- idFree
          constructor
          · intro x hx
            exact hfreeL x (List.Sublist.subset hallsub hx)
          · rw [hB'map, hmapE]
            intro kv hkv
            exact hfreeK kv (mem_eraseKey hkv).1
        · -- sell ladder keys sublist
          show List.Sublist (ladderKeys (popFrontIfFilled E.sellOrders))
            (ladderKeys ((p, maker :: tail) :: rest))
          rw [hpop]
          cases tail with
          | nil =>
            rw [if_pos rfl]
            show List.Sublist (ladderKeys rest) (p :: ladderKeys rest)
            exact List.sublist_cons_self _ _
          | cons y ys =>
            rw [if_neg (by simp)]
            show List.Sublist (p :: ladderKeys rest) (p :: ladderKeys rest)
            exact List.Sublist.refl _
        · -- index keys sublist
          rw [hB'map, hmapE]
          exact eraseKey_keys_sublist _ _
        · -- remaining-quantity accounting
          rw [hB'map, hmapE]
          have h1 := mapRemaining_eraseKey hmaker.1 hW2
          omega
        · -- the loop variant drops
          rw [hmb, hs0]
          unfold matchMeasure
          rw [hoppB', hpop]
          have hind : (if 0 < (o.fill tq).getRemainingQuantity then 1 else 0) ≤ 1 := by
            split <;> omega
          cases tail with
          | nil =>
            rw [if_pos rfl]
            simp only [ladderSize, List.map_cons, List.sum_cons, List.length_cons,
              List.length_nil]
            omega
          | cons y ys =>
            rw [if_neg (by simp)]
            simp only [ladderSize, List.map_cons, List.sum_cons, List.length_cons]
            omega
      · rw [if_neg hFF] at hpop hmapE
        have hmrem : ¬ maker.getRemainingQuantity ≤ tq := fun hc =>
          hFF ((isFullyFilled_fill_iff maker tq).mpr hc)
        have hmem' : ∀ x ∈ allOrders { E with sellOrders := popFrontIfFilled E.sellOrders },
            x = maker.fill tq ∨ x ∈ allOrders b := by
          intro x hx
          unfold allOrders at hx
          dsimp only at hx
          rw [hbuyE, hpop] at hx
          rcases List.mem_append.mp hx with h | h
          · exact Or.inr (List.mem_append_left _ h)
          · rw [ordersOf_cons] at h
            rcases List.mem_append.mp h with h | h
            · rcases List.mem_cons.mp h with h | h
              · exact Or.inl h
              · exact Or.inr (List.mem_append_right _ (htailmem x h))
            · exact Or.inr (List.mem_append_right _ (hrestmem x h))
        have hids : (allOrders { E with sellOrders := popFrontIfFilled E.sellOrders }).map
            Order.orderId = (allOrders b).map Order.orderId := by
          show ((ordersOf E.buyOrders ++ ordersOf (popFrontIfFilled E.sellOrders)).map
            Order.orderId) = _
          rw [hbuyE, hpop]
          unfold allOrders
          rw [hs0]
          simp [ordersOf_cons, fill_orderId]
        refine ⟨{E with sellOrders := popFrontIfFilled E.sellOrders}, tq, _,
          hstep, htqpos, rfl, ?_, ?_, hbuyE, ?_, ?_, ?_, ?_⟩
        · -- BookWF
          refine ⟨?_, ?_, ?_, ?_, ?_, ?_, ?_, ?_⟩
          · rw [hB'map, hmapE]
            intro kv hkv
            obtain ⟨kv₀, hkv₀, rfl⟩ := List.mem_map.mp hkv
            by_cases hk : kv₀.1 = maker.orderId
            · rw [if_pos hk]
              rw [fill_orderId, hk]
            · rw [if_neg hk]
              exact hW1 kv₀ hkv₀
          · rw [hB'map, hmapE, keys_map_replace]
            exact hW2
          · rw [hB'buy, hB'map, hmapE]
            intro pq hpq x hx
            have hxmem : x ∈ ordersOf b.buyOrders :=
              List.mem_flatten.mpr ⟨pq.2, List.mem_map_of_mem Prod.snd hpq, hx⟩
            have hold := hW3b pq hpq x hx
            exact ⟨by rw [lookupOrder_map_replace_ne (hbuyfreeM x hxmem)]; exact hold.1,
              hold.2.1, hold.2.2⟩
          · show ∀ pq ∈ popFrontIfFilled E.sellOrders, ∀ x ∈ pq.2,
              lookupOrder ({E with sellOrders := popFrontIfFilled E.sellOrders} :
                OrderBook).orderMap x.orderId = some x ∧
                x.type = OrderType.SELL ∧ x.price = pq.1
            rw [hB'map, hmapE, hpop]
            intro pq hpq x hx
            rcases List.mem_cons.mp hpq with h | h
            · subst h
              rcases List.mem_cons.mp hx with hxm | hxt
              · subst hxm
                refine ⟨?_, ?_, ?_⟩
                · rw [fill_orderId]
                  exact lookupOrder_map_replace_self hmaker.1 _
                · rw [fill_type]
                  exact hmaker.2.1
                · rw [fill_price]
                  exact hmaker.2.2
              · have hxold := hW3s (p, maker :: tail) (by rw [hs0]; simp) x
                  (List.mem_cons_of_mem _ hxt)
                refine ⟨?_, hxold.2.1, hxold.2.2⟩
                rw [lookupOrder_map_replace_ne (htailids x hxt)]
                exact hxold.1
            · have hold : pq ∈ b.sellOrders := by
                rw [hs0]
                exact List.mem_cons_of_mem _ h
              have hxr : x ∈ ordersOf rest :=
                List.mem_flatten.mpr ⟨pq.2, List.mem_map_of_mem Prod.snd h, hx⟩
              have hxold := hW3s pq hold x hx
              refine ⟨?_, hxold.2.1, hxold.2.2⟩
              rw [lookupOrder_map_replace_ne (hrestids x hxr)]
              exact hxold.1
          · rw [hids]
            exact hW4
          · intro x hx
            rcases hmem' x hx with h | h
            · rw [h, fill_rem]
              omega
            · exact hW5 x h
          · rw [hB'buy]
            exact hW6b
          · show ∀ pq ∈ popFrontIfFilled E.sellOrders, pq.2 ≠ []
            rw [hpop]
            intro pq hpq
            rcases List.mem_cons.mp hpq with h | h
            · rw [h]
              simp
            · exact hW6s pq (by rw [hs0]; exact List.mem_cons_of_mem _ h)
        · -- idFree
          constructor
          · intro x hx
            rcases hmem' x hx with h | h
            · rw [h, fill_orderId]
              exact hfreeL maker hmakermem
            · exact hfreeL x h
          · rw [hB'map, hmapE]
            intro kv hkv
            obtain ⟨kv₀, hkv₀, rfl⟩ := List.mem_map.mp hkv
            by_cases hk : kv₀.1 = maker.orderId
            · rw [if_pos hk]
              exact hfreeK kv₀ hkv₀
            · rw [if_neg hk]
              exact hfreeK kv₀ hkv₀
        · -- sell ladder keys: unchanged
          show List.Sublist (ladderKeys (popFrontIfFilled E.sellOrders))
            (ladderKeys ((p, maker :: tail) :: rest))
          rw [hpop]
          show List.Sublist (p :: ladderKeys rest) (p :: ladderKeys rest)
          exact List.Sublist.refl _
        · -- index keys: unchanged
          rw [hB'map, hmapE, keys_map_replace]
        · -- remaining-quantity accounting
          rw [hB'map, hmapE]
          have h1 := @mapRemaining_map_replace b.orderMap maker.orderId maker
            (maker.fill tq) hmaker.1 hW2
          rw [fill_rem] at h1
          omega
        · -- the loop variant drops
          have hz : (o.fill tq).getRemainingQuantity = 0 := by
            rw [fill_rem, htqdef]
            omega
          have hindz : ¬ (0 : Int) < (o.fill tq).getRemainingQuantity := by
            rw [hz]
            exact lt_irrefl 0
          rw [hmb, hs0]
          unfold matchMeasure
          rw [hoppB', hpop, if_neg hindz]
          simp only [ladderSize, List.map_cons, List.sum_cons, List.length_cons]
          omega

theorem matchStep_pack_sell {b : OrderBook} {o : Order}
    (hWF : BookWF b) (hfree : idFree b o.orderId)
    (hty : o.type = OrderType.SELL)
    (hrem : 0 < o.getRemainingQuantity)
    (hnm : ¬ noMatchTop b o = true) :
    ∃ b' tq t, matchStep b o = .next b' (o.fill tq) (some t) ∧
      0 < tq ∧ t.quantity = tq ∧
      BookWF b' ∧ idFree b' o.orderId ∧
      b'.sellOrders = b.sellOrders ∧
      List.Sublist (ladderKeys b'.buyOrders) (ladderKeys b.buyOrders) ∧
      List.Sublist (b'.orderMap.map Prod.fst) (b.orderMap.map Prod.fst) ∧
      mapRemaining b'.orderMap + tq = mapRemaining b.orderMap ∧
      matchMeasure b' (o.fill tq) < matchMeasure b o := by
  obtain ⟨hW1, hW2, hW3b, hW3s, hW4, hW5, hW6b, hW6s⟩ := hWF
  obtain ⟨hfreeL, hfreeK⟩ := hfree
  cases hs0 : b.buyOrders with
  | nil =>
    exfalso
    apply hnm
    unfold noMatchTop
    rw [hty, hs0]
  | cons pq rest =>
    obtain ⟨p, lvl⟩ := pq
    have hp : ¬ p < o.price := by
      intro hlt
      apply hnm
      unfold noMatchTop
      rw [hty, hs0]
      simpa using hlt
    have hlvl : lvl ≠ [] := hW6b (p, lvl) (by rw [hs0]; simp)
    cases lvl with
    | nil => exact absurd rfl hlvl
    | cons maker tail =>
      obtain ⟨hstep, hsellE, hpop, hmapE, hrngE⟩ :=
        matchStep_char_sell
          ⟨hW1, hW2, hW3b, hW3s, hW4, hW5, hW6b, hW6s⟩ ⟨hfreeL, hfreeK⟩ hty hs0 hp
      set tq := min o.getRemainingQuantity maker.getRemainingQuantity with htqdef
      set E := (b.execute_trade maker o tq).1 with hEdef
      have hmakermem' : maker ∈ ordersOf b.buyOrders := by
        rw [hs0, ordersOf_cons]
        exact List.mem_append_left _ (by simp)
      have hmakermem : maker ∈ allOrders b :=
        List.mem_append_left _ hmakermem'
      have hmaker := hW3b (p, maker :: tail) (by rw [hs0]; simp) maker (by simp)
      have hmakerrem : 0 < maker.getRemainingQuantity := hW5 maker hmakermem
      have htqpos : 0 < tq := lt_min hrem hmakerrem
      have htqle : tq ≤ maker.getRemainingQuantity := min_le_right _ _
      have hW4' := hW4
      unfold allOrders at hW4'
      rw [List.map_append, List.nodup_append] at hW4'
      obtain ⟨hndbuy, hndsell, hdisj⟩ := hW4'
      have hbuyids := hndbuy
      rw [hs0, ordersOf_cons] at hbuyids
      simp only [List.map_append, List.map_cons, List.nodup_append,
        List.nodup_cons] at hbuyids
      have htailids : ∀ y ∈ tail, y.orderId ≠ maker.orderId := by
        intro y hy he
        exact hbuyids.1.1 (he ▸ List.mem_map_of_mem Order.orderId hy)
      have hrestids : ∀ y ∈ ordersOf rest, y.orderId ≠ maker.orderId := by
        intro y hy he
        exact hbuyids.2.2 (List.mem_cons_self _ _)
          (he ▸ List.mem_map_of_mem Order.orderId hy)
      have hsellfreeM : ∀ y ∈ ordersOf b.sellOrders, y.orderId ≠ maker.orderId := by
        intro y hy he
        exact hdisj (he ▸ List.mem_map_of_mem Order.orderId hmakermem')
          (List.mem_map_of_mem Order.orderId hy)
      have htailmem : ∀ y ∈ tail, y ∈ ordersOf b.buyOrders := by
        intro y hy
        rw [hs0, ordersOf_cons]
        exact List.mem_append_left _ (by simp [hy])
      have hrestmem : ∀ y ∈ ordersOf rest, y ∈ ordersOf b.buyOrders := by
        intro y hy
        rw [hs0, ordersOf_cons]
        exact List.mem_append_right _ hy
      have hmb : matchMeasure b o = ladderSize b.buyOrders + b.buyOrders.length + 1 := by
        unfold matchMeasure
        rw [show oppLadder b o.type = b.buyOrders from by rw [hty]; rfl]
        rw [if_pos hrem]
      have hB'sell :
          ({E with buyOrders := popFrontIfFilled E.buyOrders} : OrderBook).sellOrders
            = b.sellOrders := hsellE
      have hB'map :
          ({E with buyOrders := popFrontIfFilled E.buyOrders} : OrderBook).orderMap
            = E.orderMap := rfl
      have hoppB' :
          oppLadder ({E with buyOrders := popFrontIfFilled E.buyOrders} : OrderBook)
              (o.fill tq).type
            = popFrontIfFilled E.buyOrders := by
        rw [fill_type, hty]
        rfl
      by_cases hFF : (maker.fill tq).isFullyFilled = true
      · rw [if_pos hFF] at hpop hmapE
        have hoS' : ordersOf (if tail = [] then rest else (p, tail) :: rest) =
            tail ++ ordersOf rest := by
          cases tail with
          | nil => simp
          | cons y ys => rw [if_neg (by simp), ordersOf_cons]
        have hallsub : List.Sublist
            (allOrders { E with buyOrders := popFrontIfFilled E.buyOrders })
            (allOrders b) := by
          show List.Sublist
            (ordersOf (popFrontIfFilled E.buyOrders) ++ ordersOf E.sellOrders)
            (ordersOf b.buyOrders ++ ordersOf b.sellOrders)
          rw [hsellE, hpop, hoS', hs0, ordersOf_cons, List.cons_append]
          exact List.Sublist.append (List.sublist_cons_self _ _) (List.Sublist.refl _)
        have htqeq : maker.getRemainingQuantity ≤ tq :=
          (isFullyFilled_fill_iff maker tq).mp hFF
        refine ⟨{E with buyOrders := popFrontIfFilled E.buyOrders}, tq, _,
          hstep, htqpos, rfl, ?_, ?_, hsellE, ?_, ?_, ?_, ?_⟩
        · -- BookWF
          refine ⟨?_, ?_, ?_, ?_, ?_, ?_, ?_, ?_⟩
          · rw [hB'map, hmapE]
            intro kv hkv
            exact hW1 kv (mem_eraseKey hkv).1
          · rw [hB'map, hmapE]
            exact List.Nodup.sublist (eraseKey_keys_sublist _ _) hW2
          · show ∀ pq ∈ popFrontIfFilled E.buyOrders, ∀ x ∈ pq.2,
              lookupOrder ({E with buyOrders := popFrontIfFilled E.buyOrders} :
                OrderBook).orderMap x.orderId = some x ∧
                x.type = OrderType.BUY ∧ x.price = pq.1
            rw [hB'map, hmapE, hpop]
            intro pq hpq x hx
            have hcore : (lookupOrder b.orderMap x.orderId = some x ∧
                x.type = OrderType.BUY ∧ x.price = pq.1) ∧
                x.orderId ≠ maker.orderId := by
              cases tail with
              | nil =>
                rw [if_pos rfl] at hpq
                have hold : pq ∈ b.buyOrders := by
                  rw [hs0]
                  exact List.mem_cons_of_mem _ hpq
                have hxr : x ∈ ordersOf rest :=
                  List.mem_flatten.mpr ⟨pq.2, List.mem_map_of_mem Prod.snd hpq, hx⟩
                exact ⟨hW3b pq hold x hx, hrestids x hxr⟩
              | cons y ys =>
                rw [if_neg (by simp)] at hpq
                rcases List.mem_cons.mp hpq with h | h
                · subst h
                  have hxt := hW3b (p, maker :: y :: ys) (by rw [hs0]; simp) x
                    (List.mem_cons_of_mem maker hx)
                  exact ⟨hxt, htailids x hx⟩
                · have hold : pq ∈ b.buyOrders := by
                    rw [hs0]
                    exact List.mem_cons_of_mem _ h
                  have hxr : x ∈ ordersOf rest :=
                    List.mem_flatten.mpr ⟨pq.2, List.mem_map_of_mem Prod.snd h, hx⟩
                  exact ⟨hW3b pq hold x hx, hrestids x hxr⟩
            exact ⟨by rw [lookupOrder_eraseKey_ne hcore.2]; exact hcore.1.1,
              hcore.1.2.1, hcore.1.2.2⟩
          · rw [hB'sell, hB'map, hmapE]
            intro pq hpq x hx
            have hxmem : x ∈ ordersOf b.sellOrders :=
              List.mem_flatten.mpr ⟨pq.2, List.mem_map_of_mem Prod.snd hpq, hx⟩
            have hold := hW3s pq hpq x hx
            exact ⟨by rw [lookupOrder_eraseKey_ne (hsellfreeM x hxmem)]; exact hold.1,
              hold.2.1, hold.2.2⟩
          · exact List.Nodup.sublist (List.Sublist.map Order.orderId hallsub) hW4
          · intro x hx
            exact hW5 x (List.Sublist.subset hallsub hx)
          · show ∀ pq ∈ popFrontIfFilled E.buyOrders, pq.2 ≠ []
            rw [hpop]
            cases tail with
            | nil =>
              rw [if_pos rfl]
              intro pq hpq
              exact hW6b pq (by rw [hs0]; exact List.mem_cons_of_mem _ hpq)
            | cons y ys =>
              rw [if_neg (by simp)]
              intro pq hpq
              rcases List.mem_cons.mp hpq with h | h
              · rw [h]
                simp
              · exact hW6b pq (by rw [hs0]; exact List.mem_cons_of_mem _ h)
          · rw [hB'sell]
            exact hW6s
        · -- idFree
          constructor
          · intro x hx
            exact hfreeL x (List.Sublist.subset hallsub hx)
          · rw [hB'map, hmapE]
            intro kv hkv
            exact hfreeK kv (mem_eraseKey hkv).1
        · -- buy ladder keys sublist
          show List.Sublist (ladderKeys (popFrontIfFilled E.buyOrders))
            (ladderKeys ((p, maker :: tail) :: rest))
          rw [hpop]
          cases tail with
          | nil =>
            rw [if_pos rfl]
            show List.Sublist (ladderKeys rest) (p :: ladderKeys rest)
            exact List.sublist_cons_self _ _
          | cons y ys =>
            rw [if_neg (by simp)]
            show List.Sublist (p :: ladderKeys rest) (p :: ladderKeys rest)
            exact List.Sublist.refl _
        · -- index keys sublist
          rw [hB'map, hmapE]
          exact eraseKey_keys_sublist _ _
        · -- remaining-quantity accounting
          rw [hB'map, hmapE]
          have h1 := mapRemaining_eraseKey hmaker.1 hW2
          omega
        · -- the loop variant drops
          rw [hmb, hs0]
          unfold matchMeasure
          rw [hoppB', hpop]
          have hind : (if 0 < (o.fill tq).getRemainingQuantity then 1 else 0) ≤ 1 := by
            split <;> omega
          cases tail with
          | nil =>
            rw [if_pos rfl]
            simp only [ladderSize, List.map_cons, List.sum_cons, List.length_cons,
              List.length_nil]
            omega
          | cons y ys =>
            rw [if_neg (by simp)]
            simp only [ladderSize, List.map_cons, List.sum_cons, List.length_cons]
            omega
      · rw [if_neg hFF] at hpop hmapE
        have hmrem : ¬ maker.getRemainingQuantity ≤ tq := fun hc =>
          hFF ((isFullyFilled_fill_iff maker tq).mpr hc)
        have hmem' : ∀ x ∈ allOrders { E with buyOrders := popFrontIfFilled E.buyOrders },
            x = maker.fill tq ∨ x ∈ allOrders b := by
          intro x hx
          unfold allOrders at hx
          dsimp only at hx
          rw [hsellE, hpop] at hx
          rcases List.mem_append.mp hx with h | h
          · rw [ordersOf_cons] at h
            rcases List.mem_append.mp h with h | h
            · rcases List.mem_cons.mp h with h | h
              · exact Or.inl h
              · exact Or.inr (List.mem_append_left _ (htailmem x h))
            · exact Or.inr (List.mem_append_left _ (hrestmem x h))
          · exact Or.inr (List.mem_append_right _ h)
        have hids : (allOrders { E with buyOrders := popFrontIfFilled E.buyOrders }).map
            Order.orderId = (allOrders b).map Order.orderId := by
          show ((ordersOf (popFrontIfFilled E.buyOrders) ++ ordersOf E.sellOrders).map
            Order.orderId) = _
          rw [hsellE, hpop]
          unfold allOrders
          rw [hs0]
          simp [ordersOf_cons, fill_orderId]
        refine ⟨{E with buyOrders := popFrontIfFilled E.buyOrders}, tq, _,
          hstep, htqpos, rfl, ?_, ?_, hsellE, ?_, ?_, ?_, ?_⟩
        · -- BookWF
          refine ⟨?_, ?_, ?_, ?_, ?_, ?_, ?_, ?_⟩
          · rw [hB'map, hmapE]
            intro kv hkv
            obtain ⟨kv₀, hkv₀, rfl⟩ := List.mem_map.mp hkv
            by_cases hk : kv₀.1 = maker.orderId
            · rw [if_pos hk]
              rw [fill_orderId, hk]
            · rw [if_neg hk]
              exact hW1 kv₀ hkv₀
          · rw [hB'map, hmapE, keys_map_replace]
            exact hW2
          · show ∀ pq ∈ popFrontIfFilled E.buyOrders, ∀ x ∈ pq.2,
              lookupOrder ({E with buyOrders := popFrontIfFilled E.buyOrders} :
                OrderBook).orderMap x.orderId = some x ∧
                x.type = OrderType.BUY ∧ x.price = pq.1
            rw [hB'map, hmapE, hpop]
            intro pq hpq x hx
            rcases List.mem_cons.mp hpq with h | h
            · subst h
              rcases List.mem_cons.mp hx with hxm | hxt
              · subst hxm
                refine ⟨?_, ?_, ?_⟩
                · rw [fill_orderId]
                  exact lookupOrder_map_replace_self hmaker.1 _
                · rw [fill_type]
                  exact hmaker.2.1
                · rw [fill_price]
                  exact hmaker.2.2
              · have hxold := hW3b (p, maker :: tail) (by rw [hs0]; simp) x
                  (List.mem_cons_of_mem _ hxt)
                refine ⟨?_, hxold.2.1, hxold.2.2⟩
                rw [lookupOrder_map_replace_ne (htailids x hxt)]
                exact hxold.1
            · have hold : pq ∈ b.buyOrders := by
                rw [hs0]
                exact List.mem_cons_of_mem _ h
              have hxr : x ∈ ordersOf rest :=
                List.mem_flatten.mpr ⟨pq.2, List.mem_map_of_mem Prod.snd h, hx⟩
              have hxold := hW3b pq hold x hx
              refine ⟨?_, hxold.2.1, hxold.2.2⟩
              rw [lookupOrder_map_replace_ne (hrestids x hxr)]
              exact hxold.1
          · rw [hB'sell, hB'map, hmapE]
            intro pq hpq x hx
            have hxmem : x ∈ ordersOf b.sellOrders :=
              List.mem_flatten.mpr ⟨pq.2, List.mem_map_of_mem Prod.snd hpq, hx⟩
            have hold := hW3s pq hpq x hx
            exact ⟨by rw [lookupOrder_map_replace_ne (hsellfreeM x hxmem)]; exact hold.1,
              hold.2.1, hold.2.2⟩
          · rw [hids]
            exact hW4
          · intro x hx
            rcases hmem' x hx with h | h
            · rw [h, fill_rem]
              omega
            · exact hW5 x h
          · show ∀ pq ∈ popFrontIfFilled E.buyOrders, pq.2 ≠ []
            rw [hpop]
            intro pq hpq
            rcases List.mem_cons.mp hpq with h | h
            · rw [h]
              simp
            · exact hW6b pq (by rw [hs0]; exact List.mem_cons_of_mem _ h)
          · rw [hB'sell]
            exact hW6s
        · -- idFree
          constructor
          · intro x hx
            rcases hmem' x hx with h | h
            · rw [h, fill_orderId]
              exact hfreeL maker hmakermem
            · exact hfreeL x h
          · rw [hB'map, hmapE]
            intro kv hkv
            obtain ⟨kv₀, hkv₀, rfl⟩ := List.mem_map.mp hkv
            by_cases hk : kv₀.1 = maker.orderId
            · rw [if_pos hk]
              exact hfreeK kv₀ hkv₀
            · rw [if_neg hk]
              exact hfreeK kv₀ hkv₀
        · -- buy ladder keys: unchanged
          show List.Sublist (ladderKeys (popFrontIfFilled E.buyOrders))
            (ladderKeys ((p, maker :: tail) :: rest))
          rw [hpop]
          show List.Sublist (p :: ladderKeys rest) (p :: ladderKeys rest)
          exact List.Sublist.refl _
        · -- index keys: unchanged
          rw [hB'map, hmapE, keys_map_replace]
        · -- remaining-quantity accounting
          rw [hB'map, hmapE]
          have h1 := @mapRemaining_map_replace b.orderMap maker.orderId maker
            (maker.fill tq) hmaker.1 hW2
          rw [fill_rem] at h1
          omega
        · -- the loop variant drops
          have hz : (o.fill tq).getRemainingQuantity = 0 := by
            rw [fill_rem, htqdef]
            omega
          have hindz : ¬ (0 : Int) < (o.fill tq).getRemainingQuantity := by
            rw [hz]
            exact lt_irrefl 0
          rw [hmb, hs0]
          unfold matchMeasure
          rw [hoppB', hpop, if_neg hindz]
          simp only [ladderSize, List.map_cons, List.sum_cons, List.length_cons]
          omega

/-- Master induction over the matching loop: with enough fuel
(`matchMeasure` worth), the loop preserves well-formedness and freshness of
the aggressor's id, returns the aggressor with only its fill advanced, stops
only at one of the loop's own exits (aggressor exhausted or price test
fails), and its emitted trades account exactly for the aggressor's fill and
for the resting quantity removed from the index; the aggressor's own ladder
is untouched and the opposite ladder and index only lose keys. -/
theorem matchLoop_master : ∀ (fuel : Nat) (b : OrderBook) (o : Order),
    BookWF b → idFree b o.orderId → matchMeasure b o ≤ fuel →
    BookWF (matchLoopF fuel b o).1 ∧
    idFree (matchLoopF fuel b o).1 o.orderId ∧
    (matchLoopF fuel b o).2.1.orderId = o.orderId ∧
    (matchLoopF fuel b o).2.1.type = o.type ∧
    (matchLoopF fuel b o).2.1.price = o.price ∧
    (matchLoopF fuel b o).2.1.quantity = o.quantity ∧
    (matchLoopF fuel b o).2.1.symbol = o.symbol ∧
    (matchLoopF fuel b o).2.1.clientId = o.clientId ∧
    (¬ 0 < (matchLoopF fuel b o).2.1.getRemainingQuantity ∨
      noMatchTop (matchLoopF fuel b o).1 (matchLoopF fuel b o).2.1 = true) ∧
    (((matchLoopF fuel b o).2.2.map Trade.quantity).sum +
        (matchLoopF fuel b o).2.1.getRemainingQuantity = o.getRemainingQuantity) ∧
    (mapRemaining (matchLoopF fuel b o).1.orderMap +
        ((matchLoopF fuel b o).2.2.map Trade.quantity).sum = mapRemaining b.orderMap) ∧
    ownLadder (matchLoopF fuel b o).1 o.type = ownLadder b o.type ∧
    List.Sublist (ladderKeys (oppLadder (matchLoopF fuel b o).1 o.type))
      (ladderKeys (oppLadder b o.type)) ∧
    List.Sublist ((matchLoopF fuel b o).1.orderMap.map Prod.fst)
      (b.orderMap.map Prod.fst) := by
  intro fuel
  induction fuel with
  | zero =>
    intro b o hWF hfree hfuel
    have hrem : ¬ 0 < o.getRemainingQuantity := by
      intro h
      unfold matchMeasure at hfuel
      rw [if_pos h] at hfuel
      omega
    exact ⟨hWF, hfree, rfl, rfl, rfl, rfl, rfl, rfl, Or.inl hrem,
      by simp [matchLoopF], by simp [matchLoopF],
      rfl, List.Sublist.refl _, List.Sublist.refl _⟩
  | succ fuel ih =>
    intro b o hWF hfree hfuel
    by_cases hrem : 0 < o.getRemainingQuantity
    · by_cases hnm : noMatchTop b o = true
      · have hres : matchLoopF (fuel + 1) b o = (b, o, []) := by
          unfold matchLoopF
          rw [if_pos hrem, matchStep_stop_of_noMatchTop hnm]
        rw [hres]
        exact ⟨hWF, hfree, rfl, rfl, rfl, rfl, rfl, rfl, Or.inr hnm, by simp, by simp,
          rfl, List.Sublist.refl _, List.Sublist.refl _⟩
      · cases hty : o.type
        ·
          obtain ⟨b', tq, t, hstep, htqpos, htq, hWF', hfree', hown', hkeys', hmkeys',
            hacct, hlt⟩ := matchStep_pack_buy hWF hfree hty hrem hnm
          have hft : (o.fill tq).type = OrderType.BUY := by
            rw [fill_type, hty]
          have hres : matchLoopF (fuel + 1) b o =
              ((matchLoopF fuel b' (o.fill tq)).1,
                (matchLoopF fuel b' (o.fill tq)).2.1,
                t :: (matchLoopF fuel b' (o.fill tq)).2.2) := by
            conv_lhs => rw [matchLoopF]
            rw [if_pos hrem, hstep]
          have hfree'' : idFree b' (o.fill tq).orderId := by
            rw [fill_orderId]
            exact hfree'
          have hfuel' : matchMeasure b' (o.fill tq) ≤ fuel := by omega
          obtain ⟨iWF, ifree, iid, itype, iprice, iquant, isym, icl, ipost, isum,
            imap, iown, iopp, imkeys⟩ := ih b' (o.fill tq) hWF' hfree'' hfuel'
          rw [hft] at itype iown iopp
          rw [fill_orderId] at iid ifree
          rw [hres]
          refine ⟨iWF, ifree, iid, itype, ?_, ?_, ?_, ?_, ipost, ?_, ?_, ?_, ?_, ?_⟩
          · rw [iprice, fill_price]
          · rw [iquant, fill_quantity]
          · rw [isym, fill_symbol]
          · rw [icl, fill_clientId]
          · show (List.map Trade.quantity
                (t :: (matchLoopF fuel b' (o.fill tq)).2.2)).sum +
              (matchLoopF fuel b' (o.fill tq)).2.1.getRemainingQuantity
              = o.getRemainingQuantity
            rw [List.map_cons, List.sum_cons, htq]
            rw [fill_rem] at isum
            omega
          · show mapRemaining (matchLoopF fuel b' (o.fill tq)).1.orderMap +
              (List.map Trade.quantity
                (t :: (matchLoopF fuel b' (o.fill tq)).2.2)).sum
              = mapRemaining b.orderMap
            rw [List.map_cons, List.sum_cons, htq]
            omega
          · show ownLadder (matchLoopF fuel b' (o.fill tq)).1 OrderType.BUY =
              ownLadder b OrderType.BUY
            rw [iown]
            exact hown'
          · show List.Sublist
              (ladderKeys (oppLadder (matchLoopF fuel b' (o.fill tq)).1 OrderType.BUY))
              (ladderKeys (oppLadder b OrderType.BUY))
            exact iopp.trans hkeys'
          · exact imkeys.trans hmkeys'
        ·
          obtain ⟨b', tq, t, hstep, htqpos, htq, hWF', hfree', hown', hkeys', hmkeys',
            hacct, hlt⟩ := matchStep_pack_sell hWF hfree hty hrem hnm
          have hft : (o.fill tq).type = OrderType.SELL := by
            rw [fill_type, hty]
          have hres : matchLoopF (fuel + 1) b o =
              ((matchLoopF fuel b' (o.fill tq)).1,
                (matchLoopF fuel b' (o.fill tq)).2.1,
                t :: (matchLoopF fuel b' (o.fill tq)).2.2) := by
            conv_lhs => rw [matchLoopF]
            rw [if_pos hrem, hstep]
          have hfree'' : idFree b' (o.fill tq).orderId := by
            rw [fill_orderId]
            exact hfree'
          have hfuel' : matchMeasure b' (o.fill tq) ≤ fuel := by omega
          obtain ⟨iWF, ifree, iid, itype, iprice, iquant, isym, icl, ipost, isum,
            imap, iown, iopp, imkeys⟩ := ih b' (o.fill tq) hWF' hfree'' hfuel'
          rw [hft] at itype iown iopp
          rw [fill_orderId] at iid ifree
          rw [hres]
          refine ⟨iWF, ifree, iid, itype, ?_, ?_, ?_, ?_, ipost, ?_, ?_, ?_, ?_, ?_⟩
          · rw [iprice, fill_price]
          · rw [iquant, fill_quantity]
          · rw [isym, fill_symbol]
          · rw [icl, fill_clientId]
          · show (List.map Trade.quantity
                (t :: (matchLoopF fuel b' (o.fill tq)).2.2)).sum +
              (matchLoopF fuel b' (o.fill tq)).2.1.getRemainingQuantity
              = o.getRemainingQuantity
            rw [List.map_cons, List.sum_cons, htq]
            rw [fill_rem] at isum
            omega
          · show mapRemaining (matchLoopF fuel b' (o.fill tq)).1.orderMap +
              (List.map Trade.quantity
                (t :: (matchLoopF fuel b' (o.fill tq)).2.2)).sum
              = mapRemaining b.orderMap
            rw [List.map_cons, List.sum_cons, htq]
            omega
          · show ownLadder (matchLoopF fuel b' (o.fill tq)).1 OrderType.SELL =
              ownLadder b OrderType.SELL
            rw [iown]
            exact hown'
          · show List.Sublist
              (ladderKeys (oppLadder (matchLoopF fuel b' (o.fill tq)).1 OrderType.SELL))
              (ladderKeys (oppLadder b OrderType.SELL))
            exact iopp.trans hkeys'
          · exact imkeys.trans hmkeys'
    · have hres : matchLoopF (fuel + 1) b o = (b, o, []) := by
        unfold matchLoopF
        rw [if_neg hrem]
      rw [hres]
      exact ⟨hWF, hfree, rfl, rfl, rfl, rfl, rfl, rfl, Or.inl hrem, by simp, by simp,
        rfl, List.Sublist.refl _, List.Sublist.refl _⟩

/-! ## Structure of `add_order`, `insertOrder…` and `cancel_order` -/

theorem mem_of_lookup {m : List (String × Order)} {k : String} {x : Order}
    (hl : lookupOrder m k = some x) : (k, x) ∈ m := by
  induction m with
  | nil => simp [lookupOrder] at hl
  | cons kv rest ih =>
    obtain ⟨k', y⟩ := kv
    simp only [lookupOrder] at hl
    by_cases he : k' = k
    · rw [if_pos he] at hl
      subst he
      rw [Option.some.inj hl]
      simp
    · rw [if_neg he] at hl
      exact List.mem_cons_of_mem _ (ih hl)

theorem setCancelled_orderId (x : Order) : x.setCancelled.orderId = x.orderId := rfl

theorem setCancelled_type (x : Order) : x.setCancelled.type = x.type := rfl

theorem setCancelled_price (x : Order) : x.setCancelled.price = x.price := rfl

theorem removeIdAtPrice_mem {l : Ladder} {pr : Rat} {id : String}
    {pq : Rat × List Order} (h : pq ∈ removeIdAtPrice l pr id) :
    pq ∈ l ∨ (∃ q₀, (pq.1, q₀) ∈ l ∧ pq.1 = pr ∧
      pq.2 = q₀.filter (fun y => decide (y.orderId ≠ id)) ∧ pq.2 ≠ []) := by
  induction l with
  | nil => simp [removeIdAtPrice] at h
  | cons pq₀ rest ih =>
    obtain ⟨p₀, q₀⟩ := pq₀
    unfold removeIdAtPrice at h
    by_cases he : p₀ = pr
    · rw [if_pos he] at h
      by_cases hq : q₀.filter (fun y => decide (y.orderId ≠ id)) = []
      · rw [if_pos hq] at h
        exact Or.inl (List.mem_cons_of_mem _ h)
      · rw [if_neg hq] at h
        rcases List.mem_cons.mp h with h | h
        · subst h
          exact Or.inr ⟨q₀, by simp, he, rfl, hq⟩
        · exact Or.inl (List.mem_cons_of_mem _ h)
    · rw [if_neg he] at h
      rcases List.mem_cons.mp h with h | h
      · subst h
        exact Or.inl (by simp)
      · rcases ih h with h | ⟨q₁, hq₁, hp, hq, hne⟩
        · exact Or.inl (List.mem_cons_of_mem _ h)
        · exact Or.inr ⟨q₁, List.mem_cons_of_mem _ hq₁, hp, hq, hne⟩

theorem insertOrderDesc_mem {l : Ladder} {o : Order} {pq : Rat × List Order}
    (h : pq ∈ insertOrderDesc l o) :
    pq ∈ l ∨ (pq.1 = o.price ∧ pq.2 = [o]) ∨
      (∃ q₀, (pq.1, q₀) ∈ l ∧ pq.1 = o.price ∧ pq.2 = q₀ ++ [o]) := by
  induction l with
  | nil =>
    simp [insertOrderDesc] at h
    subst h
    exact Or.inr (Or.inl ⟨rfl, rfl⟩)
  | cons pq₀ rest ih =>
    obtain ⟨p₀, q₀⟩ := pq₀
    unfold insertOrderDesc at h
    by_cases he : o.price = p₀
    · rw [if_pos he] at h
      rcases List.mem_cons.mp h with h | h
      · subst h
        exact Or.inr (Or.inr ⟨q₀, by simp, he.symm, rfl⟩)
      · exact Or.inl (List.mem_cons_of_mem _ h)
    · rw [if_neg he] at h
      by_cases hlt : p₀ < o.price
      · rw [if_pos hlt] at h
        rcases List.mem_cons.mp h with h | h
        · subst h
          exact Or.inr (Or.inl ⟨rfl, rfl⟩)
        · exact Or.inl h
      · rw [if_neg hlt] at h
        rcases List.mem_cons.mp h with h | h
        · subst h
          exact Or.inl (by simp)
        · rcases ih h with h | h | ⟨q₁, hq₁, hp, hq⟩
          · exact Or.inl (List.mem_cons_of_mem _ h)
          · exact Or.inr (Or.inl h)
          · exact Or.inr (Or.inr ⟨q₁, List.mem_cons_of_mem _ hq₁, hp, hq⟩)

theorem insertOrderAsc_mem {l : Ladder} {o : Order} {pq : Rat × List Order}
    (h : pq ∈ insertOrderAsc l o) :
    pq ∈ l ∨ (pq.1 = o.price ∧ pq.2 = [o]) ∨
      (∃ q₀, (pq.1, q₀) ∈ l ∧ pq.1 = o.price ∧ pq.2 = q₀ ++ [o]) := by
  induction l with
  | nil =>
    simp [insertOrderAsc] at h
    subst h
    exact Or.inr (Or.inl ⟨rfl, rfl⟩)
  | cons pq₀ rest ih =>
    obtain ⟨p₀, q₀⟩ := pq₀
    unfold insertOrderAsc at h
    by_cases he : o.price = p₀
    · rw [if_pos he] at h
      rcases List.mem_cons.mp h with h | h
      · subst h
        exact Or.inr (Or.inr ⟨q₀, by simp, he.symm, rfl⟩)
      · exact Or.inl (List.mem_cons_of_mem _ h)
    · rw [if_neg he] at h
      by_cases hlt : o.price < p₀
      · rw [if_pos hlt] at h
        rcases List.mem_cons.mp h with h | h
        · subst h
          exact Or.inr (Or.inl ⟨rfl, rfl⟩)
        · exact Or.inl h
      · rw [if_neg hlt] at h
        rcases List.mem_cons.mp h with h | h
        · subst h
          exact Or.inl (by simp)
        · rcases ih h with h | h | ⟨q₁, hq₁, hp, hq⟩
          · exact Or.inl (List.mem_cons_of_mem _ h)
          · exact Or.inr (Or.inl h)
          · exact Or.inr (Or.inr ⟨q₁, List.mem_cons_of_mem _ hq₁, hp, hq⟩)

theorem ordersOf_insertOrderDesc (l : Ladder) (o : Order) :
    List.Perm (ordersOf (insertOrderDesc l o)) (o :: ordersOf l) := by
  induction l with
  | nil => simp [insertOrderDesc, ordersOf]
  | cons pq₀ rest ih =>
    obtain ⟨p₀, q₀⟩ := pq₀
    unfold insertOrderDesc
    by_cases he : o.price = p₀
    · rw [if_pos he, ordersOf_cons, ordersOf_cons, List.append_assoc]
      exact List.perm_middle
    · rw [if_neg he]
      by_cases hlt : p₀ < o.price
      · rw [if_pos hlt]
        exact List.Perm.refl _
      · rw [if_neg hlt, ordersOf_cons, ordersOf_cons]
        exact (List.Perm.append_left q₀ ih).trans List.perm_middle

theorem ordersOf_insertOrderAsc (l : Ladder) (o : Order) :
    List.Perm (ordersOf (insertOrderAsc l o)) (o :: ordersOf l) := by
  induction l with
  | nil => simp [insertOrderAsc, ordersOf]
  | cons pq₀ rest ih =>
    obtain ⟨p₀, q₀⟩ := pq₀
    unfold insertOrderAsc
    by_cases he : o.price = p₀
    · rw [if_pos he, ordersOf_cons, ordersOf_cons, List.append_assoc]
      exact List.perm_middle
    · rw [if_neg he]
      by_cases hlt : o.price < p₀
      · rw [if_pos hlt]
        exact List.Perm.refl _
      · rw [if_neg hlt, ordersOf_cons, ordersOf_cons]
        exact (List.Perm.append_left q₀ ih).trans List.perm_middle

theorem ladderKeys_insertOrderDesc_mem {l : Ladder} {o : Order} {k : Rat}
    (h : k ∈ ladderKeys (insertOrderDesc l o)) :
    k = o.price ∨ k ∈ ladderKeys l := by
  induction l with
  | nil =>
    simp [insertOrderDesc, ladderKeys] at h
    exact Or.inl h
  | cons pq₀ rest ih =>
    obtain ⟨p₀, q₀⟩ := pq₀
    unfold insertOrderDesc at h
    by_cases he : o.price = p₀
    · rw [if_pos he] at h
      exact Or.inr h
    · rw [if_neg he] at h
      by_cases hlt : p₀ < o.price
      · rw [if_pos hlt] at h
        rcases List.mem_cons.mp h with h | h
        · exact Or.inl h
        · exact Or.inr h
      · rw [if_neg hlt] at h
        rcases List.mem_cons.mp h with h | h
        · exact Or.inr (h ▸ List.mem_cons_self _ _)
        · rcases ih h with h | h
          · exact Or.inl h
          · exact Or.inr (List.mem_cons_of_mem _ h)

theorem ladderKeys_insertOrderAsc_mem {l : Ladder} {o : Order} {k : Rat}
    (h : k ∈ ladderKeys (insertOrderAsc l o)) :
    k = o.price ∨ k ∈ ladderKeys l := by
  induction l with
  | nil =>
    simp [insertOrderAsc, ladderKeys] at h
    exact Or.inl h
  | cons pq₀ rest ih =>
    obtain ⟨p₀, q₀⟩ := pq₀
    unfold insertOrderAsc at h
    by_cases he : o.price = p₀
    · rw [if_pos he] at h
      exact Or.inr h
    · rw [if_neg he] at h
      by_cases hlt : o.price < p₀
      · rw [if_pos hlt] at h
        rcases List.mem_cons.mp h with h | h
        · exact Or.inl h
        · exact Or.inr h
      · rw [if_neg hlt] at h
        rcases List.mem_cons.mp h with h | h
        · exact Or.inr (h ▸ List.mem_cons_self _ _)
        · rcases ih h with h | h
          · exact Or.inl h
          · exact Or.inr (List.mem_cons_of_mem _ h)

theorem sorted_insertOrderDesc {l : Ladder} {o : Order}
    (hs : List.Pairwise (· > ·) (ladderKeys l)) :
    List.Pairwise (· > ·) (ladderKeys (insertOrderDesc l o)) := by
  induction l with
  | nil => simp [insertOrderDesc, ladderKeys]
  | cons pq₀ rest ih =>
    obtain ⟨p₀, q₀⟩ := pq₀
    have hs' : List.Pairwise (· > ·) (p₀ :: ladderKeys rest) := hs
    obtain ⟨hhead, hrest⟩ := List.pairwise_cons.mp hs'
    unfold insertOrderDesc
    by_cases he : o.price = p₀
    · rw [if_pos he]
      exact hs'
    · rw [if_neg he]
      by_cases hlt : p₀ < o.price
      · rw [if_pos hlt]
        show List.Pairwise (· > ·) (o.price :: p₀ :: ladderKeys rest)
        refine List.pairwise_cons.mpr ⟨?_, hs'⟩
        intro k hk
        rcases List.mem_cons.mp hk with h | h
        · rw [h]
          exact hlt
        · exact lt_trans (hhead k h) hlt
      · rw [if_neg hlt]
        show List.Pairwise (· > ·) (p₀ :: ladderKeys (insertOrderDesc rest o))
        refine List.pairwise_cons.mpr ⟨?_, ih hrest⟩
        intro k hk
        rcases ladderKeys_insertOrderDesc_mem hk with h | h
        · rw [h]
          exact lt_of_le_of_ne (not_lt.mp hlt) he
        · exact hhead k h

theorem sorted_insertOrderAsc {l : Ladder} {o : Order}
    (hs : List.Pairwise (· < ·) (ladderKeys l)) :
    List.Pairwise (· < ·) (ladderKeys (insertOrderAsc l o)) := by
  induction l with
  | nil => simp [insertOrderAsc, ladderKeys]
  | cons pq₀ rest ih =>
    obtain ⟨p₀, q₀⟩ := pq₀
    have hs' : List.Pairwise (· < ·) (p₀ :: ladderKeys rest) := hs
    obtain ⟨hhead, hrest⟩ := List.pairwise_cons.mp hs'
    unfold insertOrderAsc
    by_cases he : o.price = p₀
    · rw [if_pos he]
      exact hs'
    · rw [if_neg he]
      by_cases hlt : o.price < p₀
      · rw [if_pos hlt]
        show List.Pairwise (· < ·) (o.price :: p₀ :: ladderKeys rest)
        refine List.pairwise_cons.mpr ⟨?_, hs'⟩
        intro k hk
        rcases List.mem_cons.mp hk with h | h
        · rw [h]
          exact hlt
        · exact lt_trans hlt (hhead k h)
      · rw [if_neg hlt]
        show List.Pairwise (· < ·) (p₀ :: ladderKeys (insertOrderAsc rest o))
        refine List.pairwise_cons.mpr ⟨?_, ih hrest⟩
        intro k hk
        rcases ladderKeys_insertOrderAsc_mem hk with h | h
        · rw [h]
          exact lt_of_le_of_ne (not_lt.mp hlt) (fun hc => he hc.symm)
        · exact hhead k h

theorem levelQueue_eq_nil_of_not_mem {l : Ladder} {k : Rat}
    (h : k ∉ ladderKeys l) : levelQueue l k = [] := by
  induction l with
  | nil => rfl
  | cons pq rest ih =>
    obtain ⟨p₀, q₀⟩ := pq
    unfold levelQueue
    rw [if_neg (fun hc => h (by rw [← hc]; exact List.mem_cons_self _ _))]
    exact ih (fun hc => h (List.mem_cons_of_mem _ hc))

theorem levelQueue_insertOrderAsc {l : Ladder} (o : Order)
    (hs : List.Pairwise (· < ·) (ladderKeys l)) :
    levelQueue (insertOrderAsc l o) o.price = levelQueue l o.price ++ [o] := by
  induction l with
  | nil => simp [insertOrderAsc, levelQueue]
  | cons pq₀ rest ih =>
    obtain ⟨p₀, q₀⟩ := pq₀
    have hs' : List.Pairwise (· < ·) (p₀ :: ladderKeys rest) := hs
    obtain ⟨hhead, hrest⟩ := List.pairwise_cons.mp hs'
    unfold insertOrderAsc
    by_cases he : o.price = p₀
    · rw [if_pos he]
      unfold levelQueue
      rw [if_pos he.symm, if_pos he.symm]
    · rw [if_neg he]
      by_cases hlt : o.price < p₀
      · rw [if_pos hlt]
        unfold levelQueue
        rw [if_pos rfl, if_neg (fun hc => he hc.symm)]
        have hnil : levelQueue rest o.price = [] :=
          levelQueue_eq_nil_of_not_mem
            (fun hc => absurd (lt_trans hlt (hhead _ hc)) (lt_irrefl _))
        rw [hnil]
        rfl
      · rw [if_neg hlt]
        unfold levelQueue
        rw [if_neg (fun hc => he hc.symm), if_neg (fun hc => he hc.symm)]
        exact ih hrest

theorem levelQueue_insertOrderDesc {l : Ladder} (o : Order)
    (hs : List.Pairwise (· > ·) (ladderKeys l)) :
    levelQueue (insertOrderDesc l o) o.price = levelQueue l o.price ++ [o] := by
  induction l with
  | nil => simp [insertOrderDesc, levelQueue]
  | cons pq₀ rest ih =>
    obtain ⟨p₀, q₀⟩ := pq₀
    have hs' : List.Pairwise (· > ·) (p₀ :: ladderKeys rest) := hs
    obtain ⟨hhead, hrest⟩ := List.pairwise_cons.mp hs'
    unfold insertOrderDesc
    by_cases he : o.price = p₀
    · rw [if_pos he]
      unfold levelQueue
      rw [if_pos he.symm, if_pos he.symm]
    · rw [if_neg he]
      by_cases hlt : p₀ < o.price
      · rw [if_pos hlt]
        unfold levelQueue
        rw [if_pos rfl, if_neg (fun hc => he hc.symm)]
        have hnil : levelQueue rest o.price = [] :=
          levelQueue_eq_nil_of_not_mem
            (fun hc => absurd (lt_trans (hhead _ hc) hlt) (lt_irrefl _))
        rw [hnil]
        rfl
      · rw [if_neg hlt]
        unfold levelQueue
        rw [if_neg (fun hc => he hc.symm), if_neg (fun hc => he hc.symm)]
        exact ih hrest

theorem filter_map_id_pres {q : List Order} {id : String} (g : Order → Order)
    (hid : ∀ y, (g y).orderId = y.orderId)
    (hg : ∀ y ∈ q, y.orderId ≠ id → g y = y) :
    (q.map g).filter (fun y => decide (y.orderId ≠ id)) =
      q.filter (fun y => decide (y.orderId ≠ id)) := by
  induction q with
  | nil => rfl
  | cons y ys ih =>
    rw [List.map_cons, List.filter_cons, List.filter_cons]
    by_cases hy : y.orderId = id
    · rw [if_neg (by simp [hid, hy]), if_neg (by simp [hy])]
      exact ih (fun z hz => hg z (List.mem_cons_of_mem _ hz))
    · rw [if_pos (by simp [hid, hy]), if_pos (by simp [hy]), hg y (by simp) hy]
      rw [ih (fun z hz => hg z (List.mem_cons_of_mem _ hz))]

theorem removeIdAtPrice_mapLadder {l : Ladder} {pr : Rat} {id : String}
    (g : Order → Order)
    (hid : ∀ y, (g y).orderId = y.orderId)
    (hg : ∀ y ∈ ordersOf l, y.orderId ≠ id → g y = y)
    (hloc : ∀ pq ∈ l, ∀ y ∈ pq.2, y.orderId = id → pq.1 = pr)
    (hkeys : (ladderKeys l).Nodup) :
    removeIdAtPrice (mapLadder g l) pr id = removeIdAtPrice l pr id := by
  induction l with
  | nil => rfl
  | cons pq rest ih =>
    obtain ⟨p₀, q₀⟩ := pq
    have hknd : p₀ ∉ ladderKeys rest ∧ (ladderKeys rest).Nodup := by
      have := hkeys
      rw [show ladderKeys ((p₀, q₀) :: rest) = p₀ :: ladderKeys rest from rfl,
        List.nodup_cons] at this
      exact this
    show removeIdAtPrice ((p₀, q₀.map g) :: mapLadder g rest) pr id = _
    unfold removeIdAtPrice
    by_cases he : p₀ = pr
    · rw [if_pos he, if_pos he]
      have hf := filter_map_id_pres g hid
        (fun y hy => hg y (by rw [ordersOf_cons]; exact List.mem_append_left _ hy))
      have hrestid : ∀ y ∈ ordersOf rest, g y = y := by
        intro y hy
        by_cases hyid : y.orderId = id
        · exfalso
          obtain ⟨q', hq', hyq⟩ := List.mem_flatten.mp hy
          obtain ⟨pq', hpq', rfl⟩ := List.mem_map.mp hq'
          have hk := hloc pq' (List.mem_cons_of_mem _ hpq') y hyq hyid
          have hmem : pq'.1 ∈ ladderKeys rest := List.mem_map_of_mem Prod.fst hpq'
          rw [hk, ← he] at hmem
          exact hknd.1 hmem
        · exact hg y (by rw [ordersOf_cons]; exact List.mem_append_right _ hy) hyid
      rw [mapLadder_id_of_mem hrestid, hf]
    · rw [if_neg he, if_neg he]
      have hq0 : q₀.map g = q₀ := by
        apply map_id_of_mem
        intro y hy
        apply hg y (by rw [ordersOf_cons]; exact List.mem_append_left _ hy)
        intro hyid
        exact he (hloc (p₀, q₀) (by simp) y hy hyid)
      rw [hq0, ih
        (fun y hy => hg y (by rw [ordersOf_cons]; exact List.mem_append_right _ hy))
        (fun pq hpq => hloc pq (List.mem_cons_of_mem _ hpq))
        hknd.2]

theorem remove_order_snd {b : OrderBook} {id : String} {x : Order}
    (hl : lookupOrder b.orderMap id = some x) : (b.remove_order id).2 = true := by
  unfold OrderBook.remove_order
  rw [hl]

/-- `OrderBook::cancel_order` on a resting SELL order: the status mutation
through the shared pointer touches only the cancelled object, which
`remove_order` then drops from its level and from the index. -/
theorem cancel_order_fields_sell {b : OrderBook} {id : String} {x : Order}
    (hWF : BookWF b) (hl : lookupOrder b.orderMap id = some x)
    (hty : x.type = OrderType.SELL)
    (hsellkeys : (ladderKeys b.sellOrders).Nodup) :
    (b.cancel_order id).1.sellOrders = removeIdAtPrice b.sellOrders x.price id ∧
    (b.cancel_order id).1.buyOrders = b.buyOrders ∧
    (b.cancel_order id).1.orderMap = eraseKey b.orderMap id ∧
    (b.cancel_order id).1.rng = b.rng ∧
    (b.cancel_order id).2 = true := by
  obtain ⟨hW1, hW2, hW3b, hW3s, hW4, hW5, hW6b, hW6s⟩ := hWF
  have hxid : x.orderId = id := hW1 (id, x) (mem_of_lookup hl)
  set g : Order → Order := fun o => if o.orderId = id then o.setCancelled else o
    with hgdef
  have hid : ∀ y, (g y).orderId = y.orderId := by
    intro y
    simp only [hgdef]
    by_cases hy : y.orderId = id
    · rw [if_pos hy, setCancelled_orderId]
    · rw [if_neg hy]
  have hgid : ∀ y, y.orderId ≠ id → g y = y := by
    intro y hy
    simp only [hgdef]
    rw [if_neg hy]
  have hcanc : b.cancel_order id = (mapBookOrders g b).remove_order id := by
    unfold OrderBook.cancel_order
    rw [hl]
    rfl
  have hl₁ : lookupOrder (mapBookOrders g b).orderMap id = some x.setCancelled := by
    show lookupOrder (b.orderMap.map fun kv => (kv.1, g kv.2)) id = _
    rw [lookupOrder_map, hl]
    show some (g x) = _
    simp only [hgdef]
    rw [if_pos hxid]
  have hty₁ : x.setCancelled.type = OrderType.SELL := by
    rw [setCancelled_type]
    exact hty
  obtain ⟨hrS, hrB, hrM, hrR⟩ := remove_order_fields_sell hl₁ hty₁
  have hloc : ∀ pq ∈ b.sellOrders, ∀ y ∈ pq.2, y.orderId = id → pq.1 = x.price := by
    intro pq hpq y hy hyid
    have h3 := hW3s pq hpq y hy
    have hyx : y = x := by
      have h1 := h3.1
      rw [hyid, hl] at h1
      exact (Option.some.inj h1).symm
    rw [← h3.2.2, hyx]
  have hbuyid : ∀ y ∈ ordersOf b.buyOrders, g y = y := by
    intro y hy
    apply hgid
    intro hyid
    obtain ⟨q', hq', hyq⟩ := List.mem_flatten.mp hy
    obtain ⟨pq, hpq, rfl⟩ := List.mem_map.mp hq'
    have h3 := hW3b pq hpq y hyq
    have hyx : y = x := by
      have h1 := h3.1
      rw [hyid, hl] at h1
      exact (Option.some.inj h1).symm
    rw [hyx, hty] at h3
    exact absurd h3.2.1 (by simp)
  refine ⟨?_, ?_, ?_, ?_, ?_⟩
  · rw [hcanc, hrS, setCancelled_price]
    show removeIdAtPrice (mapLadder g b.sellOrders) x.price id = _
    exact removeIdAtPrice_mapLadder g hid (fun y _ hy => hgid y hy) hloc hsellkeys
  · rw [hcanc, hrB]
    show mapLadder g b.buyOrders = b.buyOrders
    exact mapLadder_id_of_mem hbuyid
  · rw [hcanc, hrM]
    show eraseKey (b.orderMap.map fun kv => (kv.1, g kv.2)) id = _
    rw [eraseKey_map_comm]
    apply map_id_of_mem
    intro kv hkv
    obtain ⟨hin, hne⟩ := mem_eraseKey hkv
    have hvid : kv.2.orderId = kv.1 := hW1 kv hin
    show (kv.1, g kv.2) = kv
    rw [hgid kv.2 (by rw [hvid]; exact hne)]
  · rw [hcanc, hrR]
    rfl
  · rw [hcanc]
    exact remove_order_snd hl₁

/-- `OrderBook::cancel_order` on a resting BUY order (mirror image). -/
theorem cancel_order_fields_buy {b : OrderBook} {id : String} {x : Order}
    (hWF : BookWF b) (hl : lookupOrder b.orderMap id = some x)
    (hty : x.type = OrderType.BUY)
    (hbuykeys : (ladderKeys b.buyOrders).Nodup) :
    (b.cancel_order id).1.buyOrders = removeIdAtPrice b.buyOrders x.price id ∧
    (b.cancel_order id).1.sellOrders = b.sellOrders ∧
    (b.cancel_order id).1.orderMap = eraseKey b.orderMap id ∧
    (b.cancel_order id).1.rng = b.rng ∧
    (b.cancel_order id).2 = true := by
  obtain ⟨hW1, hW2, hW3b, hW3s, hW4, hW5, hW6b, hW6s⟩ := hWF
  have hxid : x.orderId = id := hW1 (id, x) (mem_of_lookup hl)
  set g : Order → Order := fun o => if o.orderId = id then o.setCancelled else o
    with hgdef
  have hid : ∀ y, (g y).orderId = y.orderId := by
    intro y
    simp only [hgdef]
    by_cases hy : y.orderId = id
    · rw [if_pos hy, setCancelled_orderId]
    · rw [if_neg hy]
  have hgid : ∀ y, y.orderId ≠ id → g y = y := by
    intro y hy
    simp only [hgdef]
    rw [if_neg hy]
  have hcanc : b.cancel_order id = (mapBookOrders g b).remove_order id := by
    unfold OrderBook.cancel_order
    rw [hl]
    rfl
  have hl₁ : lookupOrder (mapBookOrders g b).orderMap id = some x.setCancelled := by
    show lookupOrder (b.orderMap.map fun kv => (kv.1, g kv.2)) id = _
    rw [lookupOrder_map, hl]
    show some (g x) = _
    simp only [hgdef]
    rw [if_pos hxid]
  have hty₁ : x.setCancelled.type = OrderType.BUY := by
    rw [setCancelled_type]
    exact hty
  obtain ⟨hrB, hrS, hrM, hrR⟩ := remove_order_fields_buy hl₁ hty₁
  have hloc : ∀ pq ∈ b.buyOrders, ∀ y ∈ pq.2, y.orderId = id → pq.1 = x.price := by
    intro pq hpq y hy hyid
    have h3 := hW3b pq hpq y hy
    have hyx : y = x := by
      have h1 := h3.1
      rw [hyid, hl] at h1
      exact (Option.some.inj h1).symm
    rw [← h3.2.2, hyx]
  have hsellid : ∀ y ∈ ordersOf b.sellOrders, g y = y := by
    intro y hy
    apply hgid
    intro hyid
    obtain ⟨q', hq', hyq⟩ := List.mem_flatten.mp hy
    obtain ⟨pq, hpq, rfl⟩ := List.mem_map.mp hq'
    have h3 := hW3s pq hpq y hyq
    have hyx : y = x := by
      have h1 := h3.1
      rw [hyid, hl] at h1
      exact (Option.some.inj h1).symm
    rw [hyx, hty] at h3
    exact absurd h3.2.1 (by simp)
  refine ⟨?_, ?_, ?_, ?_, ?_⟩
  · rw [hcanc, hrB, setCancelled_price]
    show removeIdAtPrice (mapLadder g b.buyOrders) x.price id = _
    exact removeIdAtPrice_mapLadder g hid (fun y _ hy => hgid y hy) hloc hbuykeys
  · rw [hcanc, hrS]
    show mapLadder g b.sellOrders = b.sellOrders
    exact mapLadder_id_of_mem hsellid
  · rw [hcanc, hrM]
    show eraseKey (b.orderMap.map fun kv => (kv.1, g kv.2)) id = _
    rw [eraseKey_map_comm]
    apply map_id_of_mem
    intro kv hkv
    obtain ⟨hin, hne⟩ := mem_eraseKey hkv
    have hvid : kv.2.orderId = kv.1 := hW1 kv hin
    show (kv.1, g kv.2) = kv
    rw [hgid kv.2 (by rw [hvid]; exact hne)]
  · rw [hcanc, hrR]
    rfl
  · rw [hcanc]
    exact remove_order_snd hl₁

theorem add_order_fields_buy {b : OrderBook} {o : Order}
    (hty : o.type = OrderType.BUY) (hq : ¬ o.quantity ≤ 0)
    (hfreeK : ∀ kv ∈ b.orderMap, kv.1 ≠ o.orderId) :
    (b.add_order o).buyOrders = insertOrderDesc b.buyOrders o ∧
    (b.add_order o).sellOrders = b.sellOrders ∧
    (b.add_order o).orderMap = (o.orderId, o) :: b.orderMap ∧
    (b.add_order o).rng = b.rng := by
  obtain ⟨i, ty, pr, qn, f, st, sy, cl⟩ := o
  dsimp at hty hq hfreeK
  subst hty
  refine ⟨?_, ?_, ?_, ?_⟩ <;>
    simp [OrderBook.add_order, hq, OrderBook.update_market_data, insertPair,
      eraseKey_of_no_key hfreeK]

theorem add_order_fields_sell {b : OrderBook} {o : Order}
    (hty : o.type = OrderType.SELL) (hq : ¬ o.quantity ≤ 0)
    (hfreeK : ∀ kv ∈ b.orderMap, kv.1 ≠ o.orderId) :
    (b.add_order o).sellOrders = insertOrderAsc b.sellOrders o ∧
    (b.add_order o).buyOrders = b.buyOrders ∧
    (b.add_order o).orderMap = (o.orderId, o) :: b.orderMap ∧
    (b.add_order o).rng = b.rng := by
  obtain ⟨i, ty, pr, qn, f, st, sy, cl⟩ := o
  dsimp at hty hq hfreeK
  subst hty
  refine ⟨?_, ?_, ?_, ?_⟩ <;>
    simp [OrderBook.add_order, hq, OrderBook.update_market_data, insertPair,
      eraseKey_of_no_key hfreeK]

theorem lookupOrder_cons_ne {m : List (String × Order)} {k0 k : String} {v : Order}
    (h : k0 ≠ k) : lookupOrder ((k0, v) :: m) k = lookupOrder m k := by
  simp only [lookupOrder]
  rw [if_neg h]

theorem lookupOrder_cons_self (m : List (String × Order)) (k : String) (v : Order) :
    lookupOrder ((k, v) :: m) k = some v := by
  simp [lookupOrder]

/-- `add_order` of a fresh, positive-quantity, positive-remaining order
preserves the book invariant. -/
theorem add_order_WF {b : OrderBook} {o : Order}
    (hWF : BookWF b) (hfree : idFree b o.orderId)
    (hq : ¬ o.quantity ≤ 0) (hrem : 0 < o.getRemainingQuantity) :
    BookWF (b.add_order o) := by
  obtain ⟨hW1, hW2, hW3b, hW3s, hW4, hW5, hW6b, hW6s⟩ := hWF
  obtain ⟨hfreeL, hfreeK⟩ := hfree
  have hbuyfree : ∀ x ∈ ordersOf b.buyOrders, x.orderId ≠ o.orderId := by
    intro x hx
    exact hfreeL x (List.mem_append_left _ hx)
  have hsellfree : ∀ x ∈ ordersOf b.sellOrders, x.orderId ≠ o.orderId := by
    intro x hx
    exact hfreeL x (List.mem_append_right _ hx)
  have hkeysfree : o.orderId ∉ b.orderMap.map Prod.fst := by
    intro hc
    obtain ⟨kv, hkv, hk⟩ := List.mem_map.mp hc
    exact hfreeK kv hkv hk
  cases hty : o.type
  case BUY =>
    obtain ⟨hB, hS, hM, hR⟩ := add_order_fields_buy hty hq hfreeK
    have hperm : List.Perm (allOrders (b.add_order o)) (o :: allOrders b) := by
      unfold allOrders
      rw [hB, hS]
      have h1 := ordersOf_insertOrderDesc b.buyOrders o
      have h2 := List.Perm.append_right (ordersOf b.sellOrders) h1
      exact h2.trans (List.Perm.refl _)
    refine ⟨?_, ?_, ?_, ?_, ?_, ?_, ?_, ?_⟩
    · rw [hM]
      intro kv hkv
      rcases List.mem_cons.mp hkv with h | h
      · rw [h]
      · exact hW1 kv h
    · rw [hM]
      refine List.nodup_cons.mpr ⟨hkeysfree, hW2⟩
    · rw [hB, hM]
      intro pq hpq x hx
      rcases insertOrderDesc_mem hpq with h | ⟨hp, hq2⟩ | ⟨q₀, hq₀, hp, hq2⟩
      · have hold := hW3b pq h x hx
        have hxfree : x.orderId ≠ o.orderId := hbuyfree x
          (List.mem_flatten.mpr ⟨pq.2, List.mem_map_of_mem Prod.snd h, hx⟩)
        exact ⟨by rw [lookupOrder_cons_ne (fun hc => hxfree hc.symm)]; exact hold.1,
          hold.2.1, hold.2.2⟩
      · rw [hq2] at hx
        rcases List.mem_singleton.mp hx with h
        subst h
        exact ⟨lookupOrder_cons_self _ _ _, hty, hp.symm⟩
      · rw [hq2] at hx
        rcases List.mem_append.mp hx with h | h
        · have hold := hW3b (pq.1, q₀) hq₀ x h
          have hxfree : x.orderId ≠ o.orderId := hbuyfree x
            (List.mem_flatten.mpr ⟨q₀, List.mem_map_of_mem Prod.snd hq₀, h⟩)
          exact ⟨by rw [lookupOrder_cons_ne (fun hc => hxfree hc.symm)]; exact hold.1,
            hold.2.1, hold.2.2⟩
        · rcases List.mem_singleton.mp h with h
          subst h
          exact ⟨lookupOrder_cons_self _ _ _, hty, hp.symm⟩
    · rw [hS, hM]
      intro pq hpq x hx
      have hold := hW3s pq hpq x hx
      have hxfree : x.orderId ≠ o.orderId := hsellfree x
        (List.mem_flatten.mpr ⟨pq.2, List.mem_map_of_mem Prod.snd hpq, hx⟩)
      exact ⟨by rw [lookupOrder_cons_ne (fun hc => hxfree hc.symm)]; exact hold.1,
        hold.2.1, hold.2.2⟩
    · have hids := hperm.map Order.orderId
      rw [List.Perm.nodup_iff hids]
      rw [List.map_cons]
      refine List.nodup_cons.mpr ⟨?_, hW4⟩
      intro hc
      obtain ⟨y, hy, hyid⟩ := List.mem_map.mp hc
      exact hfreeL y hy hyid
    · intro x hx
      rcases List.mem_cons.mp (hperm.subset hx) with h | h
      · rw [h]
        exact hrem
      · exact hW5 x h
    · rw [hB]
      intro pq hpq
      rcases insertOrderDesc_mem hpq with h | ⟨hp, hq2⟩ | ⟨q₀, hq₀, hp, hq2⟩
      · exact hW6b pq h
      · rw [hq2]
        simp
      · rw [hq2]
        simp
    · rw [hS]
      exact hW6s
  case SELL =>
    obtain ⟨hS, hB, hM, hR⟩ := add_order_fields_sell hty hq hfreeK
    have hperm : List.Perm (allOrders (b.add_order o)) (o :: allOrders b) := by
      unfold allOrders
      rw [hB, hS]
      have h1 := ordersOf_insertOrderAsc b.sellOrders o
      have h2 := List.Perm.append_left (ordersOf b.buyOrders) h1
      exact h2.trans List.perm_middle
    refine ⟨?_, ?_, ?_, ?_, ?_, ?_, ?_, ?_⟩
    · rw [hM]
      intro kv hkv
      rcases List.mem_cons.mp hkv with h | h
      · rw [h]
      · exact hW1 kv h
    · rw [hM]
      refine List.nodup_cons.mpr ⟨hkeysfree, hW2⟩
    · rw [hB, hM]
      intro pq hpq x hx
      have hold := hW3b pq hpq x hx
      have hxfree : x.orderId ≠ o.orderId := hbuyfree x
        (List.mem_flatten.mpr ⟨pq.2, List.mem_map_of_mem Prod.snd hpq, hx⟩)
      exact ⟨by rw [lookupOrder_cons_ne (fun hc => hxfree hc.symm)]; exact hold.1,
        hold.2.1, hold.2.2⟩
    · rw [hS, hM]
      intro pq hpq x hx
      rcases insertOrderAsc_mem hpq with h | ⟨hp, hq2⟩ | ⟨q₀, hq₀, hp, hq2⟩
      · have hold := hW3s pq h x hx
        have hxfree : x.orderId ≠ o.orderId := hsellfree x
          (List.mem_flatten.mpr ⟨pq.2, List.mem_map_of_mem Prod.snd h, hx⟩)
        exact ⟨by rw [lookupOrder_cons_ne (fun hc => hxfree hc.symm)]; exact hold.1,
          hold.2.1, hold.2.2⟩
      · rw [hq2] at hx
        rcases List.mem_singleton.mp hx with h
        subst h
        exact ⟨lookupOrder_cons_self _ _ _, hty, hp.symm⟩
      · rw [hq2] at hx
        rcases List.mem_append.mp hx with h | h
        · have hold := hW3s (pq.1, q₀) hq₀ x h
          have hxfree : x.orderId ≠ o.orderId := hsellfree x
            (List.mem_flatten.mpr ⟨q₀, List.mem_map_of_mem Prod.snd hq₀, h⟩)
          exact ⟨by rw [lookupOrder_cons_ne (fun hc => hxfree hc.symm)]; exact hold.1,
            hold.2.1, hold.2.2⟩
        · rcases List.mem_singleton.mp h with h
          subst h
          exact ⟨lookupOrder_cons_self _ _ _, hty, hp.symm⟩
    · have hids := hperm.map Order.orderId
      rw [List.Perm.nodup_iff hids]
      rw [List.map_cons]
      refine List.nodup_cons.mpr ⟨?_, hW4⟩
      intro hc
      obtain ⟨y, hy, hyid⟩ := List.mem_map.mp hc
      exact hfreeL y hy hyid
    · intro x hx
      rcases List.mem_cons.mp (hperm.subset hx) with h | h
      · rw [h]
        exact hrem
      · exact hW5 x h
    · rw [hB]
      exact hW6b
    · rw [hS]
      intro pq hpq
      rcases insertOrderAsc_mem hpq with h | ⟨hp, hq2⟩ | ⟨q₀, hq₀, hp, hq2⟩
      · exact hW6s pq h
      · rw [hq2]
        simp
      · rw [hq2]
        simp

/-- `cancel_order` preserves the full book invariant; the index only
loses keys. -/
theorem cancel_order_inv {b : OrderBook} (id : String)
    (hWF : BookWF b) (hS : SortedBook b) (hNC : NoCross b) :
    BookWF (b.cancel_order id).1 ∧ SortedBook (b.cancel_order id).1 ∧
    NoCross (b.cancel_order id).1 ∧
    List.Sublist ((b.cancel_order id).1.orderMap.map Prod.fst)
      (b.orderMap.map Prod.fst) := by
  obtain ⟨hW1, hW2, hW3b, hW3s, hW4, hW5, hW6b, hW6s⟩ := hWF
  cases hl : lookupOrder b.orderMap id with
  | none =>
    rw [show (b.cancel_order id).1 = b from by rw [cancel_order_false hl]]
    exact ⟨⟨hW1, hW2, hW3b, hW3s, hW4, hW5, hW6b, hW6s⟩, hS, hNC, List.Sublist.refl _⟩
  | some x =>
    have hbkeys : (ladderKeys b.buyOrders).Nodup := hS.1.imp ne_of_gt
    have hskeys : (ladderKeys b.sellOrders).Nodup := hS.2.imp ne_of_lt
    cases hxty : x.type
    case BUY =>
      obtain ⟨hB, hSe, hM, hR, hres⟩ := cancel_order_fields_buy
        ⟨hW1, hW2, hW3b, hW3s, hW4, hW5, hW6b, hW6s⟩ hl hxty hbkeys
      have hloc : ∀ pq ∈ b.buyOrders, ∀ y ∈ pq.2, y.orderId = id → pq.1 = x.price := by
        intro pq hpq y hy hyid
        have h3 := hW3b pq hpq y hy
        have hyx : y = x := by
          have h1 := h3.1
          rw [hyid, hl] at h1
          exact (Option.some.inj h1).symm
        rw [← h3.2.2, hyx]
      have hnoid := removeIdAtPrice_no_id hbkeys hloc
      have hsellne : ∀ y ∈ ordersOf b.sellOrders, y.orderId ≠ id := by
        intro y hy hyid
        obtain ⟨q', hq', hyq⟩ := List.mem_flatten.mp hy
        obtain ⟨pq, hpq, rfl⟩ := List.mem_map.mp hq'
        have h3 := hW3s pq hpq y hyq
        have hyx : y = x := by
          have h1 := h3.1
          rw [hyid, hl] at h1
          exact (Option.some.inj h1).symm
        rw [hyx, hxty] at h3
        exact absurd h3.2.1 (by simp)
      have hallsub : List.Sublist (allOrders (b.cancel_order id).1) (allOrders b) := by
        unfold allOrders
        rw [hB, hSe]
        exact List.Sublist.append (ordersOf_removeIdAtPrice_sublist _ _ _)
          (List.Sublist.refl _)
      refine ⟨⟨?_, ?_, ?_, ?_, ?_, ?_, ?_, ?_⟩, ?_, ?_, ?_⟩
      · rw [hM]
        intro kv hkv
        exact hW1 kv (mem_eraseKey hkv).1
      · rw [hM]
        exact List.Nodup.sublist (eraseKey_keys_sublist _ _) hW2
      · rw [hB, hM]
        intro pq hpq x' hx'
        have hx'ne : x'.orderId ≠ id := hnoid x'
          (List.mem_flatten.mpr ⟨pq.2, List.mem_map_of_mem Prod.snd hpq, hx'⟩)
        rcases removeIdAtPrice_mem hpq with h | ⟨q₀, hq₀, hp, hq2, hne⟩
        · have hold := hW3b pq h x' hx'
          exact ⟨by rw [lookupOrder_eraseKey_ne hx'ne]; exact hold.1,
            hold.2.1, hold.2.2⟩
        · rw [hq2] at hx'
          have hold := hW3b (pq.1, q₀) hq₀ x' (List.mem_of_mem_filter hx')
          exact ⟨by rw [lookupOrder_eraseKey_ne hx'ne]; exact hold.1,
            hold.2.1, hold.2.2⟩
      · rw [hSe, hM]
        intro pq hpq x' hx'
        have hold := hW3s pq hpq x' hx'
        have hx'ne : x'.orderId ≠ id := hsellne x'
          (List.mem_flatten.mpr ⟨pq.2, List.mem_map_of_mem Prod.snd hpq, hx'⟩)
        exact ⟨by rw [lookupOrder_eraseKey_ne hx'ne]; exact hold.1,
          hold.2.1, hold.2.2⟩
      · exact List.Nodup.sublist (List.Sublist.map Order.orderId hallsub) hW4
      · intro x' hx'
        exact hW5 x' (hallsub.subset hx')
      · rw [hB]
        intro pq hpq
        rcases removeIdAtPrice_mem hpq with h | ⟨q₀, hq₀, hp, hq2, hne⟩
        · exact hW6b pq h
        · exact hne
      · rw [hSe]
        exact hW6s
      · constructor
        · rw [hB]
          exact List.Pairwise.sublist (removeIdAtPrice_keys_sublist _ _ _) hS.1
        · rw [hSe]
          exact hS.2
      · intro pb hpb pa hpa
        rw [hB] at hpb
        rw [hSe] at hpa
        exact hNC pb ((removeIdAtPrice_keys_sublist _ _ _).subset hpb) pa hpa
      · rw [hM]
        exact eraseKey_keys_sublist _ _
    case SELL =>
      obtain ⟨hSe, hB, hM, hR, hres⟩ := cancel_order_fields_sell
        ⟨hW1, hW2, hW3b, hW3s, hW4, hW5, hW6b, hW6s⟩ hl hxty hskeys
      have hloc : ∀ pq ∈ b.sellOrders, ∀ y ∈ pq.2, y.orderId = id → pq.1 = x.price := by
        intro pq hpq y hy hyid
        have h3 := hW3s pq hpq y hy
        have hyx : y = x := by
          have h1 := h3.1
          rw [hyid, hl] at h1
          exact (Option.some.inj h1).symm
        rw [← h3.2.2, hyx]
      have hnoid := removeIdAtPrice_no_id hskeys hloc
      have hbuyne : ∀ y ∈ ordersOf b.buyOrders, y.orderId ≠ id := by
        intro y hy hyid
        obtain ⟨q', hq', hyq⟩ := List.mem_flatten.mp hy
        obtain ⟨pq, hpq, rfl⟩ := List.mem_map.mp hq'
        have h3 := hW3b pq hpq y hyq
        have hyx : y = x := by
          have h1 := h3.1
          rw [hyid, hl] at h1
          exact (Option.some.inj h1).symm
        rw [hyx, hxty] at h3
        exact absurd h3.2.1 (by simp)
      have hallsub : List.Sublist (allOrders (b.cancel_order id).1) (allOrders b) := by
        unfold allOrders
        rw [hB, hSe]
        exact List.Sublist.append (List.Sublist.refl _)
          (ordersOf_removeIdAtPrice_sublist _ _ _)
      refine ⟨⟨?_, ?_, ?_, ?_, ?_, ?_, ?_, ?_⟩, ?_, ?_, ?_⟩
      · rw [hM]
        intro kv hkv
        exact hW1 kv (mem_eraseKey hkv).1
      · rw [hM]
        exact List.Nodup.sublist (eraseKey_keys_sublist _ _) hW2
      · rw [hB, hM]
        intro pq hpq x' hx'
        have hold := hW3b pq hpq x' hx'
        have hx'ne : x'.orderId ≠ id := hbuyne x'
          (List.mem_flatten.mpr ⟨pq.2, List.mem_map_of_mem Prod.snd hpq, hx'⟩)
        exact ⟨by rw [lookupOrder_eraseKey_ne hx'ne]; exact hold.1,
          hold.2.1, hold.2.2⟩
      · rw [hSe, hM]
        intro pq hpq x' hx'
        have hx'ne : x'.orderId ≠ id := hnoid x'
          (List.mem_flatten.mpr ⟨pq.2, List.mem_map_of_mem Prod.snd hpq, hx'⟩)
        rcases removeIdAtPrice_mem hpq with h | ⟨q₀, hq₀, hp, hq2, hne⟩
        · have hold := hW3s pq h x' hx'
          exact ⟨by rw [lookupOrder_eraseKey_ne hx'ne]; exact hold.1,
            hold.2.1, hold.2.2⟩
        · rw [hq2] at hx'
          have hold := hW3s (pq.1, q₀) hq₀ x' (List.mem_of_mem_filter hx')
          exact ⟨by rw [lookupOrder_eraseKey_ne hx'ne]; exact hold.1,
            hold.2.1, hold.2.2⟩
      · exact List.Nodup.sublist (List.Sublist.map Order.orderId hallsub) hW4
      · intro x' hx'
        exact hW5 x' (hallsub.subset hx')
      · rw [hB]
        exact hW6b
      · rw [hSe]
        intro pq hpq
        rcases removeIdAtPrice_mem hpq with h | ⟨q₀, hq₀, hp, hq2, hne⟩
        · exact hW6s pq h
        · exact hne
      · constructor
        · rw [hB]
          exact hS.1
        · rw [hSe]
          exact List.Pairwise.sublist (removeIdAtPrice_keys_sublist _ _ _) hS.2
      · intro pb hpb pa hpa
        rw [hB] at hpb
        rw [hSe] at hpa
        exact hNC pb hpb pa ((removeIdAtPrice_keys_sublist _ _ _).subset hpa)
      · rw [hM]
        exact eraseKey_keys_sublist _ _

/-- After cancelling a resting order, its id is completely gone from the
book (the ladder copy is filtered out, the index key erased, and the id
cannot occur on the opposite side). -/
theorem idFree_cancel_self {b : OrderBook} {id : String} {x : Order}
    (hWF : BookWF b) (hS : SortedBook b)
    (hl : lookupOrder b.orderMap id = some x) :
    idFree (b.cancel_order id).1 id := by
  obtain ⟨hW1, hW2, hW3b, hW3s, hW4, hW5, hW6b, hW6s⟩ := hWF
  have hbkeys : (ladderKeys b.buyOrders).Nodup := hS.1.imp ne_of_gt
  have hskeys : (ladderKeys b.sellOrders).Nodup := hS.2.imp ne_of_lt
  cases hxty : x.type
  case BUY =>
    obtain ⟨hB, hSe, hM, hR, hres⟩ := cancel_order_fields_buy
      ⟨hW1, hW2, hW3b, hW3s, hW4, hW5, hW6b, hW6s⟩ hl hxty hbkeys
    have hloc : ∀ pq ∈ b.buyOrders, ∀ y ∈ pq.2, y.orderId = id → pq.1 = x.price := by
      intro pq hpq y hy hyid
      have h3 := hW3b pq hpq y hy
      have hyx : y = x := by
        have h1 := h3.1
        rw [hyid, hl] at h1
        exact (Option.some.inj h1).symm
      rw [← h3.2.2, hyx]
    have hnoid := removeIdAtPrice_no_id hbkeys hloc
    have hsellne : ∀ y ∈ ordersOf b.sellOrders, y.orderId ≠ id := by
      intro y hy hyid
      obtain ⟨q', hq', hyq⟩ := List.mem_flatten.mp hy
      obtain ⟨pq, hpq, rfl⟩ := List.mem_map.mp hq'
      have h3 := hW3s pq hpq y hyq
      have hyx : y = x := by
        have h1 := h3.1
        rw [hyid, hl] at h1
        exact (Option.some.inj h1).symm
      rw [hyx, hxty] at h3
      exact absurd h3.2.1 (by simp)
    constructor
    · intro y hy
      unfold allOrders at hy
      rw [hB, hSe] at hy
      rcases List.mem_append.mp hy with h | h
      · exact hnoid y h
      · exact hsellne y h
    · rw [hM]
      intro kv hkv
      exact (mem_eraseKey hkv).2
  case SELL =>
    obtain ⟨hSe, hB, hM, hR, hres⟩ := cancel_order_fields_sell
      ⟨hW1, hW2, hW3b, hW3s, hW4, hW5, hW6b, hW6s⟩ hl hxty hskeys
    have hloc : ∀ pq ∈ b.sellOrders, ∀ y ∈ pq.2, y.orderId = id → pq.1 = x.price := by
      intro pq hpq y hy hyid
      have h3 := hW3s pq hpq y hy
      have hyx : y = x := by
        have h1 := h3.1
        rw [hyid, hl] at h1
        exact (Option.some.inj h1).symm
      rw [← h3.2.2, hyx]
    have hnoid := removeIdAtPrice_no_id hskeys hloc
    have hbuyne : ∀ y ∈ ordersOf b.buyOrders, y.orderId ≠ id := by
      intro y hy hyid
      obtain ⟨q', hq', hyq⟩ := List.mem_flatten.mp hy
      obtain ⟨pq, hpq, rfl⟩ := List.mem_map.mp hq'
      have h3 := hW3b pq hpq y hyq
      have hyx : y = x := by
        have h1 := h3.1
        rw [hyid, hl] at h1
        exact (Option.some.inj h1).symm
      rw [hyx, hxty] at h3
      exact absurd h3.2.1 (by simp)
    constructor
    · intro y hy
      unfold allOrders at hy
      rw [hB, hSe] at hy
      rcases List.mem_append.mp hy with h | h
      · exact hbuyne y h
      · exact hnoid y h
    · rw [hM]
      intro kv hkv
      exact (mem_eraseKey hkv).2

theorem matchRun_master {b : OrderBook} {o : Order}
    (hWF : BookWF b) (hfree : idFree b o.orderId) :
    BookWF (matchRun b o).1 ∧ idFree (matchRun b o).1 o.orderId ∧
    (matchRun b o).2.1.orderId = o.orderId ∧
    (matchRun b o).2.1.type = o.type ∧
    (matchRun b o).2.1.price = o.price ∧
    (matchRun b o).2.1.quantity = o.quantity ∧
    (matchRun b o).2.1.symbol = o.symbol ∧
    (matchRun b o).2.1.clientId = o.clientId ∧
    (¬ 0 < (matchRun b o).2.1.getRemainingQuantity ∨
      noMatchTop (matchRun b o).1 (matchRun b o).2.1 = true) ∧
    (((matchRun b o).2.2.map Trade.quantity).sum +
        (matchRun b o).2.1.getRemainingQuantity = o.getRemainingQuantity) ∧
    (mapRemaining (matchRun b o).1.orderMap +
        ((matchRun b o).2.2.map Trade.quantity).sum = mapRemaining b.orderMap) ∧
    ownLadder (matchRun b o).1 o.type = ownLadder b o.type ∧
    List.Sublist (ladderKeys (oppLadder (matchRun b o).1 o.type))
      (ladderKeys (oppLadder b o.type)) ∧
    List.Sublist ((matchRun b o).1.orderMap.map Prod.fst)
      (b.orderMap.map Prod.fst) := by
  unfold matchRun
  exact matchLoop_master (matchFuel b o) b o hWF hfree (by unfold matchFuel; omega)

theorem noMatchTop_buy_all {b : OrderBook} {o : Order}
    (hty : o.type = OrderType.BUY)
    (hs : List.Pairwise (· < ·) (ladderKeys b.sellOrders))
    (h : noMatchTop b o = true) :
    ∀ pa ∈ ladderKeys b.sellOrders, o.price < pa := by
  unfold noMatchTop at h
  rw [hty] at h
  cases hsell : b.sellOrders with
  | nil =>
    intro pa hpa
    simp [ladderKeys] at hpa
  | cons pq rest =>
    obtain ⟨p, lvl⟩ := pq
    rw [hsell] at h hs
    have hlt : o.price < p := by simpa using h
    intro pa hpa
    exact lt_all_of_lt_head hs hlt pa hpa

theorem noMatchTop_sell_all {b : OrderBook} {o : Order}
    (hty : o.type = OrderType.SELL)
    (hs : List.Pairwise (· > ·) (ladderKeys b.buyOrders))
    (h : noMatchTop b o = true) :
    ∀ pb ∈ ladderKeys b.buyOrders, pb < o.price := by
  unfold noMatchTop at h
  rw [hty] at h
  cases hbuy : b.buyOrders with
  | nil =>
    intro pb hpb
    simp [ladderKeys] at hpb
  | cons pq rest =>
    obtain ⟨p, lvl⟩ := pq
    rw [hbuy] at h hs
    have hlt : p < o.price := by simpa using h
    intro pb hpb
    exact all_lt_of_head_lt hs hlt pb hpb

/-- `MatchingEngine::match_order` (loop + resting of the residual)
preserves well-formedness, sortedness and the uncrossed-book property, and
adds at most the aggressor's id to the index. -/
theorem match_order_inv {b : OrderBook} {o : Order}
    (hWF : BookWF b) (hS : SortedBook b) (hNC : NoCross b)
    (hfree : idFree b o.orderId) :
    BookWF (match_order b o).1 ∧ SortedBook (match_order b o).1 ∧
    NoCross (match_order b o).1 ∧
    (∀ k ∈ (match_order b o).1.orderMap.map Prod.fst,
      k ∈ b.orderMap.map Prod.fst ∨ k = o.orderId) := by
  by_cases hq : o.quantity ≤ 0
  · have hmo : match_order b o = (b, []) := by
      unfold match_order
      rw [if_pos hq]
    rw [hmo]
    exact ⟨hWF, hS, hNC, fun k hk => Or.inl hk⟩
  · have hmo : match_order b o =
        (if 0 < (matchRun b o).2.1.getRemainingQuantity
         then (matchRun b o).1.add_order (matchRun b o).2.1
         else (matchRun b o).1, (matchRun b o).2.2) := by
      unfold match_order
      rw [if_neg hq]
    obtain ⟨rWF, rfree, rid, rtype, rprice, rquant, rsym, rcl, rpost, rsum, rmap,
      rown, ropp, rmkeys⟩ := matchRun_master hWF hfree
    cases hty : o.type
    ·
      rw [hty] at rtype rown ropp
      have hbuyeq : (matchRun b o).1.buyOrders = b.buyOrders := rown
      have hsellkeys : List.Sublist (ladderKeys (matchRun b o).1.sellOrders)
          (ladderKeys b.sellOrders) := ropp
      have hS' : SortedBook (matchRun b o).1 := by
        constructor
        · rw [hbuyeq]
          exact hS.1
        · exact List.Pairwise.sublist hsellkeys hS.2
      have hNC' : NoCross (matchRun b o).1 := by
        intro pb hpb pa hpa
        rw [hbuyeq] at hpb
        exact hNC pb hpb pa (hsellkeys.subset hpa)
      by_cases hrem : 0 < (matchRun b o).2.1.getRemainingQuantity
      · have hnm : noMatchTop (matchRun b o).1 (matchRun b o).2.1 = true := by
          rcases rpost with h | h
          · exact absurd hrem h
          · exact h
        have hq' : ¬ (matchRun b o).2.1.quantity ≤ 0 := by
          rw [rquant]
          exact hq
        have hfree' : idFree (matchRun b o).1 (matchRun b o).2.1.orderId := by
          rw [rid]
          exact rfree
        obtain ⟨haB, haS, haM, haR⟩ :=
          add_order_fields_buy rtype hq' (fun kv hkv => hfree'.2 kv hkv)
        have hask : ∀ pa ∈ ladderKeys (matchRun b o).1.sellOrders, o.price < pa := by
          have := noMatchTop_buy_all rtype hS'.2 hnm
          rw [rprice] at this
          exact this
        rw [hmo]
        rw [if_pos hrem]
        refine ⟨add_order_WF rWF hfree' hq' hrem, ?_, ?_, ?_⟩
        · constructor
          · show List.Pairwise (· > ·)
              (ladderKeys ((matchRun b o).1.add_order (matchRun b o).2.1).buyOrders)
            rw [haB]
            exact sorted_insertOrderDesc hS'.1
          · show List.Pairwise (· < ·)
              (ladderKeys ((matchRun b o).1.add_order (matchRun b o).2.1).sellOrders)
            rw [haS]
            exact hS'.2
        · intro pb hpb pa hpa
          rw [haB] at hpb
          rw [haS] at hpa
          rcases ladderKeys_insertOrderDesc_mem hpb with h | h
          · rw [h, rprice]
            exact hask pa hpa
          · exact hNC' pb h pa hpa
        · intro k hk
          rw [haM, List.map_cons] at hk
          rcases List.mem_cons.mp hk with h | h
          · exact Or.inr (h.trans rid)
          · exact Or.inl (rmkeys.subset h)
      · rw [hmo, if_neg hrem]
        exact ⟨rWF, hS', hNC', fun k hk => Or.inl (rmkeys.subset hk)⟩
    ·
      rw [hty] at rtype rown ropp
      have hselleq : (matchRun b o).1.sellOrders = b.sellOrders := rown
      have hbuykeys : List.Sublist (ladderKeys (matchRun b o).1.buyOrders)
          (ladderKeys b.buyOrders) := ropp
      have hS' : SortedBook (matchRun b o).1 := by
        constructor
        · exact List.Pairwise.sublist hbuykeys hS.1
        · rw [hselleq]
          exact hS.2
      have hNC' : NoCross (matchRun b o).1 := by
        intro pb hpb pa hpa
        rw [hselleq] at hpa
        exact hNC pb (hbuykeys.subset hpb) pa hpa
      by_cases hrem : 0 < (matchRun b o).2.1.getRemainingQuantity
      · have hnm : noMatchTop (matchRun b o).1 (matchRun b o).2.1 = true := by
          rcases rpost with h | h
          · exact absurd hrem h
          · exact h
        have hq' : ¬ (matchRun b o).2.1.quantity ≤ 0 := by
          rw [rquant]
          exact hq
        have hfree' : idFree (matchRun b o).1 (matchRun b o).2.1.orderId := by
          rw [rid]
          exact rfree
        obtain ⟨haS, haB, haM, haR⟩ :=
          add_order_fields_sell rtype hq' (fun kv hkv => hfree'.2 kv hkv)
        have hbid : ∀ pb ∈ ladderKeys (matchRun b o).1.buyOrders, pb < o.price := by
          have := noMatchTop_sell_all rtype hS'.1 hnm
          rw [rprice] at this
          exact this
        rw [hmo]
        rw [if_pos hrem]
        refine ⟨add_order_WF rWF hfree' hq' hrem, ?_, ?_, ?_⟩
        · constructor
          · show List.Pairwise (· > ·)
              (ladderKeys ((matchRun b o).1.add_order (matchRun b o).2.1).buyOrders)
            rw [haB]
            exact hS'.1
          · show List.Pairwise (· < ·)
              (ladderKeys ((matchRun b o).1.add_order (matchRun b o).2.1).sellOrders)
            rw [haS]
            exact sorted_insertOrderAsc hS'.2
        · intro pb hpb pa hpa
          rw [haB] at hpb
          rw [haS] at hpa
          rcases ladderKeys_insertOrderAsc_mem hpa with h | h
          · rw [h, rprice]
            exact hbid pb hpb
          · exact hNC' pb hpb pa h
        · intro k hk
          rw [haM, List.map_cons] at hk
          rcases List.mem_cons.mp hk with h | h
          · exact Or.inr (h.trans rid)
          · exact Or.inl (rmkeys.subset h)
      · rw [hmo, if_neg hrem]
        exact ⟨rWF, hS', hNC', fun k hk => Or.inl (rmkeys.subset hk)⟩

/-! ## The engine invariant across the public operations -/

theorem idFree_of_engineInv {e : MatchingEngine} (hI : EngineInv e) :
    idFree e.orderBook (oid (e.orderCounter + 1)) := by
  obtain ⟨hWF, hS, hNC, hD⟩ := hI
  have hkey : ∀ kv ∈ e.orderBook.orderMap, kv.1 ≠ oid (e.orderCounter + 1) := by
    intro kv hkv hc
    obtain ⟨j, hj1, hjc, hjk⟩ := hD kv hkv
    rw [hjk] at hc
    have := oid_inj hc
    omega
  constructor
  · intro x hx hc
    have hlook : lookupOrder e.orderBook.orderMap x.orderId = some x := by
      unfold allOrders at hx
      rcases List.mem_append.mp hx with h | h
      · obtain ⟨q', hq', hyq⟩ := List.mem_flatten.mp h
        obtain ⟨pq, hpq, rfl⟩ := List.mem_map.mp hq'
        exact (hWF.2.2.1 pq hpq x hyq).1
      · obtain ⟨q', hq', hyq⟩ := List.mem_flatten.mp h
        obtain ⟨pq, hpq, rfl⟩ := List.mem_map.mp hq'
        exact (hWF.2.2.2.1 pq hpq x hyq).1
    have hmem := mem_of_lookup hlook
    exact hkey (x.orderId, x) hmem hc
  · exact hkey

theorem submit_preserves_inv {e : MatchingEngine} (hI : EngineInv e)
    (t : OrderType) (p : Rat) (q : Int) (sym cl : String) :
    EngineInv (e.submit_order t p q sym cl).1 := by
  obtain ⟨hWF, hS, hNC, hD⟩ := hI
  by_cases hinv : q ≤ 0 ∨ p ≤ 0
  · have h : (e.submit_order t p q sym cl).1 = e := by
      unfold MatchingEngine.submit_order
      rw [if_pos hinv]
    rw [h]
    exact ⟨hWF, hS, hNC, hD⟩
  · have h : (e.submit_order t p q sym cl).1 =
        ⟨(match_order e.orderBook
            (mkOrder (oid (e.orderCounter + 1)) t p q sym cl)).1,
          e.orderCounter + 1⟩ := by
      unfold MatchingEngine.submit_order
      rw [if_neg hinv]
    rw [h]
    have hfree : idFree e.orderBook
        (mkOrder (oid (e.orderCounter + 1)) t p q sym cl).orderId :=
      idFree_of_engineInv ⟨hWF, hS, hNC, hD⟩
    obtain ⟨mWF, mS, mNC, mkeys⟩ := match_order_inv hWF hS hNC hfree
    refine ⟨mWF, mS, mNC, ?_⟩
    intro kv hkv
    rcases mkeys kv.1 (List.mem_map_of_mem Prod.fst hkv) with hk | hk
    · obtain ⟨kv₀, hkv₀, hfst⟩ := List.mem_map.mp hk
      obtain ⟨j, hj1, hjc, hjk⟩ := hD kv₀ hkv₀
      refine ⟨j, hj1, ?_, by rw [← hfst, hjk]⟩
      show j ≤ e.orderCounter + 1
      omega
    · refine ⟨e.orderCounter + 1, by omega, ?_, hk⟩
      show e.orderCounter + 1 ≤ e.orderCounter + 1
      omega

theorem cancel_preserves_inv {e : MatchingEngine} (hI : EngineInv e) (id : String) :
    EngineInv (e.cancel_order id).1 := by
  obtain ⟨hWF, hS, hNC, hD⟩ := hI
  obtain ⟨cWF, cS, cNC, ckeys⟩ := cancel_order_inv id hWF hS hNC
  have hb : (e.cancel_order id).1.orderBook = (e.orderBook.cancel_order id).1 := rfl
  have hc : (e.cancel_order id).1.orderCounter = e.orderCounter := rfl
  refine ⟨by rw [hb]; exact cWF, by rw [hb]; exact cS, by rw [hb]; exact cNC, ?_⟩
  rw [hb, hc]
  intro kv hkv
  obtain ⟨kv₀, hkv₀, hfst⟩ := List.mem_map.mp (ckeys.subset
    (List.mem_map_of_mem Prod.fst hkv))
  obtain ⟨j, hj1, hjc, hjk⟩ := hD kv₀ hkv₀
  exact ⟨j, hj1, hjc, by rw [← hfst, hjk]⟩

theorem modify_preserves_inv {e : MatchingEngine} (hI : EngineInv e)
    (id : String) (p : Rat) (q : Int) :
    EngineInv (e.modify_order id p q).1 := by
  obtain ⟨hWF, hS, hNC, hD⟩ := hI
  cases hg : e.orderBook.get_order id with
  | none =>
    have h : (e.modify_order id p q).1 = e := by
      unfold MatchingEngine.modify_order
      rw [hg]
    rw [h]
    exact ⟨hWF, hS, hNC, hD⟩
  | some x =>
    by_cases hst : x.status ≠ OrderStatus.PENDING
    · have h : (e.modify_order id p q).1 = e := by
        unfold MatchingEngine.modify_order
        rw [hg]
        dsimp only
        rw [if_pos hst]
      rw [h]
      exact ⟨hWF, hS, hNC, hD⟩
    · have h : (e.modify_order id p q).1 =
          ⟨(match_order (e.orderBook.cancel_order id).1
              (mkOrder id x.type p q x.symbol x.clientId)).1, e.orderCounter⟩ := by
        unfold MatchingEngine.modify_order
        rw [hg]
        dsimp only
        rw [if_neg hst]
      rw [h]
      have hl : lookupOrder e.orderBook.orderMap id = some x := hg
      obtain ⟨cWF, cS, cNC, ckeys⟩ := cancel_order_inv id hWF hS hNC
      have hfree : idFree (e.orderBook.cancel_order id).1
          (mkOrder id x.type p q x.symbol x.clientId).orderId :=
        idFree_cancel_self hWF hS hl
      obtain ⟨mWF, mS, mNC, mkeys⟩ := match_order_inv cWF cS cNC hfree
      refine ⟨mWF, mS, mNC, ?_⟩
      intro kv hkv
      rcases mkeys kv.1 (List.mem_map_of_mem Prod.fst hkv) with hk | hk
      · obtain ⟨kv₀, hkv₀, hfst⟩ := List.mem_map.mp (ckeys.subset hk)
        obtain ⟨j, hj1, hjc, hjk⟩ := hD kv₀ hkv₀
        exact ⟨j, hj1, hjc, by rw [← hfst, hjk]⟩
      · have hidmem : id ∈ e.orderBook.orderMap.map Prod.fst := mem_keys_of_lookup hl
        obtain ⟨kv₀, hkv₀, hfst⟩ := List.mem_map.mp hidmem
        obtain ⟨j, hj1, hjc, hjk⟩ := hD kv₀ hkv₀
        exact ⟨j, hj1, hjc, by rw [hk]; show id = oid j; rw [← hfst, hjk]⟩

/-- Every reachable engine state satisfies the engine invariant: a
well-formed, sorted, uncrossed book whose index keys were all issued by the
order-id counter. -/
theorem reachable_engineInv {e : MatchingEngine} (h : Reachable e) :
    EngineInv e := by
  induction h with
  | init rng =>
    refine ⟨⟨?_, ?_, ?_, ?_, ?_, ?_, ?_, ?_⟩, ⟨?_, ?_⟩, ?_, ?_⟩ <;>
      simp [MatchingEngine.init, allOrders, ordersOf, ladderKeys, NoCross]
  | submit t p q sym cl _ ih => exact submit_preserves_inv ih t p q sym cl
  | cancel id _ ih => exact cancel_preserves_inv ih id
  | modify id p q _ ih => exact modify_preserves_inv ih id p q

/-! ## Claims C3, C4 and the amended C7 -/

/-- Claim C3 (confirmed).  No crossed book: in every engine state reachable
through the public operations (submit / cancel / modify from a fresh
engine), every resting bid price is strictly below every resting ask price —
with both sides non-empty this is exactly
`max(bids.keys) < min(asks.keys)`. -/
theorem c3_no_crossed_book {e : MatchingEngine} (h : Reachable e) :
    NoCross e.orderBook :=
  (reachable_engineInv h).2.2.1

theorem c3_witness :
    NoCross (((MatchingEngine.init []).submit_order .BUY 99 10 "S"
      "C").1.submit_order .SELL 101 10 "S" "C").1.orderBook :=
  c3_no_crossed_book
    (Reachable.submit .SELL 101 10 "S" "C"
      (Reachable.submit .BUY 99 10 "S" "C" (Reachable.init [])))

/-- Claim C4 (confirmed).  Conservation of quantity for one submit's
matching run: the trades a valid submit returns are exactly the matching
run's trades; their total quantity equals the submitted quantity minus the
aggressor's remaining quantity at the end of the run, and simultaneously
equals the total reduction of resting remaining quantity in the id→order
index. -/
theorem c4_conservation {e : MatchingEngine} (hR : Reachable e)
    (t : OrderType) (p : Rat) (q : Int) (sym cl : String)
    (hq : 0 < q) (hp : 0 < p) :
    (e.submit_order t p q sym cl).2.2 =
      (matchRun e.orderBook
        (mkOrder (oid (e.orderCounter + 1)) t p q sym cl)).2.2 ∧
    ((matchRun e.orderBook
        (mkOrder (oid (e.orderCounter + 1)) t p q sym cl)).2.2.map
          Trade.quantity).sum =
      q - (matchRun e.orderBook
        (mkOrder (oid (e.orderCounter + 1)) t p q sym cl)).2.1.getRemainingQuantity ∧
    ((matchRun e.orderBook
        (mkOrder (oid (e.orderCounter + 1)) t p q sym cl)).2.2.map
          Trade.quantity).sum =
      mapRemaining e.orderBook.orderMap -
        mapRemaining (matchRun e.orderBook
          (mkOrder (oid (e.orderCounter + 1)) t p q sym cl)).1.orderMap := by
  have hI := reachable_engineInv hR
  have hfree : idFree e.orderBook
      (mkOrder (oid (e.orderCounter + 1)) t p q sym cl).orderId :=
    idFree_of_engineInv hI
  obtain ⟨rWF, rfree, rid, rtype, rprice, rquant, rsym, rcl, rpost, rsum, rmap,
    rown, ropp, rmkeys⟩ := matchRun_master hI.1 hfree
  have hvalid : ¬ (q ≤ 0 ∨ p ≤ 0) := by
    intro hc
    rcases hc with hc | hc
    · omega
    · exact absurd hp (not_lt.mpr hc)
  have hq' : ¬ (mkOrder (oid (e.orderCounter + 1)) t p q sym cl).quantity ≤ 0 := by
    show ¬ q ≤ 0
    omega
  have hrem0 : (mkOrder (oid (e.orderCounter + 1)) t p q sym cl).getRemainingQuantity
      = q := by
    show q - 0 = q
    omega
  refine ⟨?_, ?_, ?_⟩
  · show (MatchingEngine.submit_order e t p q sym cl).2.2 = _
    unfold MatchingEngine.submit_order
    rw [if_neg hvalid]
    show (match_order e.orderBook (mkOrder (oid (e.orderCounter + 1)) t p q sym cl)).2
      = _
    unfold match_order
    rw [if_neg hq']
  · rw [hrem0] at rsum
    omega
  · rw [hrem0] at rsum
    omega

set_option maxHeartbeats 1000000 in
theorem c4_witness :
    (c2TwoSells.submit_order OrderType.BUY 100 60 "DEFAULT" "DEFAULT").2.2 =
      (matchRun c2TwoSells.orderBook
        (mkOrder (oid (c2TwoSells.orderCounter + 1)) OrderType.BUY 100 60 "DEFAULT"
          "DEFAULT")).2.2 ∧
    ((matchRun c2TwoSells.orderBook
        (mkOrder (oid (c2TwoSells.orderCounter + 1)) OrderType.BUY 100 60 "DEFAULT"
          "DEFAULT")).2.2.map Trade.quantity).sum =
      60 - (matchRun c2TwoSells.orderBook
        (mkOrder (oid (c2TwoSells.orderCounter + 1)) OrderType.BUY 100 60 "DEFAULT"
          "DEFAULT")).2.1.getRemainingQuantity ∧
    ((matchRun c2TwoSells.orderBook
        (mkOrder (oid (c2TwoSells.orderCounter + 1)) OrderType.BUY 100 60 "DEFAULT"
          "DEFAULT")).2.2.map Trade.quantity).sum =
      mapRemaining c2TwoSells.orderBook.orderMap -
        mapRemaining (matchRun c2TwoSells.orderBook
          (mkOrder (oid (c2TwoSells.orderCounter + 1)) OrderType.BUY 100 60 "DEFAULT"
            "DEFAULT")).1.orderMap :=
  c4_conservation
    (Reachable.submit .SELL 100 50 "DEFAULT" "DEFAULT"
      (Reachable.submit .SELL 100 50 "DEFAULT" "DEFAULT"
        (Reachable.init [100000])))
    OrderType.BUY 100 60 "DEFAULT" "DEFAULT" (by decide) (by decide)

theorem levelQueue_add_order_own {b : OrderBook} {o : Order}
    (hq : ¬ o.quantity ≤ 0) (hfreeK : ∀ kv ∈ b.orderMap, kv.1 ≠ o.orderId)
    (hsb : List.Pairwise (· > ·) (ladderKeys b.buyOrders))
    (hss : List.Pairwise (· < ·) (ladderKeys b.sellOrders)) :
    levelQueue (ownLadder (b.add_order o) o.type) o.price
      = levelQueue (ownLadder b o.type) o.price ++ [o] := by
  cases hty : o.type
  case BUY =>
    obtain ⟨haB, haS, haM, haR⟩ := add_order_fields_buy hty hq hfreeK
    show levelQueue (b.add_order o).buyOrders o.price
      = levelQueue b.buyOrders o.price ++ [o]
    rw [haB]
    exact levelQueue_insertOrderDesc o hsb
  case SELL =>
    obtain ⟨haS, haB, haM, haR⟩ := add_order_fields_sell hty hq hfreeK
    show levelQueue (b.add_order o).sellOrders o.price
      = levelQueue b.sellOrders o.price ++ [o]
    rw [haS]
    exact levelQueue_insertOrderAsc o hss

/-- Claim C7 (amended).  `modify_order` on a resting `PENDING` order is not
cancel + a fresh submit: it succeeds, bumps no counter, and re-matches a
replacement carrying the SAME id; when the replacement does not cross the
opposite top it emits no trade and the reissued order joins the BACK of its
new price level, behind every same-price predecessor (the time-priority
loss the spec describes, but with the original id rather than a fresh
one). -/
theorem c7_amended_modify_same_id_back_of_queue {e : MatchingEngine}
    {id : String} {x : Order} {p' : Rat} {q' : Int}
    (hR : Reachable e)
    (hg : e.orderBook.get_order id = some x)
    (hst : x.status = OrderStatus.PENDING)
    (hq : 0 < q')
    (hnm : noMatchTop (e.orderBook.cancel_order id).1
      (mkOrder id x.type p' q' x.symbol x.clientId) = true) :
    (e.modify_order id p' q').2.1 = true ∧
    (e.modify_order id p' q').1.orderCounter = e.orderCounter ∧
    (e.modify_order id p' q').2.2 = [] ∧
    levelQueue (ownLadder (e.modify_order id p' q').1.orderBook x.type) p'
      = levelQueue (ownLadder (e.orderBook.cancel_order id).1 x.type) p'
        ++ [mkOrder id x.type p' q' x.symbol x.clientId] := by
  have hI := reachable_engineInv hR
  obtain ⟨hWF, hS, hNC, hD⟩ := hI
  have hl : lookupOrder e.orderBook.orderMap id = some x := hg
  have hst' : ¬ x.status ≠ OrderStatus.PENDING := by
    rw [hst]
    simp
  have hmod : e.modify_order id p' q' =
      (⟨(match_order (e.orderBook.cancel_order id).1
          (mkOrder id x.type p' q' x.symbol x.clientId)).1, e.orderCounter⟩, true,
        (match_order (e.orderBook.cancel_order id).1
          (mkOrder id x.type p' q' x.symbol x.clientId)).2) := by
    unfold MatchingEngine.modify_order
    rw [hg]
    dsimp only
    rw [if_neg hst']
  have hq' : ¬ (mkOrder id x.type p' q' x.symbol x.clientId).quantity ≤ 0 := by
    show ¬ q' ≤ 0
    omega
  have hrem : 0 < (mkOrder id x.type p' q' x.symbol x.clientId).getRemainingQuantity := by
    show 0 < q' - 0
    omega
  have hrun := matchRun_of_noMatchTop hnm
  have hmatch : match_order (e.orderBook.cancel_order id).1
      (mkOrder id x.type p' q' x.symbol x.clientId) =
      ((e.orderBook.cancel_order id).1.add_order
        (mkOrder id x.type p' q' x.symbol x.clientId), []) := by
    unfold match_order
    rw [if_neg hq', hrun]
    dsimp only
    rw [if_pos hrem]
  obtain ⟨cWF, cS, cNC, ckeys⟩ := cancel_order_inv id hWF hS hNC
  have hfree : idFree (e.orderBook.cancel_order id).1
      (mkOrder id x.type p' q' x.symbol x.clientId).orderId :=
    idFree_cancel_self hWF hS hl
  refine ⟨by rw [hmod], by rw [hmod], by rw [hmod, hmatch], ?_⟩
  rw [hmod]
  show levelQueue (ownLadder (match_order (e.orderBook.cancel_order id).1
    (mkOrder id x.type p' q' x.symbol x.clientId)).1 x.type) p' = _
  rw [hmatch]
  show levelQueue (ownLadder ((e.orderBook.cancel_order id).1.add_order
      (mkOrder id x.type p' q' x.symbol x.clientId))
      (mkOrder id x.type p' q' x.symbol x.clientId).type)
      (mkOrder id x.type p' q' x.symbol x.clientId).price
    = levelQueue (ownLadder (e.orderBook.cancel_order id).1
        (mkOrder id x.type p' q' x.symbol x.clientId).type)
        (mkOrder id x.type p' q' x.symbol x.clientId).price
      ++ [mkOrder id x.type p' q' x.symbol x.clientId]
  exact levelQueue_add_order_own hq' (fun kv hkv => hfree.2 kv hkv) cS.1 cS.2

theorem c7_amended_witness :
    (c7Resting.modify_order "O1" 101 50).2.1 = true ∧
    (c7Resting.modify_order "O1" 101 50).1.orderCounter = c7Resting.orderCounter ∧
    (c7Resting.modify_order "O1" 101 50).2.2 = [] ∧
    levelQueue (ownLadder (c7Resting.modify_order "O1" 101 50).1.orderBook
        OrderType.SELL) 101
      = levelQueue (ownLadder (c7Resting.orderBook.cancel_order "O1").1
          OrderType.SELL) 101
        ++ [mkOrder "O1" OrderType.SELL 101 50 "DEFAULT" "DEFAULT"] :=
  @c7_amended_modify_same_id_back_of_queue c7Resting "O1"
    ⟨"O1", .SELL, 100, 50, 0, .PENDING, "DEFAULT", "DEFAULT"⟩ 101 50
    (Reachable.submit .SELL 100 50 "DEFAULT" "DEFAULT" (Reachable.init [100000]))
    (by decide) (by decide) (by decide) (by decide)
